import Mathlib

/-!
# BillMaster: the sale transaction engine

A shallow embedding of the billing core of `BillMaster.cpp` (advanced variant, with the
basic variants where a property refers to them) and theorems about it.

Conventions of the embedding.

* A `std::string` is the list of its characters (`Str`).
* A `double` holding money is modelled twice.  In the first part of the development it is
  an exact rational number, which is enough for the properties that do not depend on
  rounding (stock, files, identifiers, the order of the steps).  In the second part
  (type `Double`, definitions whose names end in `_d` or `D`) it is an IEEE-754 binary64
  value: every operation rounds to the nearest value of the type, ties to even, with signed
  zeros, infinities and NaN, and `std::stod` and the output operators are modelled on the
  text; the properties about amounts and about what the conversions accept are proved there.
* An `int` is an integer; the places where the source depends on the 32-bit range
  (`stoi` throwing `out_of_range`) carry the range explicitly.
* A file is `Option Str`: `none` when it does not exist, otherwise its content.
* Console input is a list of already tokenised entries, one per loop iteration; a loop that
  runs out of input yields `none`.  Console output is not modelled.
-/

namespace BillMaster

/-! ## Strings and numeric conversions of the C++ library -/

/-- A `std::string`. -/
abbrev Str := List Char

/-- The decimal digit character of `d` (for `d < 10`). -/
def digitChar (d : Nat) : Char := Char.ofNat (d + 48)

/-- The value of a decimal digit character. -/
def digitVal (c : Char) : Nat := c.toNat - 48

/-- The digits of `n`, least significant last, exactly `w` of them (leading zeros kept). -/
def fixedDigits : Nat → Nat → Str
  | 0, _ => []
  | w + 1, n => fixedDigits w (n / 10) ++ [digitChar (n % 10)]

/-- The decimal digits of `n` without leading zeros; the first argument bounds the length. -/
def decDigits : Nat → Nat → Str
  | 0, _ => []
  | fuel + 1, n => if n < 10 then [digitChar n] else decDigits fuel (n / 10) ++ [digitChar (n % 10)]

/-- What `std::to_string(unsigned)` prints. -/
def natStr (n : Nat) : Str := decDigits (n + 1) n

/-- What `std::to_string(int)` prints (`%d`). -/
def to_string_int (n : Int) : Str :=
  if n < 0 then '-' :: natStr n.natAbs else natStr n.natAbs

/-- Rounding to the nearest integer, ties to even (the default rounding of `printf`). -/
def roundHalfEven (x : ℚ) : Int :=
  let f := ⌊x⌋
  let r := x - f
  if r < 1 / 2 then f else if 1 / 2 < r then f + 1 else if f % 2 = 0 then f else f + 1

/-- Fixed notation with `prec` decimals: `printf("%.*f", prec, x)`, which is also
`std::fixed << std::setprecision(prec)`. -/
def fixedStr (prec : Nat) (x : ℚ) : Str :=
  let n := (roundHalfEven (|x| * 10 ^ prec)).toNat
  let body := natStr (n / 10 ^ prec) ++
    (if prec = 0 then [] else '.' :: fixedDigits prec (n % 10 ^ prec))
  if x < 0 then '-' :: body else body

/-- What `std::to_string(double)` prints (`%f`, six decimals). -/
def to_string_double (x : ℚ) : Str := fixedStr 6 x

/-- The predicate `isspace` of the C locale. -/
def isspace (c : Char) : Bool :=
  c = ' ' || c = '\t' || c = '\n' || c = '\r' || c.toNat = 11 || c.toNat = 12

/-- The value of a string of decimal digits, most significant first. -/
def digitsVal (s : Str) : Nat := s.foldl (fun acc c => acc * 10 + digitVal c) 0

/-- An optional sign: whether it is `-`, and the text after it. -/
def parseSign : Str → Bool × Str
  | '-' :: r => (true, r)
  | '+' :: r => (false, r)
  | r => (false, r)

/-- The integer that `strtol(s, _, 10)` converts: leading white space, an optional sign and
a non-empty run of decimal digits; anything after the digits is ignored.  `none` when no
conversion can be performed. -/
def strtol (s : Str) : Option Int :=
  let (neg, r) := parseSign (s.dropWhile isspace)
  let ds := r.takeWhile Char.isDigit
  if ds = [] then none
  else some (if neg then -(digitsVal ds : Int) else (digitsVal ds : Int))

/-- The function `std::stoi`: `none` stands for a thrown exception, `invalid_argument` when
no conversion can be performed and `out_of_range` when the value does not fit an `int`. -/
def stoi (s : Str) : Option Int :=
  match strtol s with
  | none => none
  | some v => if -2147483648 ≤ v ∧ v ≤ 2147483647 then some v else none

/-- The function `std::stoll`: as `stoi`, with the range of `long long`. -/
def stoll (s : Str) : Option Int :=
  match strtol s with
  | none => none
  | some v => if -9223372036854775808 ≤ v ∧ v ≤ 9223372036854775807 then some v else none

/-- The exponent part of a decimal floating literal: `e` or `E`, an optional sign and at
least one digit.  Without such a part the exponent is `0`. -/
def parseExponent : Str → Int
  | c :: r =>
    if c = 'e' ∨ c = 'E' then
      let (neg, r2) := parseSign r
      let ds := r2.takeWhile Char.isDigit
      if ds = [] then 0 else if neg then -(digitsVal ds : Int) else (digitsVal ds : Int)
    else 0
  | [] => 0

/-- Scaling by a power of ten. -/
def scale10 (m : ℚ) (e : Int) : ℚ :=
  if 0 ≤ e then m * 10 ^ e.toNat else m / 10 ^ (-e).toNat

/-- The function `std::stod` on decimal input: leading white space, an optional sign, digits
with an optional decimal point (at least one digit in all), an optional exponent; anything
after that is ignored.  `none` stands for the thrown `invalid_argument`.  Hexadecimal
literals, `inf`, `nan` and the range error are outside the model. -/
def stod (s : Str) : Option ℚ :=
  let (neg, r) := parseSign (s.dropWhile isspace)
  let ip := r.takeWhile Char.isDigit
  let r1 := r.dropWhile Char.isDigit
  let fp := match r1 with
    | '.' :: r2 => r2.takeWhile Char.isDigit
    | _ => []
  let r3 := match r1 with
    | '.' :: r2 => r2.dropWhile Char.isDigit
    | _ => r1
  if ip = [] ∧ fp = [] then none
  else
    let m : ℚ := (digitsVal ip : ℚ) + (digitsVal fp : ℚ) / 10 ^ fp.length
    let v := scale10 m (parseExponent r3)
    some (if neg then -v else v)

/-- The fields that repeated `getline(stream, field, d)` extracts from a text: the text is
cut at every `d`, and nothing is extracted after the last `d` when no character follows it.
With `d` the newline this is also the sequence of lines of a file. -/
def splitOn (d : Char) : Str → List Str
  | [] => []
  | c :: cs =>
    if c = d then [] :: splitOn d cs
    else match splitOn d cs with
      | [] => [[c]]
      | f :: fs => (c :: f) :: fs

/-- Whether a character is a blank or a tab. -/
def isBlank (c : Char) : Bool := c = ' ' || c = '\t'

/-- The two `erase` calls of `parse_line`: leading and trailing blanks and tabs removed. -/
def trim (s : Str) : Str := (s.dropWhile isBlank).rdropWhile isBlank

/-- Trailing zeros removed, as `%g` does. -/
def stripZeros (s : Str) : Str := s.rdropWhile (fun c => c = '0')

/-- Search upwards for the decimal exponent of `a ≥ 1`. -/
def expUp : Nat → ℚ → Int → Int
  | 0, _, e => e
  | fuel + 1, a, e => if a < 10 then e else expUp fuel (a / 10) (e + 1)

/-- Search downwards for the decimal exponent of `0 < a < 1`. -/
def expDown : Nat → ℚ → Int → Int
  | 0, _, e => e
  | fuel + 1, a, e => if 1 ≤ a then e else expDown fuel (a * 10) (e - 1)

/-- The decimal exponent `e` of `a > 0`: `10 ^ e ≤ a < 10 ^ (e + 1)`. -/
def decExponent (a : ℚ) : Int :=
  if 1 ≤ a then expUp a.num.natAbs a 0 else expDown a.den a 0

/-- The exponent field of `%e` and `%g`: a sign and at least two digits. -/
def expField (e : Int) : Str :=
  (if e < 0 then '-' else '+') ::
    (if e.natAbs < 10 then '0' :: natStr e.natAbs else natStr e.natAbs)

/-- What `stream << x` prints for a `double` with the default flags of a stream
(`%g` with six significant digits). -/
def gStr (x : ℚ) : Str :=
  if x = 0 then ['0']
  else
    let a := |x|
    let e0 := decExponent a
    let m0 := (roundHalfEven (scale10 a (5 - e0))).toNat
    let m := if m0 = 1000000 then 100000 else m0
    let e := if m0 = 1000000 then e0 + 1 else e0
    let ds := fixedDigits 6 m
    let body :=
      if -4 ≤ e ∧ e < 6 then
        if 0 ≤ e then
          let fp := stripZeros (ds.drop (e.toNat + 1))
          if fp = [] then ds.take (e.toNat + 1) else ds.take (e.toNat + 1) ++ '.' :: fp
        else '0' :: '.' :: (List.replicate (-e - 1).toNat '0' ++ stripZeros ds)
      else
        let fp := stripZeros (ds.drop 1)
        (if fp = [] then ds.take 1 else ds.take 1 ++ '.' :: fp) ++ 'e' :: expField e
    if x < 0 then '-' :: body else body

/-- A `std::stringstream` read with `getline`: `none` once the end of the text has been
hit (the stream is no longer good), otherwise the text not yet read. -/
abbrev SStream := Option Str

/-- One `getline(ss, str, d)`: the new value of `str` and the stream afterwards.  On a stream
that is no longer good the call fails before touching `str`, which keeps its old value. -/
def sgetline (d : Char) (ss : SStream) (old : Str) : Str × SStream :=
  match ss with
  | none => (old, none)
  | some [] => ([], none)
  | some s =>
    match s.dropWhile (fun c => c ≠ d) with
    | [] => (s.takeWhile (fun c => c ≠ d), none)
    | _ :: r => (s.takeWhile (fun c => c ≠ d), some r)

/-! ## Data model -/

/-- The struct `ItemRec`, a product of the catalog. -/
structure ItemRec where
  name : Str := []
  barcode : Str := []
  category : Str := []
  supplier : Str := []
  rate : ℚ := 0
  qty : Int := 0
  low_stock_threshold : Int := 5
  last_updated : Int := 0
  deriving DecidableEq

/-- The struct `Customer`. -/
structure Customer where
  id : Str := []
  name : Str := []
  phone : Str := []
  email : Str := []
  loyalty_points : ℚ := 0
  total_spent : ℚ := 0
  visit_count : Int := 0
  last_visit : Int := 0
  deriving DecidableEq

/-- The enumerators of `PaymentMethod`. -/
def CASH : Int := 1

/-- The struct `Payment`; `method` holds the enumerator value `1..4`. -/
structure Payment where
  method : Int
  amount : ℚ
  reference_number : Str := []
  timestamp : Int
  deriving DecidableEq

/-- The constant `VAT_RATE`. -/
def VAT_RATE : ℚ := 5 / 100

/-- The constant `DISCOUNT_THRESHOLD`. -/
def DISCOUNT_THRESHOLD : ℚ := 500

/-- The constant `DISCOUNT_AMOUNT`. -/
def DISCOUNT_AMOUNT : ℚ := 50

/-- The durable state of the process: the three files `Bill.txt`, `customers.txt` and
`Sales.txt` (`none` when the file does not exist) and the static counter of
`generate_customer_id`. -/
structure World where
  inventory : Option Str := none
  customers : Option Str := none
  sales : Option Str := none
  counter : Nat := 1000
  deriving DecidableEq

/-- The function `generate_customer_id`: the identifier and the counter afterwards. -/
def generate_customer_id (counter : Nat) : Str × Nat :=
  ("CUST".toList ++ natStr (counter + 1), counter + 1)

/-! ## Catalog store -/

/-- The function `parse_line`.  `out` is the record the caller passes in; `none` stands for
the result `false` (the only caller, `load_inventory`, then discards the record). -/
def parse_line (line : Str) (out : ItemRec) : Option ItemRec :=
  if line = [] ∨ line.head? = some '#' then none
  else
    let parts := splitOn '|' line
    if parts.length < 3 then none
    else
      let name := trim (parts.getD 0 [])
      match stod (parts.getD 1 []) with
      | none => none
      | some rate =>
        match stoi (parts.getD 2 []) with
        | none => none
        | some qty =>
          let barcode := if parts.length > 3 then parts.getD 3 [] else out.barcode
          let category := if parts.length > 4 then parts.getD 4 [] else out.category
          let supplier := if parts.length > 5 then parts.getD 5 [] else out.supplier
          match (if parts.length > 6 then stoi (parts.getD 6 [])
                 else some out.low_stock_threshold) with
          | none => none
          | some threshold =>
            if name ≠ [] ∧ 0 ≤ rate ∧ 0 ≤ qty then
              some { out with name := name, rate := rate, qty := qty, barcode := barcode,
                              category := category, supplier := supplier,
                              low_stock_threshold := threshold }
            else none

/-- The function `serialize_line`. -/
def serialize_line (r : ItemRec) : Str :=
  r.name ++ '|' :: (to_string_double r.rate ++ '|' :: (to_string_int r.qty ++ '|' ::
    (r.barcode ++ '|' :: (r.category ++ '|' :: (r.supplier ++ '|' ::
      to_string_int r.low_stock_threshold)))))

/-- The comment line that `save_inventory` writes first. -/
def INVENTORY_HEADER : Str :=
  "# Enhanced Inventory File - Format: Name|Rate|Quantity|Barcode|Category|Supplier|LowStockThreshold".toList

/-- The records that the loop of `load_inventory` collects from the text of the file. -/
def parse_inventory (text : Str) : List ItemRec :=
  (splitOn '\n' text).filterMap (fun line => parse_line line {})

/-- The function `load_inventory`: a missing file is created empty. -/
def load_inventory (w : World) : List ItemRec × World :=
  match w.inventory with
  | none => ([], { w with inventory := some [] })
  | some text => (parse_inventory text, w)

/-- The text that `save_inventory` writes. -/
def inventory_text (inv : List ItemRec) : Str :=
  INVENTORY_HEADER ++ '\n' :: (inv.map (fun r => serialize_line r ++ ['\n'])).flatten

/-- The function `save_inventory`; `canOpen` tells whether the file can be opened for
writing.  The content is replaced as a whole. -/
def save_inventory (inv : List ItemRec) (canOpen : Bool) (w : World) : Bool × World :=
  if canOpen then (true, { w with inventory := some (inventory_text inv) }) else (false, w)

/-- The loop of `find_item`, counting from index `i`. -/
def find_item_from (name : Str) : List ItemRec → Int → Int
  | [], _ => -1
  | r :: rest, i => if r.name = name then i else find_item_from name rest (i + 1)

/-- The function `find_item`: the first index holding the name, or `-1`. -/
def find_item (inv : List ItemRec) (name : Str) : Int := find_item_from name inv 0

/-- The barcode search written out in `print_bill_flow`, counting from index `i`. -/
def barcode_index_from (code : Str) : List ItemRec → Int → Int
  | [], _ => -1
  | r :: rest, i => if r.barcode = code then i else barcode_index_from code rest (i + 1)

/-- The barcode search written out in `print_bill_flow`: first index or `-1`. -/
def barcode_index (inv : List ItemRec) (code : Str) : Int := barcode_index_from code inv 0

/-! ## Customer ledger -/

/-- The body of the loop of `load_customers` for one line: `none` when the line is skipped
or an exception drops it. -/
def parse_customer (line : Str) : Option Customer :=
  if line = [] ∨ line.head? = some '#' then none
  else
    let c : Customer := {}
    let f1 := sgetline '|' (some line) c.id
    let f2 := sgetline '|' f1.2 c.name
    let f3 := sgetline '|' f2.2 c.phone
    let f4 := sgetline '|' f3.2 c.email
    let t1 := sgetline '|' f4.2 []
    match stod t1.1 with
    | none => none
    | some points =>
      let t2 := sgetline '|' t1.2 t1.1
      match stod t2.1 with
      | none => none
      | some spent =>
        let t3 := sgetline '|' t2.2 t2.1
        match stoi t3.1 with
        | none => none
        | some visits =>
          let t4 := sgetline '\n' t3.2 t3.1
          match stoll t4.1 with
          | none => none
          | some last =>
            some { id := f1.1, name := f2.1, phone := f3.1, email := f4.1,
                   loyalty_points := points, total_spent := spent,
                   visit_count := visits, last_visit := last }

/-- The function `load_customers`. -/
def load_customers (w : World) : List Customer :=
  match w.customers with
  | none => []
  | some text => (splitOn '\n' text).filterMap parse_customer

/-- The comment line that `save_customers` writes first. -/
def CUSTOMER_HEADER : Str :=
  "# Customer File - Format: ID|Name|Phone|Email|Points|TotalSpent|VisitCount|LastVisit".toList

/-- One line of `customers.txt`. -/
def customer_line (c : Customer) : Str :=
  c.id ++ '|' :: (c.name ++ '|' :: (c.phone ++ '|' :: (c.email ++ '|' ::
    (gStr c.loyalty_points ++ '|' :: (gStr c.total_spent ++ '|' ::
      (to_string_int c.visit_count ++ '|' :: to_string_int c.last_visit))))))

/-- The text that `save_customers` writes. -/
def customers_text (customers : List Customer) : Str :=
  CUSTOMER_HEADER ++ '\n' :: (customers.map (fun c => customer_line c ++ ['\n'])).flatten

/-- The function `save_customers`; `canOpen` tells whether the file can be opened. -/
def save_customers (customers : List Customer) (canOpen : Bool) (w : World) : Bool × World :=
  if canOpen then (true, { w with customers := some (customers_text customers) }) else (false, w)

/-- The loop of `find_customer_by_phone`, counting from index `i`. -/
def find_customer_from (phone : Str) : List Customer → Nat → Option Nat
  | [], _ => none
  | c :: rest, i => if c.phone = phone then some i else find_customer_from phone rest (i + 1)

/-- The function `find_customer_by_phone`: the position of the first customer with that
phone (the pointer the source returns), or `none` for the null pointer. -/
def find_customer_by_phone (customers : List Customer) (phone : Str) : Option Nat :=
  find_customer_from phone customers 0

/-! ## Payment splitter -/

/-- What one iteration of the loop of `process_payment` reads from the console. -/
structure PayInput where
  /-- The result of `cin >> method`; `none` when the extraction fails. -/
  method : Option Int
  /-- The result of `cin >> amount`; `none` when the extraction fails. -/
  amount : Option ℚ
  /-- The line read as reference, asked for when the method is not cash. -/
  reference : Str := []
  /-- The value of `time(0)` when the payment is recorded. -/
  now : Int := 0
  deriving DecidableEq

/-- The loop of `process_payment`, with the locals `remaining` and `payments` as state.
Each iteration consumes one entry of the console input; `none` when the input ends while
an amount is still due. -/
def process_payment_loop : List PayInput → ℚ → List Payment → Option (List Payment)
  | [], remaining, payments => if remaining > 1 / 100 then none else some payments
  | i :: rest, remaining, payments =>
    if remaining > 1 / 100 then
      match i.method with
      | none => process_payment_loop rest remaining payments
      | some method =>
        if method < 1 ∨ method > 4 then process_payment_loop rest remaining payments
        else
          match i.amount with
          | none => process_payment_loop rest remaining payments
          | some entered =>
            if entered ≤ 0 then process_payment_loop rest remaining payments
            else
              let amount := if entered > remaining then remaining else entered
              let payment : Payment :=
                { method := method, amount := amount, timestamp := i.now,
                  reference_number := if method ≠ CASH then i.reference else [] }
              process_payment_loop rest (remaining - amount) (payments ++ [payment])
    else some payments

/-- The function `process_payment`. -/
def process_payment (total_amount : ℚ) (inputs : List PayInput) : Option (List Payment) :=
  process_payment_loop inputs total_amount []

/-- The comment line that `save_sale_record` writes into an empty file. -/
def SALES_HEADER : Str := "# Sales History - Format: DateTime|Customer|Amount|Items".toList

/-- The string `items_list` that `save_sale_record` builds, entry `i` onwards. -/
def items_list : List (ItemRec × Int) → Str
  | [] => []
  | [it] => it.1.name ++ '(' :: (to_string_int it.2 ++ [')'])
  | it :: rest => it.1.name ++ '(' :: (to_string_int it.2 ++ ')' :: ',' :: items_list rest)

/-- The line that `save_sale_record` appends; `datetime` is `get_current_datetime()`. -/
def sale_line (datetime customer_name : Str) (net_total : ℚ) (items : List (ItemRec × Int)) :
    Str :=
  datetime ++ '|' :: (customer_name ++ '|' :: (fixedStr 2 net_total ++ '|' :: items_list items))

/-- The function `save_sale_record`; `canOpen` tells whether `Sales.txt` can be opened for
appending (which creates it when missing). -/
def save_sale_record (datetime customer_name : Str) (net_total : ℚ)
    (items : List (ItemRec × Int)) (canOpen : Bool) (w : World) : World :=
  if canOpen then
    let old := w.sales.getD []
    let head := if old = [] then SALES_HEADER ++ ['\n'] else []
    { w with sales := some (old ++ head ++ sale_line datetime customer_name net_total items
                            ++ ['\n']) }
  else w

/-! ## Transaction engine: `print_bill_flow` -/

/-- The pricing computed when the sale is completed: `vat`, `discount`, `net_total`. -/
structure Pricing where
  vat : ℚ
  discount : ℚ
  net_total : ℚ
  deriving DecidableEq

/-- The three pricing statements of `print_bill_flow` (the same in `quick_sale_mode` and in
the basic variant). -/
def pricing (total : ℚ) : Pricing :=
  let vat := total * VAT_RATE
  let discount := if total > DISCOUNT_THRESHOLD then DISCOUNT_AMOUNT else 0
  { vat := vat, discount := discount, net_total := total + vat - discount }

/-- What one iteration of the menu loop of `print_bill_flow` reads from the console, and
whether `Bill.txt` can be opened for writing during that iteration. -/
structure BillInput where
  /-- The result of `cin >> choice`; `none` when the extraction fails. -/
  choice : Option Int
  /-- The line read as item name or barcode. -/
  input : Str := []
  /-- The result of `cin >> q`; `none` when the extraction fails. -/
  q : Option Int := none
  /-- The answer to "Apply discount?". -/
  apply : Char := 'n'
  /-- Whether `save_inventory` can open the file. -/
  canWrite : Bool := true
  deriving DecidableEq

/-- The locals of `print_bill_flow` together with the durable state.  `customer_obj` is the
position in `customers` the pointer refers to. -/
structure BillState where
  inv : List ItemRec
  customers : List Customer
  customer_obj : Option Nat
  customer_name : Str
  sold_items : List (ItemRec × Int) := []
  total : ℚ := 0
  world : World
  deriving DecidableEq

/-- How one iteration of the menu loop ends. -/
inductive Outcome where
  /-- The loop goes on. -/
  | running (s : BillState)
  /-- "Complete Sale": `close = true`, the loop ends and the sale is priced. -/
  | close (s : BillState)
  /-- "Cancel Sale": the function returns. -/
  | cancelled (s : BillState)
  deriving DecidableEq

/-- The restore loop of "Cancel Sale": each cart line is added back to the first product
found under its name. -/
def restore_stock : List (ItemRec × Int) → List ItemRec → List ItemRec
  | [], inv => inv
  | item :: rest, inv =>
    let idx := find_item inv item.1.name
    if 0 ≤ idx then
      match inv[idx.toNat]? with
      | some r => restore_stock rest (inv.set idx.toNat { r with qty := r.qty + item.2 })
      | none => restore_stock rest inv
    else restore_stock rest inv

/-- The index `idx` that the add branch computes: by barcode for choice 2, by name
otherwise; `-1` when nothing is found. -/
def lookup_index (inv : List ItemRec) (choice : Int) (input : Str) : Int :=
  if choice = 2 then barcode_index inv input else find_item inv input

/-- Branch 1 and 2 of the menu: "Add Item to Bill" and "Add by Barcode". -/
def add_to_bill (s : BillState) (choice : Int) (i : BillInput) : BillState :=
  if i.input = [] then s
  else
    match i.q with
    | none => s
    | some q =>
      if q ≤ 0 then s
      else
        let idx : Int := lookup_index s.inv choice i.input
        if idx < 0 then s
        else
          match s.inv[idx.toNat]? with
          | none => s
          | some r =>
            if r.qty < q then s
            else
              let sold : ItemRec := { r with qty := r.qty - q }
              let inv := s.inv.set idx.toNat sold
              { s with inv := inv,
                       sold_items := s.sold_items ++ [(sold, q)],
                       total := s.total + sold.rate * q,
                       world := (save_inventory inv i.canWrite s.world).2 }

/-- Branch 4 of the menu: "Apply Loyalty Discount". -/
def apply_loyalty (s : BillState) (i : BillInput) : BillState :=
  match s.customer_obj with
  | none => s
  | some k =>
    match s.customers[k]? with
    | none => s
    | some c =>
      if 0 < c.loyalty_points then
        let max_discount := s.total * (1 / 10)
        let points_discount := min (c.loyalty_points * (1 / 100)) max_discount
        if i.apply = 'y' ∨ i.apply = 'Y' then
          { s with total := s.total - points_discount,
                   customers := s.customers.set k
                     { c with loyalty_points := c.loyalty_points - points_discount * 100 } }
        else s
      else s

/-- One iteration of the menu loop of `print_bill_flow`. -/
def bill_step (s : BillState) (i : BillInput) : Outcome :=
  match i.choice with
  | none => .running s
  | some choice =>
    if choice = 1 ∨ choice = 2 then .running (add_to_bill s choice i)
    else if choice = 3 then .running s
    else if choice = 4 then .running (apply_loyalty s i)
    else if choice = 5 then (if s.sold_items = [] then .running s else .close s)
    else if choice = 6 then
      let inv := restore_stock s.sold_items s.inv
      .cancelled { s with inv := inv, world := (save_inventory inv i.canWrite s.world).2 }
    else .running s

/-- The menu loop of `print_bill_flow`: `none` when the console input ends while the loop
is still running. -/
def bill_loop : List BillInput → BillState → Option Outcome
  | [], _ => none
  | i :: rest, s =>
    match bill_step s i with
    | .running s1 => bill_loop rest s1
    | done => some done

/-- Everything one call of `print_bill_flow` reads: the console input, the clock, and
whether the ledgers can be opened for writing. -/
structure Session where
  /-- The line read as customer phone. -/
  phone : Str := []
  /-- The line read as name of a new customer (asked for when the phone is unknown). -/
  new_name : Str := []
  /-- The value of `time(0)` while the customer is resolved. -/
  now : Int := 0
  /-- The entries of the menu loop. -/
  entries : List BillInput := []
  /-- The entries of the payment loop. -/
  payments : List PayInput := []
  /-- Whether `save_customers` can open `customers.txt`. -/
  customersWritable : Bool := true
  /-- Whether `save_sale_record` can open `Sales.txt`. -/
  salesWritable : Bool := true
  /-- The value of `get_current_datetime()` when the sale is recorded. -/
  datetime : Str := []
  deriving DecidableEq

/-- The customer selection at the start of `print_bill_flow`: the state in which the menu
loop starts, given the loaded catalog. -/
def resolve_customer (inv : List ItemRec) (w : World) (ses : Session) : BillState :=
  let customers := load_customers w
  let walkIn := "Walk-in Customer".toList
  if ses.phone = [] then
    { inv := inv, customers := customers, customer_obj := none, customer_name := walkIn,
      world := w }
  else
    match find_customer_by_phone customers ses.phone with
    | some k =>
      match customers[k]? with
      | some c =>
        { inv := inv,
          customers := customers.set k
            { c with visit_count := c.visit_count + 1, last_visit := ses.now },
          customer_obj := some k,
          customer_name := if c.name = [] then walkIn else c.name,
          world := w }
      | none =>
        { inv := inv, customers := customers, customer_obj := none, customer_name := walkIn,
          world := w }
    | none =>
      if ses.new_name ≠ [] then
        let id := generate_customer_id w.counter
        let new_customer : Customer :=
          { id := id.1, name := ses.new_name, phone := ses.phone, visit_count := 1,
            last_visit := ses.now }
        { inv := inv, customers := customers ++ [new_customer],
          customer_obj := some customers.length, customer_name := ses.new_name,
          world := { w with counter := id.2 } }
      else
        { inv := inv, customers := customers, customer_obj := none, customer_name := walkIn,
          world := w }

/-- The part of `print_bill_flow` after the menu loop ("Process final sale"): pricing,
payment collection, customer update, sales record.  `none` when the payment loop runs out
of input. -/
def commit_sale (s : BillState) (ses : Session) : Option BillState :=
  let p := pricing s.total
  match process_payment p.net_total ses.payments with
  | none => none
  | some _ =>
    let s1 : BillState :=
      match s.customer_obj with
      | none => s
      | some k =>
        match s.customers[k]? with
        | none => s
        | some c =>
          let customers := s.customers.set k
            { c with total_spent := c.total_spent + p.net_total,
                     loyalty_points := c.loyalty_points + p.net_total * (1 / 100) }
          { s with customers := customers,
                   world := (save_customers customers ses.customersWritable s.world).2 }
    some { s1 with world := save_sale_record ses.datetime s1.customer_name p.net_total
                              s1.sold_items ses.salesWritable s1.world }

/-- The function `print_bill_flow`: the durable state when it returns, `none` when the
console input ends before it does. -/
def print_bill_flow (w : World) (ses : Session) : Option World :=
  let loaded := load_inventory w
  if loaded.1 = [] then some loaded.2
  else
    match bill_loop ses.entries (resolve_customer loaded.1 loaded.2 ses) with
    | none => none
    | some (.running s) => some s.world
    | some (.cancelled s) => some s.world
    | some (.close s) => (commit_sale s ses).map (fun s1 => s1.world)

/-- Whether the menu loop ended with "Cancel Sale". -/
def endsCancelled : Option Outcome → Bool
  | some (.cancelled _) => true
  | _ => false

/-- The quantity of every product called `name` changed by `k`, the rest left alone. -/
def adjust (name : Str) (k : Int) (r : ItemRec) : ItemRec :=
  if r.name = name then { r with qty := r.qty + k } else r

/-- Every cart line added back under its product name, line by line. -/
def restore_all (cart : List (ItemRec × Int)) (inv : List ItemRec) : List ItemRec :=
  cart.foldl (fun acc item => acc.map (adjust item.1.name item.2)) inv

/-- The rate that is read back after `to_string` has printed it with six decimals. -/
def reread_rate (x : ℚ) : ℚ := ((roundHalfEven (|x| * 10 ^ 6)).toNat : ℚ) / 10 ^ 6

/-- A product that `save_inventory` can write so that `load_inventory` finds it again: the
name is not empty, does not start with the comment marker and has no blank or tab at either
end; no text field contains the field separator or a line break; rate and quantity are not
negative; quantity and threshold are in the range of `int`. -/
def Storable (r : ItemRec) : Prop :=
  r.name ≠ [] ∧ r.name.head? ≠ some '#' ∧ trim r.name = r.name ∧
  '|' ∉ r.name ∧ '\n' ∉ r.name ∧
  '|' ∉ r.barcode ∧ '\n' ∉ r.barcode ∧
  '|' ∉ r.category ∧ '\n' ∉ r.category ∧
  '|' ∉ r.supplier ∧ '\n' ∉ r.supplier ∧
  0 ≤ r.rate ∧ 0 ≤ r.qty ∧ r.qty ≤ 2147483647 ∧
  -2147483648 ≤ r.low_stock_threshold ∧ r.low_stock_threshold ≤ 2147483647

instance : DecidablePred Storable := fun r => by
  unfold Storable
  infer_instance

/-- Whether a text begins, after white space and an optional sign, with a decimal digit:
the texts that `stoi` can convert (range aside). -/
def startsInteger (s : Str) : Bool :=
  match (parseSign (s.dropWhile isspace)).2 with
  | c :: _ => c.isDigit
  | [] => false

/-- A product as it comes back from the file: the rate rounded to six decimals and the
last-updated time, which the file does not hold, reset to 0. -/
def reloaded (r : ItemRec) : ItemRec :=
  { r with rate := reread_rate r.rate, last_updated := 0 }

/-- The body of the loop of `process_payment` for one console entry: the locals `remaining`
and `payments` after the iteration. -/
def payment_step (remaining : ℚ) (payments : List Payment) (i : PayInput) :
    ℚ × List Payment :=
  match i.method with
  | none => (remaining, payments)
  | some method =>
    if method < 1 ∨ method > 4 then (remaining, payments)
    else
      match i.amount with
      | none => (remaining, payments)
      | some entered =>
        if entered ≤ 0 then (remaining, payments)
        else
          let amount := if entered > remaining then remaining else entered
          (remaining - amount,
            payments ++ [Payment.mk method amount
              (if method ≠ CASH then i.reference else []) i.now])

/-- Whether a console entry passes both checks of the payment loop: a method in `1..4` and
an amount above zero. -/
def accepted (i : PayInput) : Bool :=
  match i.method, i.amount with
  | some method, some entered => decide (1 ≤ method ∧ method ≤ 4 ∧ 0 < entered)
  | _, _ => false

/-- The loop of `find_item_by_barcode`, counting from position `i`. -/
def find_item_by_barcode_from (barcode : Str) : List ItemRec → Nat → Option Nat
  | [], _ => none
  | item :: rest, i =>
    if item.barcode = barcode ∧ barcode ≠ [] then some i
    else find_item_by_barcode_from barcode rest (i + 1)

/-- The function `find_item_by_barcode`: the position of the product the returned pointer
refers to, or `none` for the null pointer. -/
def find_item_by_barcode (inv : List ItemRec) (barcode : Str) : Option Nat :=
  find_item_by_barcode_from barcode inv 0

/-- The identifiers that `n` successive calls of `generate_customer_id` return, the static
counter holding `counter` before the first of them. -/
def call_ids : Nat → Nat → List Str
  | 0, _ => []
  | n + 1, counter =>
    (generate_customer_id counter).1 :: call_ids n (generate_customer_id counter).2

/-- One entry of the items field of a sales record: the name and the quantity sold in
parentheses. -/
def item_text (it : ItemRec × Int) : Str :=
  it.1.name ++ '(' :: (to_string_int it.2 ++ [')'])

/-- The state of the menu loop of `print_bill_flow` after the given console entries, when
none of them has ended the loop; `none` when one of them has. -/
def open_after : List BillInput → BillState → Option BillState
  | [], s => some s
  | i :: rest, s =>
    match bill_step s i with
    | .running s1 => open_after rest s1
    | _ => none

/-- The sum of the quantities of the cart lines that name a product. -/
def reserved (name : Str) (cart : List (ItemRec × Int)) : Int :=
  ((cart.filter (fun it => it.1.name = name)).map (fun it => it.2)).sum

/-- The product invariant: a name that is not empty and has no blank or tab at either end,
a price and a quantity that are not negative. -/
def ProductInvariant (r : ItemRec) : Prop :=
  r.name ≠ [] ∧
  (∀ c, r.name.head? = some c → c ≠ ' ' ∧ c ≠ '\t') ∧
  (∀ c, r.name.getLast? = some c → c ≠ ' ' ∧ c ≠ '\t') ∧
  0 ≤ r.rate ∧ 0 ≤ r.qty

/-! ## Inventory management: `add_item_flow` -/

/-- The constant `LOW_STOCK_THRESHOLD`. -/
def LOW_STOCK_THRESHOLD : Int := 5

/-- The function `validate_barcode`: empty, or 8 to 13 decimal digits. -/
def validate_barcode (barcode : Str) : Bool :=
  if barcode = [] then true
  else barcode.all Char.isDigit && decide (8 ≤ barcode.length) && decide (barcode.length ≤ 13)

/-- What one pass through "Add New Item" of `add_item_flow` reads from the console, the
clock, and whether `Bill.txt` can be opened for writing. -/
structure ItemInput where
  /-- The line read as item name. -/
  name : Str := []
  /-- The line read as barcode. -/
  barcode : Str := []
  /-- The line read as category. -/
  category : Str := []
  /-- The line read as supplier. -/
  supplier : Str := []
  /-- The result of `cin >> new_item.rate`; `none` when the extraction fails. -/
  rate : Option ℚ := none
  /-- The result of `cin >> new_item.qty`; `none` when the extraction fails. -/
  qty : Option Int := none
  /-- The value that `cin >> new_item.low_stock_threshold` leaves in the field: 0 when no
  number can be read. -/
  threshold : Int := 0
  /-- The value of `time(0)`. -/
  now : Int := 0
  /-- Whether `save_inventory` can open the file. -/
  canWrite : Bool := true
  deriving DecidableEq

/-- The record `new_item` that "Add New Item" builds from the console input once rate and
quantity have been read. -/
def new_item (i : ItemInput) (rate : ℚ) (qty : Int) : ItemRec :=
  { name := i.name, barcode := i.barcode, category := i.category, supplier := i.supplier,
    rate := rate, qty := qty,
    low_stock_threshold := if i.threshold ≤ 0 then LOW_STOCK_THRESHOLD else i.threshold,
    last_updated := i.now }

/-- The update of the loaded catalog in "Add New Item": the record found under the name is
replaced, and the new record is appended when `find_item` finds nothing. -/
def add_or_replace (inv : List ItemRec) (item : ItemRec) : List ItemRec :=
  let idx := find_item inv item.name
  if 0 ≤ idx then inv.set idx.toNat item else inv ++ [item]

/-- Branch 1 of the menu of `add_item_flow`, "Add New Item": the durable state after one
pass. -/
def add_new_item (w : World) (i : ItemInput) : World :=
  if i.name = [] then w
  else if i.barcode ≠ [] ∧ validate_barcode i.barcode = false then w
  else
    match i.rate with
    | none => w
    | some rate =>
      if rate < 0 then w
      else
        match i.qty with
        | none => w
        | some qty =>
          if qty < 0 then w
          else
            let loaded := load_inventory w
            (save_inventory (add_or_replace loaded.1 (new_item i rate qty)) i.canWrite
              loaded.2).2

/-! ## The type `double`: IEEE-754 binary64 -/

/-! ## IEEE 754 binary64 -/

/-- The power `2 ^ k` for an integer `k`. -/
def pow2 (k : Int) : ℚ :=
  if 0 ≤ k then ((2 ^ k.toNat : Nat) : ℚ) else 1 / ((2 ^ (-k).toNat : Nat) : ℚ)

/-- The position of the highest bit of `n`, found by halving `n` at most `fuel` times. -/
def log2_fuel : Nat → Nat → Nat
  | 0, _ => 0
  | f + 1, n => if 2 ≤ n then log2_fuel f (n / 2) + 1 else 0

/-- The binary exponent of a positive number: the `e` with `2 ^ e ≤ x < 2 ^ (e + 1)`. -/
def exponent (x : ℚ) : Int :=
  let k : Int := (log2_fuel x.num.natAbs x.num.natAbs : Int) - (log2_fuel x.den x.den : Int)
  if pow2 k ≤ x then k else k - 1

/-- The number of the binary64 grid nearest to `x`, ties to the even significand (the
rounding of every arithmetic operation on `double`): 53 significant bits, or the fixed
spacing `2 ^ -1074` below `2 ^ -1022`.  The upper limit of the format is not applied
here. -/
@[irreducible] def round_double (x : ℚ) : ℚ :=
  let e := max (exponent |x|) (-1022)
  let m := roundHalfEven (|x| * pow2 (52 - e))
  if x < 0 then -((m : ℚ) * pow2 (e - 52)) else (m : ℚ) * pow2 (e - 52)

/-- Whether a number is the value of a finite `double`: on the binary64 grid and below
`2 ^ 1024` in magnitude. -/
def isDouble (x : ℚ) : Prop := round_double x = x ∧ |x| < pow2 1024

instance (x : ℚ) : Decidable (isDouble x) := by
  unfold isDouble
  infer_instance

/-- A value of the type `double`: a finite number of the binary64 grid (`fin 0` is `+0`),
the negative zero, an infinity with its sign, or a NaN with its sign bit (the payload of a
NaN is not distinguished; the sign bit is what makes it print as `nan` or `-nan`). -/
inductive Double where
  | fin (x : ℚ)
  | nzero
  | inf (neg : Bool)
  | nan (neg : Bool)
  deriving DecidableEq

/-- The number a `double` stands for, 0 for what is not a finite number. -/
def Double.val : Double → ℚ
  | .fin x => x
  | _ => 0

/-- The sign bit. -/
def Double.isNeg : Double → Bool
  | .fin x => decide (x < 0)
  | .nzero => true
  | .inf s => s
  | .nan s => s

/-- Whether the value is `+0` or `-0`. -/
def Double.isZero : Double → Bool
  | .fin x => decide (x = 0)
  | .nzero => true
  | _ => false

/-- The `double` that an operation delivers for the exact result `x`: the nearest number of
the grid, an infinity when that reaches `2 ^ 1024`, and a zero with the sign of `x`. -/
def Double.ofRat (x : ℚ) : Double :=
  let r := round_double x
  if pow2 1024 ≤ |r| then .inf (decide (x < 0))
  else if r = 0 ∧ x < 0 then .nzero
  else .fin r

/-- The conversion of an `int` to `double`, which is exact. -/
def Double.ofInt (n : Int) : Double := Double.ofRat n

/-- The unary minus. -/
def Double.neg : Double → Double
  | .fin x => if x = 0 then .nzero else .fin (-x)
  | .nzero => .fin 0
  | .inf s => .inf (!s)
  | .nan s => .nan (!s)

/-- The operator `+` on `double`.  A NaN operand is the result, the left one first; an
invalid operation gives the default NaN, whose sign bit is set on x86-64. -/
def Double.add : Double → Double → Double
  | .nan s, _ => .nan s
  | _, .nan t => .nan t
  | .inf s, .inf t => if s = t then .inf s else .nan true
  | .inf s, _ => .inf s
  | _, .inf t => .inf t
  | .nzero, .nzero => .nzero
  | .nzero, .fin y => .fin y
  | .fin x, .nzero => .fin x
  | .fin x, .fin y => Double.ofRat (x + y)

/-- The operator `-` on `double`: the sum with the negated right operand, a NaN operand
being the result as it is. -/
def Double.sub : Double → Double → Double
  | .nan s, _ => .nan s
  | _, .nan t => .nan t
  | a, b => Double.add a (Double.neg b)

/-- The operator `*` on `double`. -/
def Double.mul : Double → Double → Double
  | .nan s, _ => .nan s
  | _, .nan t => .nan t
  | .inf s, b => if b.isZero then .nan true else .inf (xor s b.isNeg)
  | a, .inf t => if a.isZero then .nan true else .inf (xor a.isNeg t)
  | a, b =>
    if a.isZero ∨ b.isZero then (if xor a.isNeg b.isNeg then .nzero else .fin 0)
    else Double.ofRat (a.val * b.val)

/-- The operator `<` on `double`: false as soon as one side is a NaN. -/
def Double.lt : Double → Double → Bool
  | .nan _, _ => false
  | _, .nan _ => false
  | .inf s, .inf t => s && !t
  | .inf s, _ => s
  | _, .inf t => !t
  | a, b => decide (a.val < b.val)

/-- The operator `<=` on `double`: false as soon as one side is a NaN. -/
def Double.le : Double → Double → Bool
  | .nan _, _ => false
  | _, .nan _ => false
  | .inf s, .inf t => s || !t
  | .inf s, _ => s
  | _, .inf t => !t
  | a, b => decide (a.val ≤ b.val)

/-- The function `std::min(a, b)`, which returns `a` unless `b < a`. -/
def Double.min (a b : Double) : Double := if Double.lt b a then b else a

/-! ## Payment splitter in `double` arithmetic -/

/-- What one iteration of the loop of `process_payment` reads from the console, with the
amount as it is typed. -/
structure PayEntry where
  /-- The result of `cin >> method`; `none` when the extraction fails. -/
  method : Option Int
  /-- The decimal number typed at the amount prompt; `none` when no number is typed. -/
  typed : Option ℚ
  /-- The line read as reference, asked for when the method is not cash. -/
  reference : Str := []
  /-- The value of `time(0)` when the payment is recorded. -/
  now : Int := 0
  deriving DecidableEq

/-- The extraction `cin >> amount` into a `double`: the number typed is rounded to the
nearest `double`; the extraction fails when no number is typed or when the rounded number
is out of range. -/
def cin_double (typed : Option ℚ) : Option Double :=
  match typed with
  | none => none
  | some q =>
    match Double.ofRat q with
    | .inf _ => none
    | d => some d

/-- The struct `Payment` with its amount as a `double`. -/
structure PaymentD where
  method : Int
  amount : Double
  reference_number : Str := []
  timestamp : Int
  deriving DecidableEq

/-- The body of the loop of `process_payment` for one console entry, in `double`
arithmetic: the locals `remaining` and `payments` after the iteration. -/
def payment_step_d (remaining : Double) (payments : List PaymentD) (i : PayEntry) :
    Double × List PaymentD :=
  match i.method with
  | none => (remaining, payments)
  | some method =>
    if method < 1 ∨ method > 4 then (remaining, payments)
    else
      match cin_double i.typed with
      | none => (remaining, payments)
      | some entered =>
        if Double.le entered (.fin 0) then (remaining, payments)
        else
          let amount := if Double.lt remaining entered then remaining else entered
          (Double.sub remaining amount,
            payments ++ [{ method := method, amount := amount, timestamp := i.now,
                           reference_number := if method ≠ CASH then i.reference else [] }])

/-- The loop of `process_payment` in `double` arithmetic; `none` when the console input
ends while more than 0.01 is due. -/
def process_payment_loop_d : List PayEntry → Double → List PaymentD → Option (List PaymentD)
  | [], remaining, payments =>
    if Double.lt (Double.ofRat (1 / 100)) remaining then none else some payments
  | i :: rest, remaining, payments =>
    if Double.lt (Double.ofRat (1 / 100)) remaining then
      process_payment_loop_d rest (payment_step_d remaining payments i).1
        (payment_step_d remaining payments i).2
    else some payments

/-- The function `process_payment` in `double` arithmetic. -/
def process_payment_d (total_amount : Double) (inputs : List PayEntry) :
    Option (List PaymentD) :=
  process_payment_loop_d inputs total_amount []

/-- The locals `remaining` and `payments` of `process_payment` after the given console
entries, in `double` arithmetic. -/
def payment_state_d (total_amount : Double) (inputs : List PayEntry) :
    Double × List PaymentD :=
  inputs.foldl
    (fun st i => if Double.lt (Double.ofRat (1 / 100)) st.1 then payment_step_d st.1 st.2 i
      else st)
    (total_amount, [])

/-- The exact sum of the amounts of a list of payments. -/
def paid_d (ps : List PaymentD) : ℚ := (ps.map (fun p => p.amount.val)).sum

/-- Whether a console entry passes the two checks of the loop body of `process_payment`. -/
def accepted_d (i : PayEntry) : Bool :=
  match i.method, cin_double i.typed with
  | some method, some entered =>
    decide (1 ≤ method ∧ method ≤ 4) && !(Double.le entered (.fin 0))
  | _, _ => false

/-- The `double` nearest to 0.01: the value of the literal `0.01` in the guard of the loop
of `process_payment`. -/
def double_0_01 : ℚ := 5764607523034235 / 576460752303423488

/-- The amount handed to `process_payment` when a sale is completed, in `double`
arithmetic: `total + total * VAT_RATE - discount`, the discount being 50 when the total
exceeds 500. -/
def net_total_d (total : Double) : Double :=
  Double.sub (Double.add total (Double.mul total (Double.ofRat (5 / 100))))
    (if Double.lt (.fin 500) total then .fin 50 else .fin 0)

/-- The `double` nearest to 0.1: the value of the literal `0.1` in the loyalty branch. -/
def double_0_1 : ℚ := 3602879701896397 / 36028797018963968

/-! ## Numbers of type `double` in text: `stod` and the output operators -/

/-- The rounding of a number to 53 significant bits with an unbounded exponent range, in
magnitude: what decides whether a result is tiny after rounding. -/
def round_normal (x : ℚ) : ℚ :=
  (roundHalfEven (|x| * pow2 (52 - exponent |x|)) : ℚ) * pow2 (exponent |x| - 52)

/-- A letter in lower case, other characters left alone. -/
def lowerAscii (c : Char) : Char :=
  if 65 ≤ c.toNat ∧ c.toNat ≤ 90 then Char.ofNat (c.toNat + 32) else c

/-- Whether a text begins with the lower-case word `p`, the case of its letters ignored. -/
def startsWithCI (p s : Str) : Bool := (s.take p.length).map lowerAscii = p

/-- Whether a character is a hexadecimal digit. -/
def isHexDigit (c : Char) : Bool :=
  c.isDigit || (97 ≤ c.toNat && c.toNat ≤ 102) || (65 ≤ c.toNat && c.toNat ≤ 70)

/-- The value of a hexadecimal digit. -/
def hexVal (c : Char) : Nat :=
  if c.isDigit then c.toNat - 48 else if 97 ≤ c.toNat then c.toNat - 87 else c.toNat - 55

/-- The value of a string of hexadecimal digits, most significant first. -/
def hexDigitsVal (s : Str) : Nat := s.foldl (fun acc c => acc * 16 + hexVal c) 0

/-- The binary exponent part of a hexadecimal floating literal: `p` or `P`, an optional
sign and at least one decimal digit.  Without such a part the exponent is `0`. -/
def parseBinExponent : Str → Int
  | c :: r =>
    if c = 'p' ∨ c = 'P' then
      let (neg, r2) := parseSign r
      let ds := r2.takeWhile Char.isDigit
      if ds = [] then 0 else if neg then -(digitsVal ds : Int) else (digitsVal ds : Int)
    else 0
  | [] => 0

/-- The number that a decimal floating literal at the start of a text stands for: digits
with an optional decimal point (at least one digit in all) and an optional exponent;
`none` when the text does not begin with one. -/
def strtod_decimal (r : Str) : Option ℚ :=
  let ip := r.takeWhile Char.isDigit
  let r1 := r.dropWhile Char.isDigit
  let fp := match r1 with
    | '.' :: r2 => r2.takeWhile Char.isDigit
    | _ => []
  let r3 := match r1 with
    | '.' :: r2 => r2.dropWhile Char.isDigit
    | _ => r1
  if ip = [] ∧ fp = [] then none
  else some (scale10 ((digitsVal ip : ℚ) + (digitsVal fp : ℚ) / 10 ^ fp.length)
    (parseExponent r3))

/-- The number that the text after `0x` stands for when it is a hexadecimal floating
literal: hexadecimal digits with an optional point (at least one digit in all) and an
optional binary exponent; `none` when it is not. -/
def strtod_hex (r : Str) : Option ℚ :=
  let ip := r.takeWhile isHexDigit
  let r1 := r.dropWhile isHexDigit
  let fp := match r1 with
    | '.' :: r2 => r2.takeWhile isHexDigit
    | _ => []
  let r3 := match r1 with
    | '.' :: r2 => r2.dropWhile isHexDigit
    | _ => r1
  if ip = [] ∧ fp = [] then none
  else some (((hexDigitsVal ip : ℚ) + (hexDigitsVal fp : ℚ) / 16 ^ fp.length) *
    pow2 (parseBinExponent r3))

/-- The magnitude of the number at the start of a text, as `strtod` reads it once white
space and sign are gone: a hexadecimal literal after `0x` or `0X`, otherwise a decimal
literal (of `0x` not followed by a hexadecimal number only the `0` is read). -/
def strtod_magnitude (r : Str) : Option ℚ :=
  match r with
  | '0' :: x :: r2 =>
    if x = 'x' ∨ x = 'X' then
      match strtod_hex r2 with
      | some v => some v
      | none => strtod_decimal r
    else strtod_decimal r
  | _ => strtod_decimal r

/-- Whether `strtod` reports a range error for the magnitude `v`: the rounded value
overflows, or it is tiny after rounding and not exact. -/
def strtod_range_error (v : ℚ) : Bool :=
  decide (pow2 1024 ≤ round_double v) ||
    (decide (round_normal v < pow2 (-1022)) && decide (round_double v ≠ v))

/-- The function `std::stod`: leading white space, an optional sign, then `inf` or
`infinity`, `nan`, a hexadecimal or a decimal floating literal, letters in either case;
what follows is ignored.  The value is the `double` nearest to the number.  `none` stands
for a thrown exception: `invalid_argument` when the text does not begin in one of these
ways, `out_of_range` when `strtod` reports a range error. -/
def stod_d (s : Str) : Option Double :=
  let (neg, r) := parseSign (s.dropWhile isspace)
  if startsWithCI "inf".toList r then some (.inf neg)
  else if startsWithCI "nan".toList r then some (.nan neg)
  else
    match strtod_magnitude r with
    | none => none
    | some v =>
      if strtod_range_error v then none
      else some (if neg then Double.neg (.fin (round_double v)) else .fin (round_double v))

/-- The text of `std::to_string(double)` (`%f`, six decimals). -/
def to_string_double_d : Double → Str
  | .fin x => to_string_double x
  | .nzero => '-' :: to_string_double 0
  | .inf s => if s then "-inf".toList else "inf".toList
  | .nan s => if s then "-nan".toList else "nan".toList

/-- The text of `stream << x` for a `double` with the default flags of a stream (`%g` with
six significant digits). -/
def gStr_d : Double → Str
  | .fin x => gStr x
  | .nzero => "-0".toList
  | .inf s => if s then "-inf".toList else "inf".toList
  | .nan s => if s then "-nan".toList else "nan".toList

/-- The text of `stream << fixed << setprecision(prec) << x` for a `double`. -/
def fixedStr_d (prec : Nat) : Double → Str
  | .fin x => fixedStr prec x
  | .nzero => '-' :: fixedStr prec 0
  | .inf s => if s then "-inf".toList else "inf".toList
  | .nan s => if s then "-nan".toList else "nan".toList

/-- The value that 32-bit two's complement arithmetic leaves for the exact result `n` (the
language itself leaves the overflow of `int` undefined). -/
def wrap_int (n : Int) : Int := (n + 2147483648) % 4294967296 - 2147483648

/-! ## Data model with amounts of type `double` -/

/-- The struct `ItemRec` with its rate as a `double`. -/
structure ItemRecD where
  name : Str := []
  barcode : Str := []
  category : Str := []
  supplier : Str := []
  rate : Double := .fin 0
  qty : Int := 0
  low_stock_threshold : Int := 5
  last_updated : Int := 0
  deriving DecidableEq

/-- The struct `Customer` with its two amounts as `double`. -/
structure CustomerD where
  id : Str := []
  name : Str := []
  phone : Str := []
  email : Str := []
  loyalty_points : Double := .fin 0
  total_spent : Double := .fin 0
  visit_count : Int := 0
  last_visit : Int := 0
  deriving DecidableEq

/-! ## Catalog store with rates of type `double` -/

/-- The function `parse_line` with `std::stod` and the comparison `out.rate >= 0` in
`double`.  `out` is the record the caller passes in; `none` stands for the result `false`. -/
def parse_line_d (line : Str) (out : ItemRecD) : Option ItemRecD :=
  if line = [] ∨ line.head? = some '#' then none
  else
    let parts := splitOn '|' line
    if parts.length < 3 then none
    else
      let name := trim (parts.getD 0 [])
      match stod_d (parts.getD 1 []) with
      | none => none
      | some rate =>
        match stoi (parts.getD 2 []) with
        | none => none
        | some qty =>
          let barcode := if parts.length > 3 then parts.getD 3 [] else out.barcode
          let category := if parts.length > 4 then parts.getD 4 [] else out.category
          let supplier := if parts.length > 5 then parts.getD 5 [] else out.supplier
          match (if parts.length > 6 then stoi (parts.getD 6 [])
                 else some out.low_stock_threshold) with
          | none => none
          | some threshold =>
            if name ≠ [] ∧ Double.le (.fin 0) rate = true ∧ 0 ≤ qty then
              some { out with name := name, rate := rate, qty := qty, barcode := barcode,
                              category := category, supplier := supplier,
                              low_stock_threshold := threshold }
            else none

/-- The function `serialize_line`. -/
def serialize_line_d (r : ItemRecD) : Str :=
  r.name ++ '|' :: (to_string_double_d r.rate ++ '|' :: (to_string_int r.qty ++ '|' ::
    (r.barcode ++ '|' :: (r.category ++ '|' :: (r.supplier ++ '|' ::
      to_string_int r.low_stock_threshold)))))

/-- The records that the loop of `load_inventory` collects from the text of the file. -/
def parse_inventory_d (text : Str) : List ItemRecD :=
  (splitOn '\n' text).filterMap (fun line => parse_line_d line {})

/-- The function `load_inventory`: a missing file is created empty. -/
def load_inventory_d (w : World) : List ItemRecD × World :=
  match w.inventory with
  | none => ([], { w with inventory := some [] })
  | some text => (parse_inventory_d text, w)

/-- The text that `save_inventory` writes. -/
def inventory_text_d (inv : List ItemRecD) : Str :=
  INVENTORY_HEADER ++ '\n' :: (inv.map (fun r => serialize_line_d r ++ ['\n'])).flatten

/-- The function `save_inventory`; `canOpen` tells whether the file can be opened for
writing. -/
def save_inventory_d (inv : List ItemRecD) (canOpen : Bool) (w : World) : Bool × World :=
  if canOpen then (true, { w with inventory := some (inventory_text_d inv) }) else (false, w)

/-- The loop of `find_item`, counting from index `i`. -/
def find_item_from_d (name : Str) : List ItemRecD → Int → Int
  | [], _ => -1
  | r :: rest, i => if r.name = name then i else find_item_from_d name rest (i + 1)

/-- The function `find_item`: the first index holding the name, or `-1`. -/
def find_item_d (inv : List ItemRecD) (name : Str) : Int := find_item_from_d name inv 0

/-- The barcode search written out in `print_bill_flow`, counting from index `i`. -/
def barcode_index_from_d (code : Str) : List ItemRecD → Int → Int
  | [], _ => -1
  | r :: rest, i => if r.barcode = code then i else barcode_index_from_d code rest (i + 1)

/-- The barcode search written out in `print_bill_flow`: first index or `-1`. -/
def barcode_index_d (inv : List ItemRecD) (code : Str) : Int := barcode_index_from_d code inv 0

/-! ## Customer ledger with amounts of type `double` -/

/-- The body of the loop of `load_customers` for one line, with `std::stod` in `double`:
`none` when the line is skipped or an exception drops it. -/
def parse_customer_d (line : Str) : Option CustomerD :=
  if line = [] ∨ line.head? = some '#' then none
  else
    let c : CustomerD := {}
    let f1 := sgetline '|' (some line) c.id
    let f2 := sgetline '|' f1.2 c.name
    let f3 := sgetline '|' f2.2 c.phone
    let f4 := sgetline '|' f3.2 c.email
    let t1 := sgetline '|' f4.2 []
    match stod_d t1.1 with
    | none => none
    | some points =>
      let t2 := sgetline '|' t1.2 t1.1
      match stod_d t2.1 with
      | none => none
      | some spent =>
        let t3 := sgetline '|' t2.2 t2.1
        match stoi t3.1 with
        | none => none
        | some visits =>
          let t4 := sgetline '\n' t3.2 t3.1
          match stoll t4.1 with
          | none => none
          | some last =>
            some { id := f1.1, name := f2.1, phone := f3.1, email := f4.1,
                   loyalty_points := points, total_spent := spent,
                   visit_count := visits, last_visit := last }

/-- The function `load_customers`. -/
def load_customers_d (w : World) : List CustomerD :=
  match w.customers with
  | none => []
  | some text => (splitOn '\n' text).filterMap parse_customer_d

/-- One line of `customers.txt`: the two amounts are written with six significant
digits. -/
def customer_line_d (c : CustomerD) : Str :=
  c.id ++ '|' :: (c.name ++ '|' :: (c.phone ++ '|' :: (c.email ++ '|' ::
    (gStr_d c.loyalty_points ++ '|' :: (gStr_d c.total_spent ++ '|' ::
      (to_string_int c.visit_count ++ '|' :: to_string_int c.last_visit))))))

/-- The text that `save_customers` writes. -/
def customers_text_d (customers : List CustomerD) : Str :=
  CUSTOMER_HEADER ++ '\n' :: (customers.map (fun c => customer_line_d c ++ ['\n'])).flatten

/-- The function `save_customers`; `canOpen` tells whether the file can be opened. -/
def save_customers_d (customers : List CustomerD) (canOpen : Bool) (w : World) :
    Bool × World :=
  if canOpen then (true, { w with customers := some (customers_text_d customers) })
  else (false, w)

/-- The loop of `find_customer_by_phone`, counting from index `i`. -/
def find_customer_from_d (phone : Str) : List CustomerD → Nat → Option Nat
  | [], _ => none
  | c :: rest, i =>
    if c.phone = phone then some i else find_customer_from_d phone rest (i + 1)

/-- The function `find_customer_by_phone`: the position of the first customer with that
phone, or `none` for the null pointer. -/
def find_customer_by_phone_d (customers : List CustomerD) (phone : Str) : Option Nat :=
  find_customer_from_d phone customers 0

/-! ## Sales ledger with amounts of type `double` -/

/-- The string `items_list` that `save_sale_record` builds. -/
def items_list_d : List (ItemRecD × Int) → Str
  | [] => []
  | [it] => it.1.name ++ '(' :: (to_string_int it.2 ++ [')'])
  | it :: rest => it.1.name ++ '(' :: (to_string_int it.2 ++ ')' :: ',' :: items_list_d rest)

/-- The function `save_sale_record`; `canOpen` tells whether `Sales.txt` can be opened for
appending. -/
def save_sale_record_d (datetime customer_name : Str) (net_total : Double)
    (items : List (ItemRecD × Int)) (canOpen : Bool) (w : World) : World :=
  if canOpen then
    let old := w.sales.getD []
    let head := if old = [] then SALES_HEADER ++ ['\n'] else []
    { w with sales := some (old ++ head ++ (datetime ++ '|' :: (customer_name ++ '|' ::
                (fixedStr_d 2 net_total ++ '|' :: items_list_d items))) ++ ['\n']) }
  else w

/-! ## Transaction engine in `double` arithmetic -/

/-- The locals of `print_bill_flow` together with the durable state, amounts as
`double`. -/
structure BillStateD where
  inv : List ItemRecD
  customers : List CustomerD
  customer_obj : Option Nat
  customer_name : Str
  sold_items : List (ItemRecD × Int) := []
  total : Double := .fin 0
  world : World
  deriving DecidableEq

/-- How one iteration of the menu loop ends. -/
inductive OutcomeD where
  /-- The loop goes on. -/
  | running (s : BillStateD)
  /-- "Complete Sale". -/
  | close (s : BillStateD)
  /-- "Cancel Sale". -/
  | cancelled (s : BillStateD)
  deriving DecidableEq

/-- The restore loop of "Cancel Sale": each cart line is added back to the first product
found under its name. -/
def restore_stock_d : List (ItemRecD × Int) → List ItemRecD → List ItemRecD
  | [], inv => inv
  | item :: rest, inv =>
    let idx := find_item_d inv item.1.name
    if 0 ≤ idx then
      match inv[idx.toNat]? with
      | some r =>
        restore_stock_d rest (inv.set idx.toNat { r with qty := wrap_int (r.qty + item.2) })
      | none => restore_stock_d rest inv
    else restore_stock_d rest inv

/-- The index `idx` that the add branch computes: by barcode for choice 2, by name
otherwise; `-1` when nothing is found. -/
def lookup_index_d (inv : List ItemRecD) (choice : Int) (input : Str) : Int :=
  if choice = 2 then barcode_index_d inv input else find_item_d inv input

/-- Branch 1 and 2 of the menu, "Add Item to Bill" and "Add by Barcode":
`total += inv[idx].rate * q` is a multiplication and an addition of `double`. -/
def add_to_bill_d (s : BillStateD) (choice : Int) (i : BillInput) : BillStateD :=
  if i.input = [] then s
  else
    match i.q with
    | none => s
    | some q =>
      if q ≤ 0 then s
      else
        let idx : Int := lookup_index_d s.inv choice i.input
        if idx < 0 then s
        else
          match s.inv[idx.toNat]? with
          | none => s
          | some r =>
            if r.qty < q then s
            else
              let sold : ItemRecD := { r with qty := r.qty - q }
              let inv := s.inv.set idx.toNat sold
              { s with inv := inv,
                       sold_items := s.sold_items ++ [(sold, q)],
                       total := Double.add s.total (Double.mul sold.rate (Double.ofInt q)),
                       world := (save_inventory_d inv i.canWrite s.world).2 }

/-- Branch 4 of the menu, "Apply Loyalty Discount", in `double` arithmetic. -/
def apply_loyalty_d (s : BillStateD) (i : BillInput) : BillStateD :=
  match s.customer_obj with
  | none => s
  | some k =>
    match s.customers[k]? with
    | none => s
    | some c =>
      if Double.lt (.fin 0) c.loyalty_points then
        let max_discount := Double.mul s.total (Double.ofRat (1 / 10))
        let points_discount :=
          Double.min (Double.mul c.loyalty_points (Double.ofRat (1 / 100))) max_discount
        if i.apply = 'y' ∨ i.apply = 'Y' then
          { s with total := Double.sub s.total points_discount,
                   customers := s.customers.set k
                     { c with loyalty_points := Double.sub c.loyalty_points
                                (Double.mul points_discount (.fin 100)) } }
        else s
      else s

/-- One iteration of the menu loop of `print_bill_flow`. -/
def bill_step_d (s : BillStateD) (i : BillInput) : OutcomeD :=
  match i.choice with
  | none => .running s
  | some choice =>
    if choice = 1 ∨ choice = 2 then .running (add_to_bill_d s choice i)
    else if choice = 3 then .running s
    else if choice = 4 then .running (apply_loyalty_d s i)
    else if choice = 5 then (if s.sold_items = [] then .running s else .close s)
    else if choice = 6 then
      let inv := restore_stock_d s.sold_items s.inv
      .cancelled { s with inv := inv, world := (save_inventory_d inv i.canWrite s.world).2 }
    else .running s

/-- The menu loop of `print_bill_flow`: `none` when the console input ends while the loop
is still running. -/
def bill_loop_d : List BillInput → BillStateD → Option OutcomeD
  | [], _ => none
  | i :: rest, s =>
    match bill_step_d s i with
    | .running s1 => bill_loop_d rest s1
    | done => some done

/-- The state of the menu loop after the given console entries, when none of them has ended
the loop; `none` when one of them has. -/
def open_after_d : List BillInput → BillStateD → Option BillStateD
  | [], s => some s
  | i :: rest, s =>
    match bill_step_d s i with
    | .running s1 => open_after_d rest s1
    | _ => none

/-- Everything one call of `print_bill_flow` reads, the payment entries as they are
typed. -/
structure SessionD where
  /-- The line read as customer phone. -/
  phone : Str := []
  /-- The line read as name of a new customer (asked for when the phone is unknown). -/
  new_name : Str := []
  /-- The value of `time(0)` while the customer is resolved. -/
  now : Int := 0
  /-- The entries of the menu loop. -/
  entries : List BillInput := []
  /-- The entries of the payment loop. -/
  payments : List PayEntry := []
  /-- Whether `save_customers` can open `customers.txt`. -/
  customersWritable : Bool := true
  /-- Whether `save_sale_record` can open `Sales.txt`. -/
  salesWritable : Bool := true
  /-- The value of `get_current_datetime()` when the sale is recorded. -/
  datetime : Str := []
  deriving DecidableEq

/-- The customer selection at the start of `print_bill_flow`; `visit_count++` wraps around
at the end of the range of `int`. -/
def resolve_customer_d (inv : List ItemRecD) (w : World) (ses : SessionD) : BillStateD :=
  let customers := load_customers_d w
  let walkIn := "Walk-in Customer".toList
  if ses.phone = [] then
    { inv := inv, customers := customers, customer_obj := none, customer_name := walkIn,
      world := w }
  else
    match find_customer_by_phone_d customers ses.phone with
    | some k =>
      match customers[k]? with
      | some c =>
        { inv := inv,
          customers := customers.set k
            { c with visit_count := wrap_int (c.visit_count + 1), last_visit := ses.now },
          customer_obj := some k,
          customer_name := if c.name = [] then walkIn else c.name,
          world := w }
      | none =>
        { inv := inv, customers := customers, customer_obj := none, customer_name := walkIn,
          world := w }
    | none =>
      if ses.new_name ≠ [] then
        let id := generate_customer_id w.counter
        let new_customer : CustomerD :=
          { id := id.1, name := ses.new_name, phone := ses.phone, visit_count := 1,
            last_visit := ses.now }
        { inv := inv, customers := customers ++ [new_customer],
          customer_obj := some customers.length, customer_name := ses.new_name,
          world := { w with counter := id.2 } }
      else
        { inv := inv, customers := customers, customer_obj := none, customer_name := walkIn,
          world := w }

/-- The part of `print_bill_flow` after the menu loop ("Process final sale") in `double`
arithmetic: pricing, payment collection, customer update, sales record.  `none` when the
payment loop runs out of input. -/
def commit_sale_d (s : BillStateD) (ses : SessionD) : Option BillStateD :=
  let net_total := net_total_d s.total
  match process_payment_d net_total ses.payments with
  | none => none
  | some _ =>
    let s1 : BillStateD :=
      match s.customer_obj with
      | none => s
      | some k =>
        match s.customers[k]? with
        | none => s
        | some c =>
          let customers := s.customers.set k
            { c with total_spent := Double.add c.total_spent net_total,
                     loyalty_points := Double.add c.loyalty_points
                       (Double.mul net_total (Double.ofRat (1 / 100))) }
          { s with customers := customers,
                   world := (save_customers_d customers ses.customersWritable s.world).2 }
    some { s1 with world := save_sale_record_d ses.datetime s1.customer_name net_total
                              s1.sold_items ses.salesWritable s1.world }

/-- The function `print_bill_flow` in `double` arithmetic: the durable state when it
returns, `none` when the console input ends before it does. -/
def print_bill_flow_d (w : World) (ses : SessionD) : Option World :=
  let loaded := load_inventory_d w
  if loaded.1 = [] then some loaded.2
  else
    match bill_loop_d ses.entries (resolve_customer_d loaded.1 loaded.2 ses) with
    | none => none
    | some (.running s) => some s.world
    | some (.cancelled s) => some s.world
    | some (.close s) => (commit_sale_d s ses).map (fun s1 => s1.world)

/-- The running subtotal that the add steps build for a cart, line by line from zero: each
line adds the rounded product of its rate and quantity, and each sum is rounded. -/
def cart_total_d (cart : List (ItemRecD × Int)) : Double :=
  cart.foldl (fun t it => Double.add t (Double.mul it.1.rate (Double.ofInt it.2))) (.fin 0)

/-- Whether a text begins with a decimal number: a digit, or a point followed by a digit. -/
def decimalStart : Str → Bool
  | c :: r => c.isDigit || (c = '.' && (match r with
      | d :: _ => d.isDigit
      | [] => false))
  | [] => false

/-- Whether a text begins, after white space and an optional sign, with something that
`std::stod` reads: `inf` or `nan` in letters of either case, or a number (a digit, or a
point followed by a digit; a hexadecimal number begins with the digit of `0x`). -/
def numberStart (s : Str) : Bool :=
  startsWithCI "inf".toList (parseSign (s.dropWhile isspace)).2 ||
    startsWithCI "nan".toList (parseSign (s.dropWhile isspace)).2 ||
    decimalStart (parseSign (s.dropWhile isspace)).2

/-- Whether the number at the start of a text is outside the range of `double`: it rounds
to `2 ^ 1024` or more in magnitude, or it is tiny, below `2 ^ -1022` after rounding, and
not a value of the type. -/
def numberOutOfRange (s : Str) : Bool :=
  !startsWithCI "inf".toList (parseSign (s.dropWhile isspace)).2 &&
    !startsWithCI "nan".toList (parseSign (s.dropWhile isspace)).2 &&
    (match strtod_magnitude (parseSign (s.dropWhile isspace)).2 with
      | some v => strtod_range_error v
      | none => false)

/-- Whether the integer at the start of a text is outside the range from `lo` to `hi`. -/
def integerOutOfRange (lo hi : Int) (s : Str) : Bool :=
  match strtol s with
  | some v => !decide (lo ≤ v ∧ v ≤ hi)
  | none => false
/-! ## Pricing -/

/-- C4. Pricing determinism: for every subtotal `S` the checkout computes `vat = S * 0.05`,
`discount = 50` exactly when `S > 500` (so `S = 500` gets none) and
`netTotal = S + vat - discount`; for `S = 600` this is vat 30, discount 50, net total 580. -/
theorem pricing_spec (S : ℚ) :
    (pricing S).vat = S * (5 / 100) ∧
    (pricing S).discount = (if S > 500 then 50 else 0) ∧
    (pricing S).net_total = S + (pricing S).vat - (pricing S).discount ∧
    (pricing 500).discount = 0 ∧
    pricing 600 = { vat := 30, discount := 50, net_total := 580 } := by
  refine ⟨rfl, rfl, rfl, ?_, ?_⟩
  · decide!
  · decide!

/-! ## The add step -/

/-- C2. No oversell: an add-to-bill step asking for `q` units of the product found at index
`idx` is rejected (the state stays as it was) whenever `q` exceeds the quantity on hand, and
when the step does change the state then `q` was at most the quantity on hand, the stock of
that product was decremented by `q` and one cart line was appended. -/
theorem add_to_bill_no_oversell (s : BillState) (choice : Int) (i : BillInput) (q : Int)
    (hq : i.q = some q) :
    (∀ r, s.inv[(lookup_index s.inv choice i.input).toNat]? = some r → r.qty < q →
        add_to_bill s choice i = s) ∧
    (add_to_bill s choice i ≠ s →
      ∃ r, s.inv[(lookup_index s.inv choice i.input).toNat]? = some r ∧ q ≤ r.qty ∧
        (add_to_bill s choice i).inv =
          s.inv.set (lookup_index s.inv choice i.input).toNat { r with qty := r.qty - q } ∧
        (add_to_bill s choice i).sold_items =
          s.sold_items ++ [({ r with qty := r.qty - q }, q)]) := by
  constructor
  · intro r hr hlt
    unfold add_to_bill
    simp only [hq, hr]
    split_ifs <;> rfl
  · intro hne
    unfold add_to_bill at hne ⊢
    simp only [hq] at hne ⊢
    split_ifs at hne ⊢ with h1 h2 h3
    · exact absurd rfl hne
    · exact absurd rfl hne
    · exact absurd rfl hne
    · cases hr : s.inv[(lookup_index s.inv choice i.input).toNat]? with
      | none => simp only [hr] at hne; exact absurd rfl hne
      | some r =>
        simp only [hr] at hne ⊢
        split_ifs at hne ⊢ with h4
        · exact absurd rfl hne
        · exact ⟨r, rfl, not_lt.mp h4, rfl, rfl⟩

/-- Of Rice 100 units are on hand; asking for 120 is rejected and changes nothing. -/
theorem add_to_bill_no_oversell_witness :
    add_to_bill
        { inv := [{ name := "Rice".toList, rate := 40, qty := 100 }], customers := [],
          customer_obj := none, customer_name := "Walk-in Customer".toList,
          world := { inventory := some "Rice|40.00|100\n".toList } }
        1 { choice := some 1, input := "Rice".toList, q := some 120 } =
      { inv := [{ name := "Rice".toList, rate := 40, qty := 100 }], customers := [],
        customer_obj := none, customer_name := "Walk-in Customer".toList,
        world := { inventory := some "Rice|40.00|100\n".toList } } :=
  (add_to_bill_no_oversell
    { inv := [{ name := "Rice".toList, rate := 40, qty := 100 }], customers := [],
      customer_obj := none, customer_name := "Walk-in Customer".toList,
      world := { inventory := some "Rice|40.00|100\n".toList } }
    1 { choice := some 1, input := "Rice".toList, q := some 120 } 120 rfl).1
    { name := "Rice".toList, rate := 40, qty := 100 } (by decide!) (by decide)

/-! ## Payment splitter -/

/-- The function `save_inventory` leaves the two ledgers and the id counter alone. -/
theorem save_inventory_frame (inv : List ItemRec) (b : Bool) (w : World) :
    (save_inventory inv b w).2.sales = w.sales ∧
    (save_inventory inv b w).2.customers = w.customers ∧
    (save_inventory inv b w).2.counter = w.counter := by
  unfold save_inventory
  split_ifs <;> exact ⟨rfl, rfl, rfl⟩

/-- The add branch leaves the two ledgers alone. -/
theorem add_to_bill_frame (s : BillState) (choice : Int) (i : BillInput) :
    (add_to_bill s choice i).world.sales = s.world.sales ∧
    (add_to_bill s choice i).world.customers = s.world.customers := by
  unfold add_to_bill
  split_ifs
  · exact ⟨rfl, rfl⟩
  · cases i.q with
    | none => exact ⟨rfl, rfl⟩
    | some q =>
      simp only
      split_ifs
      · exact ⟨rfl, rfl⟩
      · exact ⟨rfl, rfl⟩
      · cases s.inv[(lookup_index s.inv choice i.input).toNat]? with
        | none => exact ⟨rfl, rfl⟩
        | some r =>
          simp only
          split_ifs
          · exact ⟨rfl, rfl⟩
          · exact ⟨(save_inventory_frame _ _ _).1, (save_inventory_frame _ _ _).2.1⟩

/-- The loyalty branch does not touch the durable state. -/
theorem apply_loyalty_world (s : BillState) (i : BillInput) :
    (apply_loyalty s i).world = s.world := by
  unfold apply_loyalty
  split
  · rfl
  · split
    · rfl
    · split_ifs <;> rfl

/-- The state an iteration of the menu loop ends in. -/
theorem bill_step_frame (s : BillState) (i : BillInput) :
    ∀ t, (bill_step s i = .running t ∨ bill_step s i = .close t ∨ bill_step s i = .cancelled t) →
      t.world.sales = s.world.sales ∧ t.world.customers = s.world.customers := by
  intro t ht
  unfold bill_step at ht
  cases hc : i.choice with
  | none =>
    simp only [hc] at ht
    rcases ht with h | h | h <;> simp at h
    subst h; exact ⟨rfl, rfl⟩
  | some choice =>
    simp only [hc] at ht
    split_ifs at ht with h1 h3 h4 h5 h5e h6
    · rcases ht with h | h | h <;> simp at h
      subst h; exact add_to_bill_frame s choice i
    · rcases ht with h | h | h <;> simp at h
      subst h; exact ⟨rfl, rfl⟩
    · rcases ht with h | h | h <;> simp at h
      subst h; rw [apply_loyalty_world]; exact ⟨rfl, rfl⟩
    · rcases ht with h | h | h <;> simp at h
      subst h; exact ⟨rfl, rfl⟩
    · rcases ht with h | h | h <;> simp at h
      subst h; exact ⟨rfl, rfl⟩
    · rcases ht with h | h | h <;> simp at h
      subst h
      exact ⟨(save_inventory_frame _ _ _).1, (save_inventory_frame _ _ _).2.1⟩
    · rcases ht with h | h | h <;> simp at h
      subst h; exact ⟨rfl, rfl⟩

/-- The menu loop as a whole leaves the two ledgers alone, however it ends. -/
theorem bill_loop_frame (entries : List BillInput) :
    ∀ (s : BillState) (o : Outcome), bill_loop entries s = some o →
      ∀ t, (o = .running t ∨ o = .close t ∨ o = .cancelled t) →
        t.world.sales = s.world.sales ∧ t.world.customers = s.world.customers := by
  induction entries with
  | nil => intro s o h; simp [bill_loop] at h
  | cons i rest ih =>
    intro s o h t ht
    unfold bill_loop at h
    cases hs : bill_step s i with
    | running s1 =>
      simp only [hs] at h
      have h1 := bill_step_frame s i s1 (Or.inl hs)
      have h2 := ih s1 o h t ht
      exact ⟨h2.1.trans h1.1, h2.2.trans h1.2⟩
    | close s1 =>
      simp only [hs] at h
      have ho : o = .close s1 := (Option.some.inj h).symm
      subst ho
      rcases ht with h' | h' | h' <;> simp at h'
      subst h'
      exact bill_step_frame s i s1 (Or.inr (Or.inl hs))
    | cancelled s1 =>
      simp only [hs] at h
      have ho : o = .cancelled s1 := (Option.some.inj h).symm
      subst ho
      rcases ht with h' | h' | h' <;> simp at h'
      subst h'
      exact bill_step_frame s i s1 (Or.inr (Or.inr hs))

/-- The customer selection does not write any file. -/
theorem resolve_customer_world (inv : List ItemRec) (w : World) (ses : Session) :
    (resolve_customer inv w ses).world.sales = w.sales ∧
    (resolve_customer inv w ses).world.customers = w.customers ∧
    (resolve_customer inv w ses).world.inventory = w.inventory := by
  unfold resolve_customer
  simp only
  split
  · exact ⟨rfl, rfl, rfl⟩
  · split
    · split <;> exact ⟨rfl, rfl, rfl⟩
    · split <;> exact ⟨rfl, rfl, rfl⟩

/-- The function `load_inventory` leaves the two ledgers alone. -/
theorem load_inventory_frame (w : World) :
    (load_inventory w).2.sales = w.sales ∧ (load_inventory w).2.customers = w.customers := by
  unfold load_inventory
  cases w.inventory <;> exact ⟨rfl, rfl⟩

/-- C8. Cancellation touches only the catalog: whenever the menu loop of `print_bill_flow`
ends with "Cancel Sale" (after any add-to-bill and loyalty-discount steps, with a customer
found, newly created or absent), the sales ledger and the customer ledger are, when the
function returns, exactly what they were before the transaction. -/
theorem cancel_touches_only_catalog (w : World) (ses : Session) (w1 : World)
    (hc : endsCancelled (bill_loop ses.entries
      (resolve_customer (load_inventory w).1 (load_inventory w).2 ses)) = true)
    (h : print_bill_flow w ses = some w1) :
    w1.sales = w.sales ∧ w1.customers = w.customers := by
  unfold print_bill_flow at h
  simp only at h
  split_ifs at h with he
  · have := load_inventory_frame w
    rw [← Option.some.inj h]
    exact this
  · cases hl : bill_loop ses.entries
        (resolve_customer (load_inventory w).1 (load_inventory w).2 ses) with
    | none => rw [hl] at hc; simp [endsCancelled] at hc
    | some o =>
      rw [hl] at hc h
      cases o with
      | running s => simp [endsCancelled] at hc
      | close s => simp [endsCancelled] at hc
      | cancelled s =>
        simp only at h
        have hw : s.world = w1 := Option.some.inj h
        have hf := bill_loop_frame _ _ _ hl s (Or.inr (Or.inr rfl))
        have hr := resolve_customer_world (load_inventory w).1 (load_inventory w).2 ses
        have hload := load_inventory_frame w
        rw [← hw]
        exact ⟨hf.1.trans (hr.1.trans hload.1), hf.2.trans (hr.2.1.trans hload.2)⟩

/-- A known customer with loyalty points adds 20 units of rice, redeems points and then
cancels: the catalog file is rewritten, both ledgers are as before. -/
theorem cancel_touches_only_catalog_witness :
    endsCancelled (bill_loop
      [{ choice := some 1, input := "Rice".toList, q := some 20 },
       { choice := some 4, apply := 'y' }, { choice := some 6 }]
      (resolve_customer
        (load_inventory
          { inventory := some "Rice|40.00|100\n".toList,
            customers := some "C1|Bob|017|b@x|500|7.5|2|1700000000\n".toList,
            sales := some "2024-01-01 10:00:00|Bob|7.50|Tea(1)\n".toList }).1
        (load_inventory
          { inventory := some "Rice|40.00|100\n".toList,
            customers := some "C1|Bob|017|b@x|500|7.5|2|1700000000\n".toList,
            sales := some "2024-01-01 10:00:00|Bob|7.50|Tea(1)\n".toList }).2
        { phone := "017".toList,
          entries := [{ choice := some 1, input := "Rice".toList, q := some 20 },
                      { choice := some 4, apply := 'y' }, { choice := some 6 }] })) = true ∧
    print_bill_flow
        { inventory := some "Rice|40.00|100\n".toList,
          customers := some "C1|Bob|017|b@x|500|7.5|2|1700000000\n".toList,
          sales := some "2024-01-01 10:00:00|Bob|7.50|Tea(1)\n".toList }
        { phone := "017".toList,
          entries := [{ choice := some 1, input := "Rice".toList, q := some 20 },
                      { choice := some 4, apply := 'y' }, { choice := some 6 }] } =
      some { inventory := some (inventory_text
               [{ name := "Rice".toList, rate := 40, qty := 100 }]),
             customers := some "C1|Bob|017|b@x|500|7.5|2|1700000000\n".toList,
             sales := some "2024-01-01 10:00:00|Bob|7.50|Tea(1)\n".toList } ∧
    (some "2024-01-01 10:00:00|Bob|7.50|Tea(1)\n".toList =
        some "2024-01-01 10:00:00|Bob|7.50|Tea(1)\n".toList ∧
      some "C1|Bob|017|b@x|500|7.5|2|1700000000\n".toList =
        some "C1|Bob|017|b@x|500|7.5|2|1700000000\n".toList) :=
  ⟨by decide!, by decide!,
   cancel_touches_only_catalog
    { inventory := some "Rice|40.00|100\n".toList,
      customers := some "C1|Bob|017|b@x|500|7.5|2|1700000000\n".toList,
      sales := some "2024-01-01 10:00:00|Bob|7.50|Tea(1)\n".toList }
    { phone := "017".toList,
      entries := [{ choice := some 1, input := "Rice".toList, q := some 20 },
                  { choice := some 4, apply := 'y' }, { choice := some 6 }] }
    { inventory := some (inventory_text [{ name := "Rice".toList, rate := 40, qty := 100 }]),
      customers := some "C1|Bob|017|b@x|500|7.5|2|1700000000\n".toList,
      sales := some "2024-01-01 10:00:00|Bob|7.50|Tea(1)\n".toList }
    (by decide!) (by decide!)⟩

/-- C7, the code at the failing input: with `Bill.txt` not writable, adding 20 units of rice
reports no error, keeps the file as it was, and still appends the cart line and raises the
running subtotal by 800. -/
theorem add_to_bill_ignores_failed_save :
    (save_inventory [{ name := "Rice".toList, rate := 40, qty := 80 }] false
        { inventory := some "Rice|40.00|100\n".toList }).1 = false ∧
    add_to_bill
        { inv := [{ name := "Rice".toList, rate := 40, qty := 100 }], customers := [],
          customer_obj := none, customer_name := "Walk-in Customer".toList,
          world := { inventory := some "Rice|40.00|100\n".toList } }
        1 { choice := some 1, input := "Rice".toList, q := some 20, canWrite := false } =
      { inv := [{ name := "Rice".toList, rate := 40, qty := 80 }], customers := [],
        customer_obj := none, customer_name := "Walk-in Customer".toList,
        sold_items := [({ name := "Rice".toList, rate := 40, qty := 80 }, 20)],
        total := 800,
        world := { inventory := some "Rice|40.00|100\n".toList } } := by
  constructor
  · decide!
  · decide!

/-! ## Stock conservation -/

/-- Adjusting a quantity keeps the name. -/
theorem adjust_name (n : Str) (k : Int) (r : ItemRec) : (adjust n k r).name = r.name := by
  unfold adjust
  split_ifs <;> rfl

/-- Adjusting quantities keeps the list of names. -/
theorem map_adjust_names (n : Str) (k : Int) (inv : List ItemRec) :
    (inv.map (adjust n k)).map ItemRec.name = inv.map ItemRec.name := by
  rw [List.map_map]
  exact List.map_congr_left (fun r _ => adjust_name n k r)

/-- Two adjustments commute. -/
theorem adjust_comm (a b : Str) (x y : Int) (r : ItemRec) :
    adjust b y (adjust a x r) = adjust a x (adjust b y r) := by
  unfold adjust
  by_cases ha : r.name = a
  · subst ha
    by_cases hb : r.name = b
    · subst hb; simp [add_right_comm]
    · simp [hb]
  · by_cases hb : r.name = b
    · subst hb; simp [ha]
    · simp [ha, hb]

/-- Adding back what was taken restores the record. -/
theorem adjust_cancel (n : Str) (k : Int) (r : ItemRec) :
    adjust n k (adjust n (-k) r) = r := by
  unfold adjust
  by_cases h : r.name = n
  · subst h; simp
  · simp [h]

/-- What `find_item` returns: `-1` when no record has the name, otherwise the offset plus
the position of the first record that has it. -/
theorem find_item_from_spec (name : Str) :
    ∀ (inv : List ItemRec) (i : Int),
      (find_item_from name inv i = -1 ∧ ∀ x ∈ inv, x.name ≠ name) ∨
      (∃ k : Nat, find_item_from name inv i = i + k ∧
        ∃ r, inv[k]? = some r ∧ r.name = name ∧
          ∀ j, j < k → ∀ x, inv[j]? = some x → x.name ≠ name) := by
  intro inv
  induction inv with
  | nil => intro i; left; exact ⟨rfl, by simp⟩
  | cons r rest ih =>
    intro i
    unfold find_item_from
    by_cases h : r.name = name
    · right
      refine ⟨0, by simp [h], r, by simp, h, ?_⟩
      intro j hj; omega
    · simp only [h, if_false]
      rcases ih (i + 1) with ⟨h1, h2⟩ | ⟨k, h1, r1, h2, h3, h4⟩
      · left
        refine ⟨h1, ?_⟩
        intro x hx
        rcases List.mem_cons.mp hx with hx | hx
        · rw [hx]; exact h
        · exact h2 x hx
      · right
        refine ⟨k + 1, by rw [h1]; push_cast; ring, r1, by simpa using h2, h3, ?_⟩
        intro j hj x hx
        cases j with
        | zero =>
          simp only [List.getElem?_cons_zero, Option.some.injEq] at hx
          rw [← hx]; exact h
        | succ j =>
          simp only [List.getElem?_cons_succ] at hx
          exact h4 j (by omega) x hx

/-- In a catalog with pairwise distinct names, replacing the record at a position is the
same as changing every record of that name. -/
theorem set_eq_map_of_nodup (g : ItemRec → ItemRec) :
    ∀ (inv : List ItemRec) (k : Nat) (r : ItemRec),
      (inv.map ItemRec.name).Nodup → inv[k]? = some r →
      inv.set k (g r) = inv.map (fun x => if x.name = r.name then g x else x) := by
  intro inv
  induction inv with
  | nil => intro k r _ h; simp at h
  | cons x xs ih =>
    intro k r hnd h
    rw [List.map_cons, List.nodup_cons] at hnd
    cases k with
    | zero =>
      simp only [List.getElem?_cons_zero, Option.some.injEq] at h
      subst h
      simp only [List.set_cons_zero, List.map_cons, if_true]
      congr 1
      symm
      calc xs.map (fun y => if y.name = x.name then g y else y)
          = xs.map id := by
            apply List.map_congr_left
            intro y hy
            have : y.name ≠ x.name := by
              intro he
              exact hnd.1 (he ▸ List.mem_map_of_mem ItemRec.name hy)
            simp [this]
        _ = xs := List.map_id xs
    | succ k =>
      simp only [List.getElem?_cons_succ] at h
      have hmem : r ∈ xs := List.getElem?_mem h
      have hne : x.name ≠ r.name := by
        intro he
        exact hnd.1 (he ▸ List.mem_map_of_mem ItemRec.name hmem)
      simp only [List.set_cons_succ, List.map_cons, hne, if_false]
      rw [ih k r hnd.2 h]

/-- One step of the restore loop, in a catalog with pairwise distinct names. -/
theorem restore_step (item : ItemRec × Int) (inv : List ItemRec)
    (hnd : (inv.map ItemRec.name).Nodup) :
    ∀ rest, restore_stock (item :: rest) inv =
      restore_stock rest (inv.map (adjust item.1.name item.2)) := by
  intro rest
  rw [restore_stock]
  rcases find_item_from_spec item.1.name inv 0 with ⟨h1, h2⟩ | ⟨k, h1, r, h2, h3, h4⟩
  · have hneg : ¬ (0 ≤ find_item inv item.1.name) := by
      unfold find_item; rw [h1]; decide
    simp only [hneg, if_false]
    congr 1
    calc inv = inv.map id := (List.map_id inv).symm
      _ = inv.map (adjust item.1.name item.2) := by
        apply List.map_congr_left
        intro x hx
        simp [adjust, h2 x hx]
  · have hidx : find_item inv item.1.name = (k : Int) := by
      unfold find_item; rw [h1]; simp
    rw [hidx, if_pos (Int.natCast_nonneg k)]
    simp only [Int.toNat_natCast, h2]
    congr 1
    have := set_eq_map_of_nodup (fun x => { x with qty := x.qty + item.2 }) inv k r hnd h2
    rw [h3] at this
    exact this

/-- In a catalog with pairwise distinct names the restore loop adds every cart line back
under its name. -/
theorem restore_stock_eq (cart : List (ItemRec × Int)) :
    ∀ inv : List ItemRec, (inv.map ItemRec.name).Nodup →
      restore_stock cart inv = restore_all cart inv := by
  induction cart with
  | nil => intro inv _; rfl
  | cons item rest ih =>
    intro inv hnd
    rw [restore_step item inv hnd rest]
    rw [ih _ (by rw [map_adjust_names]; exact hnd)]
    rfl

/-- Restoring commutes with an adjustment of the catalog. -/
theorem restore_all_map_adjust (n : Str) (k : Int) (cart : List (ItemRec × Int)) :
    ∀ inv : List ItemRec,
      restore_all cart (inv.map (adjust n k)) = (restore_all cart inv).map (adjust n k) := by
  induction cart with
  | nil => intro inv; rfl
  | cons item rest ih =>
    intro inv
    simp only [restore_all, List.foldl_cons] at ih ⊢
    rw [← ih]
    congr 1
    simp only [List.map_map]
    apply List.map_congr_left
    intro r _
    exact adjust_comm n item.1.name k item.2 r

/-- Restoring a cart with one more line. -/
theorem restore_all_append (cart : List (ItemRec × Int)) (item : ItemRec × Int)
    (inv : List ItemRec) :
    restore_all (cart ++ [item]) inv =
      (restore_all cart inv).map (adjust item.1.name item.2) := by
  simp [restore_all, List.foldl_append]

/-- The add branch either rejects the entry or decrements the stock of the record found
and appends the cart line. -/
theorem add_to_bill_cases (s : BillState) (choice : Int) (i : BillInput) :
    add_to_bill s choice i = s ∨
    ∃ q r, i.q = some q ∧ 0 < q ∧
      s.inv[(lookup_index s.inv choice i.input).toNat]? = some r ∧ q ≤ r.qty ∧
      add_to_bill s choice i =
        { s with
          inv := s.inv.set (lookup_index s.inv choice i.input).toNat { r with qty := r.qty - q },
          sold_items := s.sold_items ++ [({ r with qty := r.qty - q }, q)],
          total := s.total + r.rate * q,
          world := (save_inventory
            (s.inv.set (lookup_index s.inv choice i.input).toNat { r with qty := r.qty - q })
            i.canWrite s.world).2 } := by
  unfold add_to_bill
  by_cases h1 : i.input = []
  · left; simp [h1]
  · cases hq : i.q with
    | none => left; simp [h1]
    | some q =>
      by_cases h2 : q ≤ 0
      · left; simp [h1, h2]
      · by_cases h3 : lookup_index s.inv choice i.input < 0
        · left; simp [h1, h2, h3]
        · cases hr : s.inv[(lookup_index s.inv choice i.input).toNat]? with
          | none => left; simp [h1, h2, h3, hr]
          | some r =>
            by_cases h4 : r.qty < q
            · left; simp [h1, h2, h3, hr, h4]
            · right
              refine ⟨q, r, rfl, not_le.mp h2, rfl, not_lt.mp h4, ?_⟩
              simp [h1, h2, h3, hr, h4]

/-- The add branch keeps the names of the catalog pairwise distinct and keeps the sum of
catalog and cart: restoring the cart still yields the same catalog. -/
theorem add_to_bill_reserved (s : BillState) (choice : Int) (i : BillInput)
    (hnd : (s.inv.map ItemRec.name).Nodup) :
    ((add_to_bill s choice i).inv.map ItemRec.name).Nodup ∧
    restore_all (add_to_bill s choice i).sold_items (add_to_bill s choice i).inv =
      restore_all s.sold_items s.inv := by
  rcases add_to_bill_cases s choice i with h | ⟨q, r, _, _, hr, _, h⟩
  · rw [h]; exact ⟨hnd, rfl⟩
  · rw [h]
    simp only
    have hset : s.inv.set (lookup_index s.inv choice i.input).toNat { r with qty := r.qty - q }
        = s.inv.map (adjust r.name (-q)) := by
      have := set_eq_map_of_nodup (fun x => { x with qty := x.qty + -q }) s.inv _ r hnd hr
      simp only [← sub_eq_add_neg] at this
      rw [this]
      apply List.map_congr_left
      intro x _
      simp [adjust, sub_eq_add_neg]
    rw [hset, map_adjust_names]
    refine ⟨hnd, ?_⟩
    rw [restore_all_append, restore_all_map_adjust, List.map_map]
    simp only
    calc (restore_all s.sold_items s.inv).map (adjust r.name q ∘ adjust r.name (-q))
        = (restore_all s.sold_items s.inv).map id := by
          apply List.map_congr_left
          intro x _
          exact adjust_cancel r.name q x
      _ = restore_all s.sold_items s.inv := List.map_id _

/-- The loyalty branch touches neither the catalog nor the cart. -/
theorem apply_loyalty_cart (s : BillState) (i : BillInput) :
    (apply_loyalty s i).inv = s.inv ∧ (apply_loyalty s i).sold_items = s.sold_items := by
  unfold apply_loyalty
  split
  · exact ⟨rfl, rfl⟩
  · split
    · exact ⟨rfl, rfl⟩
    · split_ifs <;> exact ⟨rfl, rfl⟩

/-- An iteration that lets the loop go on keeps the names pairwise distinct and the sum of
catalog and cart. -/
theorem bill_step_open_reserved (s t : BillState) (i : BillInput)
    (hnd : (s.inv.map ItemRec.name).Nodup) (h : bill_step s i = .running t) :
    (t.inv.map ItemRec.name).Nodup ∧
    restore_all t.sold_items t.inv = restore_all s.sold_items s.inv := by
  unfold bill_step at h
  cases hc : i.choice with
  | none =>
    simp only [hc] at h
    cases h; exact ⟨hnd, rfl⟩
  | some choice =>
    simp only [hc] at h
    split_ifs at h
    · cases h; exact add_to_bill_reserved s choice i hnd
    · cases h; exact ⟨hnd, rfl⟩
    · cases h
      rw [(apply_loyalty_cart s i).1, (apply_loyalty_cart s i).2]
      exact ⟨hnd, rfl⟩
    · cases h; exact ⟨hnd, rfl⟩
    · cases h; exact ⟨hnd, rfl⟩

/-- An iteration that ends with "Cancel Sale" saves the catalog with the cart restored. -/
theorem bill_step_cancelled (s t : BillState) (i : BillInput)
    (h : bill_step s i = .cancelled t) :
    t.inv = restore_stock s.sold_items s.inv ∧
    (i.canWrite = true → t.world.inventory = some (inventory_text t.inv)) := by
  unfold bill_step at h
  cases hc : i.choice with
  | none => simp [hc] at h
  | some choice =>
    simp only [hc] at h
    split_ifs at h
    cases h
    refine ⟨rfl, ?_⟩
    intro hw
    simp [save_inventory, hw]

/-- The menu loop ending with "Cancel Sale": the catalog it saves is the cart restored into
the catalog the loop started from. -/
theorem bill_loop_cancelled (entries : List BillInput) :
    ∀ (s t : BillState), (s.inv.map ItemRec.name).Nodup →
      bill_loop entries s = some (.cancelled t) →
      t.inv = restore_all s.sold_items s.inv ∧
      ((∀ i ∈ entries, i.canWrite = true) → t.world.inventory = some (inventory_text t.inv)) := by
  induction entries with
  | nil => intro s t _ h; simp [bill_loop] at h
  | cons i rest ih =>
    intro s t hnd h
    unfold bill_loop at h
    cases hs : bill_step s i with
    | running s1 =>
      simp only [hs] at h
      obtain ⟨hnd1, hres⟩ := bill_step_open_reserved s s1 i hnd hs
      obtain ⟨h1, h2⟩ := ih s1 t hnd1 h
      refine ⟨h1.trans hres, ?_⟩
      intro hw
      exact h2 (fun j hj => hw j (List.mem_cons_of_mem _ hj))
    | close s1 =>
      simp only [hs] at h
      cases h
    | cancelled s1 =>
      simp only [hs] at h
      cases h
      obtain ⟨h1, h2⟩ := bill_step_cancelled s t i hs
      refine ⟨by rw [h1, restore_stock_eq _ _ hnd], ?_⟩
      intro hw
      exact h2 (hw i (List.mem_cons_self _ _))

/-- Stock conservation when the product names are pairwise distinct: for every run of the
menu loop of `print_bill_flow` that ends with "Cancel Sale" (after any add-to-bill steps,
by name or by barcode), the catalog that the cancel branch passes to `save_inventory` is
the catalog as it was loaded at the start of the transaction; when the file can be written
this is what `Bill.txt` holds afterwards. -/
theorem cancel_restores_stock (w : World) (ses : Session) (s : BillState)
    (hnd : ((load_inventory w).1.map ItemRec.name).Nodup)
    (h : bill_loop ses.entries
      (resolve_customer (load_inventory w).1 (load_inventory w).2 ses) = some (.cancelled s)) :
    s.inv = (load_inventory w).1 ∧
    ((∀ i ∈ ses.entries, i.canWrite = true) →
      s.world.inventory = some (inventory_text (load_inventory w).1)) := by
  have hinv : (resolve_customer (load_inventory w).1 (load_inventory w).2 ses).inv
      = (load_inventory w).1 := by
    unfold resolve_customer
    simp only
    split
    · rfl
    · split
      · split <;> rfl
      · split <;> rfl
  have hcart : (resolve_customer (load_inventory w).1 (load_inventory w).2 ses).sold_items
      = [] := by
    unfold resolve_customer
    simp only
    split
    · rfl
    · split
      · split <;> rfl
      · split <;> rfl
  obtain ⟨h1, h2⟩ := bill_loop_cancelled ses.entries _ s (by rw [hinv]; exact hnd) h
  rw [hinv, hcart] at h1
  have h3 : s.inv = (load_inventory w).1 := h1
  refine ⟨h3, ?_⟩
  intro hw
  rw [← h3]
  exact h2 hw


/-! ## End-to-end scenario -/

/-- C9. End-to-end scenario: from a catalog whose only product is Rice at 40.00 with 100
units, a walk-in checkout adds 20 units of Rice: the add step saves the catalog with 80
units (loading the saved file gives 80) and the subtotal is 800; completing the sale prices
it at vat 40, discount 50, net total 790; a single cash payment of 790 ends the payment
loop; when `print_bill_flow` returns, `Sales.txt` holds its former content followed by
exactly one line, with amount 790.00 and item list `Rice(20)` (after the header line when
the ledger was empty), the customer file is untouched and the catalog file still holds 80
units of Rice. -/
theorem end_to_end_rice :
    (add_to_bill
        { inv := [{ name := "Rice".toList, rate := 40, qty := 100 }], customers := [],
          customer_obj := none, customer_name := "Walk-in Customer".toList,
          world := { inventory := some "Rice|40.00|100\n".toList } }
        1 { choice := some 1, input := "Rice".toList, q := some 20 } =
      { inv := [{ name := "Rice".toList, rate := 40, qty := 80 }], customers := [],
        customer_obj := none, customer_name := "Walk-in Customer".toList,
        sold_items := [({ name := "Rice".toList, rate := 40, qty := 80 }, 20)],
        total := 800,
        world := { inventory := some (inventory_text
          [{ name := "Rice".toList, rate := 40, qty := 80 }]) } }) ∧
    parse_inventory (inventory_text [{ name := "Rice".toList, rate := 40, qty := 80 }]) =
      [{ name := "Rice".toList, rate := 40, qty := 80 }] ∧
    pricing 800 = { vat := 40, discount := 50, net_total := 790 } ∧
    process_payment 790 [{ method := some 1, amount := some 790 }] =
      some [{ method := 1, amount := 790, timestamp := 0 }] ∧
    print_bill_flow
        { inventory := some "Rice|40.00|100\n".toList,
          customers := some "C1|Bob|017|b@x|500|7.5|2|1700000000\n".toList,
          sales := some "2024-01-01 10:00:00|Bob|7.50|Tea(1)\n".toList }
        { entries := [{ choice := some 1, input := "Rice".toList, q := some 20 },
                      { choice := some 5 }],
          payments := [{ method := some 1, amount := some 790 }],
          datetime := "2024-01-02 09:30:00".toList } =
      some { inventory := some (inventory_text
               [{ name := "Rice".toList, rate := 40, qty := 80 }]),
             customers := some "C1|Bob|017|b@x|500|7.5|2|1700000000\n".toList,
             sales := some ("2024-01-01 10:00:00|Bob|7.50|Tea(1)\n".toList ++
               "2024-01-02 09:30:00|Walk-in Customer|790.00|Rice(20)\n".toList) } ∧
    print_bill_flow
        { inventory := some "Rice|40.00|100\n".toList }
        { entries := [{ choice := some 1, input := "Rice".toList, q := some 20 },
                      { choice := some 5 }],
          payments := [{ method := some 1, amount := some 790 }],
          datetime := "2024-01-02 09:30:00".toList } =
      some { inventory := some (inventory_text
               [{ name := "Rice".toList, rate := 40, qty := 80 }]),
             sales := some (SALES_HEADER ++
               "\n2024-01-02 09:30:00|Walk-in Customer|790.00|Rice(20)\n".toList) } := by
  refine ⟨by decide!, by decide!, by decide!, by decide!, by decide!, by decide!⟩

/-! ## Numeric text: printing and reading back -/

/-- Facts about the ten digit characters. -/
theorem digitChar_spec (d : Nat) (h : d < 10) :
    (digitChar d).isDigit = true ∧ digitVal (digitChar d) = d ∧
    isspace (digitChar d) = false ∧ digitChar d ≠ '-' ∧ digitChar d ≠ '+' ∧
    digitChar d ≠ '|' ∧ digitChar d ≠ '\n' ∧ digitChar d ≠ '.' := by
  interval_cases d <;> decide

/-- The value of a digit string extended by one digit. -/
theorem digitsVal_append (s : Str) (c : Char) :
    digitsVal (s ++ [c]) = digitsVal s * 10 + digitVal c := by
  simp [digitsVal, List.foldl_append]

/-- A fixed-width digit string consists of digits. -/
theorem fixedDigits_isDigit : ∀ (w n : Nat), ∀ c ∈ fixedDigits w n, c.isDigit = true := by
  intro w
  induction w with
  | zero => intro n c hc; simp [fixedDigits] at hc
  | succ w ih =>
    intro n c hc
    rw [fixedDigits, List.mem_append] at hc
    rcases hc with hc | hc
    · exact ih _ c hc
    · rw [List.mem_singleton] at hc
      rw [hc]
      exact (digitChar_spec _ (Nat.mod_lt _ (by norm_num))).1

/-- A fixed-width digit string has the width asked for. -/
theorem fixedDigits_length : ∀ (w n : Nat), (fixedDigits w n).length = w := by
  intro w
  induction w with
  | zero => intro n; rfl
  | succ w ih => intro n; simp [fixedDigits, ih]

/-- A fixed-width digit string reads back as the number modulo the width. -/
theorem digitsVal_fixedDigits : ∀ (w n : Nat), digitsVal (fixedDigits w n) = n % 10 ^ w := by
  intro w
  induction w with
  | zero => intro n; simp [fixedDigits, digitsVal, Nat.mod_one]
  | succ w ih =>
    intro n
    rw [fixedDigits, digitsVal_append, ih, (digitChar_spec _ (Nat.mod_lt _ (by norm_num))).2.1]
    rw [pow_succ]
    have h1 : n % (10 ^ w * 10) = n % 10 + 10 * (n / 10 % 10 ^ w) := by
      rw [mul_comm (10 ^ w) 10, Nat.mod_mul]
    omega

/-- The digits of a number: a non-empty string of digits. -/
theorem decDigits_isDigit : ∀ (fuel n : Nat), ∀ c ∈ decDigits fuel n, c.isDigit = true := by
  intro fuel
  induction fuel with
  | zero => intro n c hc; simp [decDigits] at hc
  | succ fuel ih =>
    intro n c hc
    rw [decDigits] at hc
    split_ifs at hc with h
    · rw [List.mem_singleton] at hc
      rw [hc]; exact (digitChar_spec n h).1
    · rw [List.mem_append] at hc
      rcases hc with hc | hc
      · exact ih _ c hc
      · rw [List.mem_singleton] at hc
        rw [hc]
        exact (digitChar_spec _ (Nat.mod_lt _ (by norm_num))).1

/-- The digits of a number read back as the number, given enough fuel. -/
theorem digitsVal_decDigits : ∀ (fuel n : Nat), n < fuel → digitsVal (decDigits fuel n) = n := by
  intro fuel
  induction fuel with
  | zero => intro n h; omega
  | succ fuel ih =>
    intro n h
    rw [decDigits]
    split_ifs with h10
    · simpa [digitsVal] using (digitChar_spec n h10).2.1
    · rw [digitsVal_append, ih (n / 10) (by omega),
        (digitChar_spec _ (Nat.mod_lt _ (by norm_num))).2.1]
      omega

/-- The text of a number is not empty. -/
theorem natStr_ne_nil (n : Nat) : natStr n ≠ [] := by
  unfold natStr
  rw [decDigits]
  split_ifs <;> simp

/-- The text of a number consists of digits. -/
theorem natStr_isDigit (n : Nat) : ∀ c ∈ natStr n, c.isDigit = true :=
  decDigits_isDigit (n + 1) n

/-- The text of a number reads back as the number. -/
theorem digitsVal_natStr (n : Nat) : digitsVal (natStr n) = n :=
  digitsVal_decDigits (n + 1) n (Nat.lt_succ_self n)

/-- A digit is none of the characters that structure a record. -/
theorem isDigit_props (c : Char) (h : c.isDigit = true) :
    isspace c = false ∧ c ≠ '-' ∧ c ≠ '+' ∧ c ≠ '|' ∧ c ≠ '\n' ∧ c ≠ '.' := by
  have h1 : 48 ≤ c.val.toNat ∧ c.val.toNat ≤ 57 := by
    simp only [Char.isDigit, Bool.and_eq_true, decide_eq_true_eq] at h
    exact ⟨h.1, h.2⟩
  have hne : ∀ d : Char, (d.val.toNat < 48 ∨ 57 < d.val.toNat) → c ≠ d := by
    intro d hd he
    rw [he] at h1
    omega
  refine ⟨?_, hne _ (by decide), hne _ (by decide), hne _ (by decide), hne _ (by decide),
    hne _ (by decide)⟩
  have e1 := hne ' ' (by decide)
  have e2 := hne '\t' (by decide)
  have e3 := hne '\n' (by decide)
  have e4 := hne '\r' (by decide)
  have e5 : c.toNat ≠ 11 := by simp only [Char.toNat]; omega
  have e6 : c.toNat ≠ 12 := by simp only [Char.toNat]; omega
  simp [isspace, e1, e2, e3, e4, e5, e6]

/-- Reading a run of digits that ends the text or is followed by a non-digit. -/
theorem takeWhile_digits (a rest : Str) (ha : ∀ c ∈ a, c.isDigit = true)
    (hr : ∀ c, rest.head? = some c → c.isDigit = false) :
    (a ++ rest).takeWhile Char.isDigit = a ∧ (a ++ rest).dropWhile Char.isDigit = rest := by
  induction a with
  | nil =>
    cases rest with
    | nil => exact ⟨rfl, rfl⟩
    | cons c r =>
      have := hr c rfl
      simp [List.takeWhile, List.dropWhile, this]
  | cons x xs ih =>
    have hx := ha x (List.mem_cons_self _ _)
    have := ih (fun c hc => ha c (List.mem_cons_of_mem _ hc))
    simp [List.takeWhile, List.dropWhile, hx, this.1, this.2]

/-- A character that is no sign is left in place by `parseSign`. -/
theorem parseSign_of_ne (c : Char) (t : Str) (h1 : c ≠ '-') (h2 : c ≠ '+') :
    parseSign (c :: t) = (false, c :: t) := by
  unfold parseSign
  split
  · rename_i heq; simp at heq; exact absurd heq.1 h1
  · rename_i heq; simp at heq; exact absurd heq.1 h2
  · rfl

/-- Leading white space: nothing is dropped in front of a character that is none. -/
theorem dropWhile_isspace_cons (c : Char) (t : Str) (h : isspace c = false) :
    (c :: t).dropWhile isspace = c :: t := by
  simp [List.dropWhile, h]

/-- The function `strtol` reads back what `to_string` printed for an integer. -/
theorem strtol_to_string_int (n : Int) : strtol (to_string_int n) = some n := by
  have htw : ∀ k : Nat, (natStr k).takeWhile Char.isDigit = natStr k := by
    intro k
    have := (takeWhile_digits (natStr k) [] (natStr_isDigit k) (by simp)).1
    simpa using this
  unfold to_string_int
  by_cases hn : n < 0
  · simp only [hn, if_true]
    unfold strtol
    rw [dropWhile_isspace_cons _ _ (by decide)]
    simp only [parseSign, htw, natStr_ne_nil, if_false, if_true, digitsVal_natStr]
    congr 1
    rw [Int.ofNat_natAbs_of_nonpos hn.le, neg_neg]
  · simp only [hn, if_false]
    unfold strtol
    obtain ⟨c, t, hct⟩ := List.exists_cons_of_ne_nil (natStr_ne_nil n.natAbs)
    have hc : c.isDigit = true := natStr_isDigit n.natAbs c (by rw [hct]; exact List.mem_cons_self _ _)
    obtain ⟨p1, p2, p3, _⟩ := isDigit_props c hc
    rw [hct, dropWhile_isspace_cons _ _ p1, parseSign_of_ne _ _ p2 p3, ← hct]
    simp only [htw, natStr_ne_nil, if_false, digitsVal_natStr]
    congr 1
    exact Int.natAbs_of_nonneg (not_lt.mp hn)

/-- The function `stoi` reads back what `to_string` printed for an `int`. -/
theorem stoi_to_string_int (n : Int) (h1 : -2147483648 ≤ n) (h2 : n ≤ 2147483647) :
    stoi (to_string_int n) = some n := by
  unfold stoi
  rw [strtol_to_string_int]
  simp [h1, h2]

/-- The function `stod` reads back what `to_string` printed for a rate that is not negative:
the rate rounded to six decimals. -/
theorem stod_to_string_double (x : ℚ) (hx : 0 ≤ x) :
    stod (to_string_double x) = some (reread_rate x) := by
  unfold to_string_double fixedStr reread_rate
  simp only [not_lt.mpr hx, if_false, show ¬ (6 = 0) by decide]
  generalize (roundHalfEven (|x| * 10 ^ 6)).toNat = n
  obtain ⟨c, t, hct⟩ := List.exists_cons_of_ne_nil (natStr_ne_nil (n / 10 ^ 6))
  have hc : c.isDigit = true :=
    natStr_isDigit _ c (by rw [hct]; exact List.mem_cons_self _ _)
  obtain ⟨p1, p2, p3, _⟩ := isDigit_props c hc
  have hip := takeWhile_digits (natStr (n / 10 ^ 6)) ('.' :: fixedDigits 6 (n % 10 ^ 6))
    (natStr_isDigit _) (by intro d hd; simp at hd; rw [← hd]; decide)
  have hfp := takeWhile_digits (fixedDigits 6 (n % 10 ^ 6)) []
    (fixedDigits_isDigit _ _) (by simp)
  simp only [List.append_nil] at hfp
  unfold stod
  have hdrop : (natStr (n / 10 ^ 6) ++ '.' :: fixedDigits 6 (n % 10 ^ 6)).dropWhile isspace
      = natStr (n / 10 ^ 6) ++ '.' :: fixedDigits 6 (n % 10 ^ 6) := by
    rw [hct]; exact dropWhile_isspace_cons _ _ p1
  have hsign : parseSign (natStr (n / 10 ^ 6) ++ '.' :: fixedDigits 6 (n % 10 ^ 6))
      = (false, natStr (n / 10 ^ 6) ++ '.' :: fixedDigits 6 (n % 10 ^ 6)) := by
    rw [hct]; exact parseSign_of_ne _ _ p2 p3
  rw [hdrop, hsign]
  simp only [hip.1, hip.2, hfp.1, hfp.2, natStr_ne_nil, false_and, if_false,
    digitsVal_natStr, digitsVal_fixedDigits, fixedDigits_length, parseExponent, scale10]
  simp only [Bool.false_eq_true, if_false, le_refl, if_true, Int.toNat_zero, pow_zero, mul_one]
  congr 1
  have h0 : n % 10 ^ 6 % 10 ^ 6 = n % 10 ^ 6 := Nat.mod_mod _ _
  rw [h0]
  have hdecomp : (n : ℚ) = ((n / 10 ^ 6 : Nat) : ℚ) * 10 ^ 6 + ((n % 10 ^ 6 : Nat) : ℚ) := by
    have := Nat.div_add_mod n (10 ^ 6)
    have h2 : ((10 ^ 6 * (n / 10 ^ 6) + n % 10 ^ 6 : Nat) : ℚ) = (n : ℚ) := by rw [this]
    push_cast at h2
    linarith
  rw [hdecomp]
  field_simp

/-- What `to_string` prints for an integer contains neither separator nor line break. -/
theorem to_string_int_plain (n : Int) :
    '|' ∉ to_string_int n ∧ '\n' ∉ to_string_int n ∧ to_string_int n ≠ [] := by
  have hd : ∀ k : Nat, '|' ∉ natStr k ∧ '\n' ∉ natStr k := by
    intro k
    constructor
    · intro h; exact absurd (natStr_isDigit k _ h) (by decide)
    · intro h; exact absurd (natStr_isDigit k _ h) (by decide)
  unfold to_string_int
  split_ifs
  · refine ⟨?_, ?_, by simp⟩
    · simp only [List.mem_cons, not_or]; exact ⟨by decide, (hd _).1⟩
    · simp only [List.mem_cons, not_or]; exact ⟨by decide, (hd _).2⟩
  · exact ⟨(hd _).1, (hd _).2, natStr_ne_nil _⟩

/-- What `to_string` prints for a rate contains neither separator nor line break. -/
theorem to_string_double_plain (x : ℚ) :
    '|' ∉ to_string_double x ∧ '\n' ∉ to_string_double x := by
  have hd : ∀ s : Str, (∀ c ∈ s, c.isDigit = true) → '|' ∉ s ∧ '\n' ∉ s := by
    intro s hs
    constructor
    · intro h; exact absurd (hs _ h) (by decide)
    · intro h; exact absurd (hs _ h) (by decide)
  have hbody : ∀ n : Nat,
      '|' ∉ natStr (n / 10 ^ 6) ++ '.' :: fixedDigits 6 (n % 10 ^ 6) ∧
      '\n' ∉ natStr (n / 10 ^ 6) ++ '.' :: fixedDigits 6 (n % 10 ^ 6) := by
    intro n
    have h1 := hd _ (natStr_isDigit (n / 10 ^ 6))
    have h2 := hd _ (fixedDigits_isDigit 6 (n % 10 ^ 6))
    simp only [List.mem_append, List.mem_cons, not_or]
    exact ⟨⟨h1.1, by decide, h2.1⟩, ⟨h1.2, by decide, h2.2⟩⟩
  unfold to_string_double fixedStr
  simp only [show ¬ (6 = 0) by decide, if_false]
  split_ifs
  · simp only [List.mem_cons, not_or]
    exact ⟨⟨by decide, (hbody _).1⟩, ⟨by decide, (hbody _).2⟩⟩
  · exact hbody _

/-! ## Fields and lines -/

/-- Cutting a text whose first field is followed by the separator. -/
theorem splitOn_append (d : Char) (f rest : Str) (hf : d ∉ f) :
    splitOn d (f ++ d :: rest) = f :: splitOn d rest := by
  induction f with
  | nil => simp [splitOn]
  | cons c cs ih =>
    have hc : c ≠ d := by
      intro h; exact hf (h ▸ List.mem_cons_self _ _)
    have hcs : d ∉ cs := fun h => hf (List.mem_cons_of_mem _ h)
    rw [List.cons_append, splitOn, if_neg hc, ih hcs]

/-- Cutting a text that has no separator and is not empty. -/
theorem splitOn_single (d : Char) (f : Str) (hf : d ∉ f) (hne : f ≠ []) :
    splitOn d f = [f] := by
  induction f with
  | nil => exact absurd rfl hne
  | cons c cs ih =>
    have hc : c ≠ d := by
      intro h; exact hf (h ▸ List.mem_cons_self _ _)
    have hcs : d ∉ cs := fun h => hf (List.mem_cons_of_mem _ h)
    cases cs with
    | nil => simp [splitOn, hc]
    | cons e es => rw [splitOn, if_neg hc, ih hcs (by simp)]

/-! ## Catalog store: saving and loading -/

/-- A rate read back is not negative. -/
theorem reread_rate_nonneg (x : ℚ) : 0 ≤ reread_rate x := by
  unfold reread_rate
  exact div_nonneg (Nat.cast_nonneg _) (pow_nonneg (by norm_num) _)

/-- A rate with at most six decimals is read back unchanged. -/
theorem reread_rate_decimal (n : Nat) : reread_rate ((n : ℚ) / 10 ^ 6) = (n : ℚ) / 10 ^ 6 := by
  unfold reread_rate
  have h1 : |(n : ℚ) / 10 ^ 6| * 10 ^ 6 = ((n : Int) : ℚ) := by
    rw [abs_of_nonneg (div_nonneg (Nat.cast_nonneg _) (pow_nonneg (by norm_num) _))]
    field_simp
  have h2 : roundHalfEven (((n : Int) : ℚ)) = (n : Int) := by
    unfold roundHalfEven
    simp only [Int.floor_intCast, sub_self]
    norm_num
  rw [h1, h2, Int.toNat_natCast]

/-- The fields of a serialized product. -/
theorem splitOn_serialize_line (r : ItemRec) (h : Storable r) :
    splitOn '|' (serialize_line r) =
      [r.name, to_string_double r.rate, to_string_int r.qty, r.barcode, r.category,
       r.supplier, to_string_int r.low_stock_threshold] := by
  obtain ⟨_, _, _, hn, _, hb, _, hc, _, hs, _⟩ := h
  unfold serialize_line
  rw [splitOn_append _ _ _ hn, splitOn_append _ _ _ (to_string_double_plain _).1,
    splitOn_append _ _ _ (to_string_int_plain _).1, splitOn_append _ _ _ hb,
    splitOn_append _ _ _ hc, splitOn_append _ _ _ hs,
    splitOn_single _ _ (to_string_int_plain _).1 (to_string_int_plain _).2.2]

/-- A serialized product has no line break. -/
theorem serialize_line_no_newline (r : ItemRec) (h : Storable r) :
    '\n' ∉ serialize_line r := by
  obtain ⟨_, _, _, _, hn, _, hb, _, hc, _, hs, _⟩ := h
  unfold serialize_line
  simp only [List.mem_append, List.mem_cons, not_or]
  exact ⟨hn, by decide, (to_string_double_plain _).2, by decide, (to_string_int_plain _).2.1,
    by decide, hb, by decide, hc, by decide, hs, by decide, (to_string_int_plain _).2.1⟩

/-- Parsing a serialized product gives the product back, its rate rounded to six decimals
and its last-updated time reset. -/
theorem parse_line_serialize_line (r : ItemRec) (h : Storable r) :
    parse_line (serialize_line r) {} =
      some (reloaded r) := by
  have hparts := splitOn_serialize_line r h
  obtain ⟨hne, hhash, htrim, _, _, _, _, _, _, _, _, hrate, hq0, hq1, ht0, ht1⟩ := h
  obtain ⟨c, t, hct⟩ := List.exists_cons_of_ne_nil hne
  have hline : serialize_line r = c :: (t ++ '|' :: (to_string_double r.rate ++ '|' ::
      (to_string_int r.qty ++ '|' :: (r.barcode ++ '|' :: (r.category ++ '|' ::
        (r.supplier ++ '|' :: to_string_int r.low_stock_threshold)))))) := by
    unfold serialize_line; rw [hct]; rfl
  have hc : c ≠ '#' := by
    intro he; apply hhash; rw [hct, he]; rfl
  have hguard : ¬ (serialize_line r = [] ∨ (serialize_line r).head? = some '#') := by
    rw [hline]
    simp [hc]
  unfold parse_line
  rw [if_neg hguard]
  simp only [hparts, List.length_cons, List.length_nil, List.getD_cons_zero,
    List.getD_cons_succ, htrim, stod_to_string_double r.rate hrate,
    stoi_to_string_int r.qty (le_trans (by norm_num) hq0) hq1,
    stoi_to_string_int r.low_stock_threshold ht0 ht1]
  have hcond : r.name ≠ [] ∧ 0 ≤ reread_rate r.rate ∧ 0 ≤ r.qty :=
    ⟨hne, reread_rate_nonneg _, hq0⟩
  simp [hcond, reloaded]

/-- The lines of a text written line by line. -/
theorem splitOn_lines (ls : List Str) (h : ∀ l ∈ ls, '\n' ∉ l) :
    splitOn '\n' (ls.map (fun l => l ++ ['\n'])).flatten = ls := by
  induction ls with
  | nil => rfl
  | cons l rest ih =>
    have h1 : '\n' ∉ l := h l (List.mem_cons_self _ _)
    have h2 := ih (fun x hx => h x (List.mem_cons_of_mem _ hx))
    simp only [List.map_cons, List.flatten_cons, List.append_assoc, List.singleton_append]
    rw [splitOn_append _ _ _ h1, h2]

/-- The comment line at the top of the catalog file is skipped by the parser and has no
line break. -/
theorem inventory_header_skipped :
    parse_line INVENTORY_HEADER {} = none ∧ '\n' ∉ INVENTORY_HEADER := by
  constructor
  · decide!
  · decide

/-- Loading the text that `save_inventory` writes. -/
theorem parse_inventory_text (inv : List ItemRec) (h : ∀ r ∈ inv, Storable r) :
    parse_inventory (inventory_text inv) = inv.map reloaded := by
  unfold parse_inventory inventory_text
  rw [splitOn_append _ _ _ inventory_header_skipped.2]
  have hmap : inv.map (fun r => serialize_line r ++ ['\n'])
      = (inv.map serialize_line).map (fun l => l ++ ['\n']) := by
    rw [List.map_map]; rfl
  rw [hmap, splitOn_lines]
  · rw [List.filterMap_cons, inventory_header_skipped.1]
    simp only
    rw [List.filterMap_map]
    have hcongr : ∀ r ∈ inv, ((fun line => parse_line line {}) ∘ serialize_line) r
        = (fun r => some (reloaded r)) r :=
      fun r hr => parse_line_serialize_line r (h r hr)
    rw [List.filterMap_congr hcongr]
    exact congrFun (List.filterMap_eq_map reloaded) inv
  · intro l hl
    obtain ⟨r, hr, hrl⟩ := List.mem_map.mp hl
    rw [← hrl]
    exact serialize_line_no_newline r (h r hr)

/-- C5, amended. Saving then loading the catalog: for every list of storable products (name
not empty, not starting with `#`, without blank or tab at either end; no `|` or line break
in a text field; rate and quantity not negative; quantity and threshold in the range of
`int`) and whatever the file held before, `save_inventory` followed by `load_inventory`
returns the products in order with name, quantity, barcode, category, supplier and
threshold as saved, the rate rounded to six decimals (unchanged when it has at most six),
and the last-updated time reset to 0, since the file does not hold it; equivalently
`parse_line (serialize_line r)` succeeds with that record. -/
theorem save_then_load (inv : List ItemRec) (w : World) (h : ∀ r ∈ inv, Storable r) :
    (save_inventory inv true w).1 = true ∧
    (load_inventory (save_inventory inv true w).2).1 = inv.map reloaded ∧
    (∀ r ∈ inv, parse_line (serialize_line r) {} = some (reloaded r)) ∧
    (∀ r : ItemRec, (reloaded r).name = r.name ∧ (reloaded r).qty = r.qty ∧
      (reloaded r).barcode = r.barcode ∧ (reloaded r).category = r.category ∧
      (reloaded r).supplier = r.supplier ∧
      (reloaded r).low_stock_threshold = r.low_stock_threshold ∧
      (reloaded r).rate = reread_rate r.rate ∧ (reloaded r).last_updated = 0) ∧
    (∀ n : Nat, reread_rate ((n : ℚ) / 10 ^ 6) = (n : ℚ) / 10 ^ 6) := by
  refine ⟨rfl, ?_, fun r hr => parse_line_serialize_line r (h r hr),
    fun r => ⟨rfl, rfl, rfl, rfl, rfl, rfl, rfl, rfl⟩, reread_rate_decimal⟩
  simp only [save_inventory, load_inventory, if_true]
  exact parse_inventory_text inv h

/-- Two storable products saved over an older file and loaded again. -/
theorem save_then_load_witness :
    (∀ r ∈ ([{ name := "Rice".toList, rate := 40, qty := 100, barcode := "12345678".toList,
               category := "Grocery".toList, supplier := "ACME".toList },
             { name := "Sea Salt".toList, rate := 25 / 2, qty := 0,
               low_stock_threshold := 3 }] : List ItemRec), Storable r) ∧
    (load_inventory (save_inventory
        [{ name := "Rice".toList, rate := 40, qty := 100, barcode := "12345678".toList,
           category := "Grocery".toList, supplier := "ACME".toList },
         { name := "Sea Salt".toList, rate := 25 / 2, qty := 0, low_stock_threshold := 3 }]
        true { inventory := some "Tea|5|1\n".toList }).2).1 =
      [{ name := "Rice".toList, rate := 40, qty := 100, barcode := "12345678".toList,
         category := "Grocery".toList, supplier := "ACME".toList },
       { name := "Sea Salt".toList, rate := 25 / 2, qty := 0, low_stock_threshold := 3 }] := by
  refine ⟨by decide!, ?_⟩
  have h := (save_then_load
    [{ name := "Rice".toList, rate := 40, qty := 100, barcode := "12345678".toList,
       category := "Grocery".toList, supplier := "ACME".toList },
     { name := "Sea Salt".toList, rate := 25 / 2, qty := 0, low_stock_threshold := 3 }]
    { inventory := some "Tea|5|1\n".toList } (by decide!)).2.1
  rw [h]
  decide!

/-- C5 as stated fails: a product whose last-updated time is set (as `add_item_flow` does
for every product it saves) is loaded back with that time reset to 0. -/
theorem save_then_load_drops_last_updated :
    (load_inventory (save_inventory
        [{ name := "Rice".toList, rate := 40, qty := 100, last_updated := 1700000000 }]
        true {}).2).1 =
      [{ name := "Rice".toList, rate := 40, qty := 100, last_updated := 0 }] ∧
    parse_line (serialize_line
        { name := "Rice".toList, rate := 40, qty := 100, last_updated := 1700000000 }) {} ≠
      some { name := "Rice".toList, rate := 40, qty := 100, last_updated := 1700000000 } := by
  constructor
  · decide!
  · decide!


/-! ## Payment splitter: rejected input and termination -/

/-- The payment loop is the iteration of its body. -/
theorem process_payment_loop_cons (i : PayInput) (rest : List PayInput) (remaining : ℚ)
    (payments : List Payment) :
    process_payment_loop (i :: rest) remaining payments =
      if remaining > 1 / 100 then
        process_payment_loop rest (payment_step remaining payments i).1
          (payment_step remaining payments i).2
      else some payments := by
  rw [process_payment_loop]
  unfold payment_step
  by_cases h : remaining > 1 / 100
  · simp only [h, if_true]
    cases i.method with
    | none => rfl
    | some method =>
      simp only
      by_cases hb : method < 1 ∨ method > 4
      · simp only [hb, if_true]
      · simp only [hb, if_false]
        cases i.amount with
        | none => rfl
        | some entered =>
          simp only
          by_cases hl : entered ≤ 0
          · simp only [hl, if_true]
          · simp only [hl, if_false]
  · simp only [h, if_false]

/-- An entry that is not accepted leaves the locals of the payment loop as they were. -/
theorem payment_step_rejected (remaining : ℚ) (payments : List Payment) (i : PayInput)
    (h : accepted i = false) : payment_step remaining payments i = (remaining, payments) := by
  unfold accepted at h
  unfold payment_step
  cases hm : i.method with
  | none => rfl
  | some method =>
    simp only
    by_cases hbad : method < 1 ∨ method > 4
    · rw [if_pos hbad]
    · rw [if_neg hbad]
      cases ha : i.amount with
      | none => rfl
      | some entered =>
        simp only
        by_cases hle : entered ≤ 0
        · rw [if_pos hle]
        · exfalso
          rw [hm, ha] at h
          simp only [decide_eq_false_iff_not] at h
          apply h
          refine ⟨by omega, by omega, not_le.mp hle⟩

/-- C11. Rejected payment input consumes nothing: in the loop of `process_payment` an entry
whose method cannot be read or lies outside `1..4`, or whose amount cannot be read or is
not above zero, leaves the list of recorded payments and the remaining amount exactly as
they were, and the loop goes on with the next entry in that same state. -/
theorem rejected_payment_consumes_nothing (remaining : ℚ) (payments : List Payment)
    (i : PayInput)
    (h : i.method = none ∨ (∃ m, i.method = some m ∧ (m < 1 ∨ 4 < m)) ∨
         i.amount = none ∨ (∃ a, i.amount = some a ∧ a ≤ 0)) :
    payment_step remaining payments i = (remaining, payments) ∧
    ∀ rest, remaining > 1 / 100 →
      process_payment_loop (i :: rest) remaining payments =
        process_payment_loop rest remaining payments := by
  have hrej : accepted i = false := by
    unfold accepted
    rcases h with h | ⟨m, hm, hbad⟩ | h | ⟨a, ha, hle⟩
    · rw [h]
    · rw [hm]
      cases i.amount with
      | none => rfl
      | some entered =>
        simp only [decide_eq_false_iff_not]
        intro hc; omega
    · rw [h]
      cases i.method <;> rfl
    · rw [ha]
      cases i.method with
      | none => rfl
      | some method =>
        simp only [decide_eq_false_iff_not]
        intro hc
        exact absurd hc.2.2 (not_lt.mpr hle)
  have hstep := payment_step_rejected remaining payments i hrej
  refine ⟨hstep, ?_⟩
  intro rest hr
  rw [process_payment_loop_cons, if_pos hr, hstep]

/-- Method 7 is no payment method: the entry is skipped and the next one pays. -/
theorem rejected_payment_consumes_nothing_witness :
    payment_step 100 [] { method := some 7, amount := some 50 } = (100, []) ∧
    process_payment_loop
        [{ method := some 7, amount := some 50 }, { method := some 1, amount := some 100 }]
        100 [] =
      process_payment_loop [{ method := some 1, amount := some 100 }] 100 [] :=
  ⟨(rejected_payment_consumes_nothing 100 [] { method := some 7, amount := some 50 }
      (Or.inr (Or.inl ⟨7, rfl, Or.inr (by decide)⟩))).1,
   (rejected_payment_consumes_nothing 100 [] { method := some 7, amount := some 50 }
      (Or.inr (Or.inl ⟨7, rfl, Or.inr (by decide)⟩))).2
        [{ method := some 1, amount := some 100 }] (by norm_num)⟩


/-! ## Loyalty discount and pricing -/

/-- What the loop of `find_item_by_barcode` returns: nothing when the code is empty or no
product carries it, otherwise the offset plus the position of the first product that does. -/
theorem find_item_by_barcode_from_spec (code : Str) :
    ∀ (inv : List ItemRec) (i : Nat),
      (find_item_by_barcode_from code inv i = none ∧
        (code = [] ∨ ∀ x ∈ inv, x.barcode ≠ code)) ∨
      (code ≠ [] ∧ ∃ k r, find_item_by_barcode_from code inv i = some (i + k) ∧
        inv[k]? = some r ∧ r.barcode = code ∧
        ∀ j, j < k → ∀ x, inv[j]? = some x → x.barcode ≠ code) := by
  intro inv
  induction inv with
  | nil => intro i; left; exact ⟨rfl, Or.inr (by simp)⟩
  | cons r rest ih =>
    intro i
    unfold find_item_by_barcode_from
    by_cases h : r.barcode = code ∧ code ≠ []
    · right
      rw [if_pos h]
      exact ⟨h.2, 0, r, rfl, List.getElem?_cons_zero, h.1,
        fun j hj => absurd hj (Nat.not_lt_zero j)⟩
    · rw [if_neg h]
      rcases ih (i + 1) with ⟨h1, h2⟩ | ⟨hne, k, r1, h1, h2, h3, h4⟩
      · left
        refine ⟨h1, ?_⟩
        rcases h2 with h2 | h2
        · exact Or.inl h2
        · by_cases hc : code = []
          · exact Or.inl hc
          · right
            intro x hx
            rcases List.mem_cons.mp hx with hx | hx
            · rw [hx]; exact fun hb => h ⟨hb, hc⟩
            · exact h2 x hx
      · right
        refine ⟨hne, k + 1, r1, by rw [h1]; congr 1; omega, by simpa using h2, h3, ?_⟩
        intro j hj x hx
        cases j with
        | zero =>
          simp only [List.getElem?_cons_zero, Option.some.injEq] at hx
          rw [← hx]; exact fun hb => h ⟨hb, hne⟩
        | succ j =>
          simp only [List.getElem?_cons_succ] at hx
          exact h4 j (by omega) x hx

/-- C16. The function `find_item_by_barcode` never matches an empty barcode: for every
catalog, also one holding products with an empty barcode, the lookup of the empty string
finds nothing; for a code that is not empty it finds nothing exactly when no product has
that barcode, and otherwise returns the first product whose barcode equals the code. -/
theorem find_item_by_barcode_spec :
    (∀ inv : List ItemRec, find_item_by_barcode inv [] = none) ∧
    (∀ (inv : List ItemRec) (code : Str), code ≠ [] →
      (find_item_by_barcode inv code = none ↔ ∀ x ∈ inv, x.barcode ≠ code) ∧
      (∀ k, find_item_by_barcode inv code = some k ↔
        (∃ r, inv[k]? = some r ∧ r.barcode = code) ∧
        ∀ j, j < k → ∀ x, inv[j]? = some x → x.barcode ≠ code)) := by
  constructor
  · intro inv
    rcases find_item_by_barcode_from_spec [] inv 0 with ⟨h, _⟩ | ⟨hne, _⟩
    · exact h
    · exact absurd rfl hne
  · intro inv code hcode
    unfold find_item_by_barcode
    rcases find_item_by_barcode_from_spec code inv 0 with
      ⟨h1, h2⟩ | ⟨_, k, r, h1, h2, h3, h4⟩
    · have hall : ∀ x ∈ inv, x.barcode ≠ code := by
        rcases h2 with h2 | h2
        · exact absurd h2 hcode
        · exact h2
      refine ⟨⟨fun _ => hall, fun _ => h1⟩, ?_⟩
      intro k
      rw [h1]
      constructor
      · intro h; cases h
      · rintro ⟨⟨r, hr, hb⟩, _⟩
        exact absurd hb (hall r (List.getElem?_mem hr))
    · rw [h1, Nat.zero_add]
      refine ⟨⟨fun h => Option.noConfusion h,
        fun h => absurd h3 (h r (List.getElem?_mem h2))⟩, ?_⟩
      intro k1
      constructor
      · intro h
        simp only [Option.some.injEq] at h
        subst h
        exact ⟨⟨r, h2, h3⟩, h4⟩
      · rintro ⟨⟨r1, hr1, hb1⟩, hmin⟩
        congr 1
        rcases Nat.lt_trichotomy k k1 with hlt | heq | hgt
        · exact absurd h3 (hmin k hlt r h2)
        · exact heq
        · exact absurd hb1 (h4 k1 hgt r1 hr1)

/-- In a catalog whose first product has no barcode, the code of the second product is
found at the second position. -/
theorem find_item_by_barcode_spec_witness :
    find_item_by_barcode
        [{ name := "Salt".toList, rate := 5, qty := 3 },
         { name := "Rice".toList, rate := 40, qty := 100, barcode := "12345678".toList }]
        "12345678".toList = some 1 ∧
    find_item_by_barcode
        [{ name := "Salt".toList, rate := 5, qty := 3 },
         { name := "Rice".toList, rate := 40, qty := 100, barcode := "12345678".toList }]
        [] = none :=
  ⟨((find_item_by_barcode_spec.2
      [{ name := "Salt".toList, rate := 5, qty := 3 },
       { name := "Rice".toList, rate := 40, qty := 100, barcode := "12345678".toList }]
      "12345678".toList (by decide)).2 1).mpr (by decide!),
   by decide⟩

/-! ## Customer identifiers -/

/-- The identifiers of successive calls of `generate_customer_id`. -/
theorem call_ids_getElem (n : Nat) :
    ∀ (counter m : Nat), m < n →
      (call_ids n counter)[m]? = some ("CUST".toList ++ natStr (counter + (m + 1))) := by
  induction n with
  | zero => intro counter m h; omega
  | succ n ih =>
    intro counter m h
    cases m with
    | zero => simp [call_ids, generate_customer_id]
    | succ m =>
      simp only [call_ids, generate_customer_id, List.getElem?_cons_succ]
      rw [ih (counter + 1) m (by omega)]
      congr 3
      omega

/-- Different numbers have different decimal texts. -/
theorem natStr_injective (a b : Nat) (h : natStr a = natStr b) : a = b := by
  rw [← digitsVal_natStr a, ← digitsVal_natStr b, h]

/-- C20. The function `generate_customer_id` is collision-free within one process: the
`n`-th call (`n ≥ 1`) returns `CUST` followed by the decimal of `1000 + n`, and any two
distinct calls return different identifiers. -/
theorem generate_customer_id_unique :
    (generate_customer_id 1000).1 = "CUST1001".toList ∧
    (∀ total n : Nat, 1 ≤ n → n ≤ total →
      (call_ids total 1000)[n - 1]? = some ("CUST".toList ++ natStr (1000 + n))) ∧
    (∀ total a b : Nat, 1 ≤ a → a ≤ total → 1 ≤ b → b ≤ total → a ≠ b →
      (call_ids total 1000)[a - 1]? ≠ (call_ids total 1000)[b - 1]?) := by
  have hget : ∀ total n : Nat, 1 ≤ n → n ≤ total →
      (call_ids total 1000)[n - 1]? = some ("CUST".toList ++ natStr (1000 + n)) := by
    intro total n h1 h2
    rw [call_ids_getElem total 1000 (n - 1) (by omega)]
    congr 3
    omega
  refine ⟨by decide, hget, ?_⟩
  intro total a b ha1 ha2 hb1 hb2 hne heq
  rw [hget total a ha1 ha2, hget total b hb1 hb2] at heq
  have h1 := List.append_cancel_left (Option.some.inj heq)
  have h2 := natStr_injective _ _ h1
  omega

/-- The third of five calls returns `CUST1003`. -/
theorem generate_customer_id_unique_witness :
    (call_ids 5 1000)[3 - 1]? = some ("CUST".toList ++ natStr (1000 + 3)) ∧
    "CUST".toList ++ natStr (1000 + 3) = "CUST1003".toList :=
  ⟨generate_customer_id_unique.2.1 5 3 (by decide) (by decide), by decide⟩

/-! ## Sales ledger -/

/-- The items field is the list of entries separated by commas. -/
theorem items_list_eq_intercalate (items : List (ItemRec × Int)) :
    items_list items = [','].intercalate (items.map item_text) := by
  induction items with
  | nil => rfl
  | cons it rest ih =>
    cases rest with
    | nil => simp [items_list, item_text, List.intercalate]
    | cons it2 rest2 =>
      rw [items_list]
      · rw [ih]
        simp [item_text, List.intercalate, List.intersperse]
      · intro h; cases h

/-- Fixed notation contains neither separator nor line break. -/
theorem fixedStr_plain (prec : Nat) (x : ℚ) :
    '|' ∉ fixedStr prec x ∧ '\n' ∉ fixedStr prec x := by
  have hd : ∀ s : Str, (∀ c ∈ s, c.isDigit = true) → '|' ∉ s ∧ '\n' ∉ s := by
    intro s hs
    constructor
    · intro h; exact absurd (hs _ h) (by decide)
    · intro h; exact absurd (hs _ h) (by decide)
  have hbody : ∀ n : Nat,
      '|' ∉ natStr (n / 10 ^ prec) ++
          (if prec = 0 then [] else '.' :: fixedDigits prec (n % 10 ^ prec)) ∧
      '\n' ∉ natStr (n / 10 ^ prec) ++
          (if prec = 0 then [] else '.' :: fixedDigits prec (n % 10 ^ prec)) := by
    intro n
    have h1 := hd _ (natStr_isDigit (n / 10 ^ prec))
    have h2 := hd _ (fixedDigits_isDigit prec (n % 10 ^ prec))
    by_cases hp : prec = 0
    · simp only [hp, if_true, List.append_nil]
      rw [hp] at h1
      exact h1
    · simp only [hp, if_false, List.mem_append, List.mem_cons, not_or]
      exact ⟨⟨h1.1, by decide, h2.1⟩, ⟨h1.2, by decide, h2.2⟩⟩
  unfold fixedStr
  simp only
  by_cases hx : x < 0
  · rw [if_pos hx]
    simp only [List.mem_cons, not_or]
    exact ⟨⟨by decide, (hbody _).1⟩, ⟨by decide, (hbody _).2⟩⟩
  · rw [if_neg hx]
    exact hbody _

/-- The items field has no line break when no product name has one. -/
theorem items_list_no_newline (items : List (ItemRec × Int))
    (h : ∀ it ∈ items, '\n' ∉ it.1.name) : '\n' ∉ items_list items := by
  induction items with
  | nil => simp [items_list]
  | cons it rest ih =>
    have h1 := h it (List.mem_cons_self _ _)
    have h2 := ih (fun x hx => h x (List.mem_cons_of_mem _ hx))
    have h3 := (to_string_int_plain it.2).2.1
    cases rest with
    | nil =>
      simp only [items_list, List.mem_append, List.mem_cons, List.mem_singleton, not_or,
        List.not_mem_nil, or_false]
      exact ⟨h1, by decide, h3, by decide⟩
    | cons it2 rest2 =>
      rw [items_list]
      · simp only [List.mem_append, List.mem_cons, not_or]
        exact ⟨h1, by decide, h3, by decide, by decide, h2⟩
      · intro h; cases h

/-- C17. Sales ledger append: for every prior content `L` of `Sales.txt` (a missing file
counting as empty) and every sale, `save_sale_record` leaves `L` as an unchanged prefix and
appends the line `timestamp|customer|netTotal with two decimals|items` and a line break,
preceded by the `#` header line only when `L` is empty; the items field lists every cart
line in cart order as `name(qty)`, separated by commas with no trailing comma; the text
appended is a single line when timestamp, customer name and product names hold no line
break; the other two files are not touched. -/
theorem sale_record_appended (dt cn : Str) (net : ℚ) (items : List (ItemRec × Int))
    (w : World) :
    (save_sale_record dt cn net items true w).sales =
      some (w.sales.getD [] ++
        (if w.sales.getD [] = [] then SALES_HEADER ++ ['\n'] else []) ++
        (dt ++ '|' :: (cn ++ '|' :: (fixedStr 2 net ++ '|' ::
          [','].intercalate (items.map item_text)))) ++ ['\n']) ∧
    (∀ it : ItemRec × Int, item_text it = it.1.name ++ '(' :: (to_string_int it.2 ++ [')'])) ∧
    ('\n' ∉ dt → '\n' ∉ cn → (∀ it ∈ items, '\n' ∉ it.1.name) →
      '\n' ∉ dt ++ '|' :: (cn ++ '|' :: (fixedStr 2 net ++ '|' ::
          [','].intercalate (items.map item_text)))) ∧
    (SALES_HEADER.head? = some '#' ∧ '\n' ∉ SALES_HEADER) ∧
    (save_sale_record dt cn net items true w).inventory = w.inventory ∧
    (save_sale_record dt cn net items true w).customers = w.customers := by
  refine ⟨?_, fun _ => rfl, ?_, ⟨by decide, by decide⟩, rfl, rfl⟩
  · simp only [save_sale_record, if_true, sale_line, items_list_eq_intercalate]
  · intro h1 h2 h3
    rw [← items_list_eq_intercalate]
    have h4 := items_list_no_newline items h3
    have h5 := (fixedStr_plain 2 net).2
    simp only [List.mem_append, List.mem_cons, not_or]
    exact ⟨h1, by decide, h2, by decide, h5, by decide, h4⟩

/-- A sale of two lines appended to a ledger that holds one record. -/
theorem sale_record_appended_witness :
    (save_sale_record "2024-01-02 09:30:00".toList "Bob".toList (1029 / 2)
        [({ name := "Ghee".toList, rate := 52, qty := 0 }, 10),
         ({ name := "Rice".toList, rate := 40, qty := 80 }, 20)] true
        { sales := some "2024-01-01 10:00:00|Bob|7.50|Tea(1)\n".toList }).sales =
      some ("2024-01-01 10:00:00|Bob|7.50|Tea(1)\n".toList ++
        "2024-01-02 09:30:00|Bob|514.50|Ghee(10),Rice(20)\n".toList) ∧
    '\n' ∉ "2024-01-02 09:30:00".toList ++ '|' :: ("Bob".toList ++ '|' ::
      (fixedStr 2 (1029 / 2) ++ '|' :: [','].intercalate
        (([({ name := "Ghee".toList, rate := 52, qty := 0 }, 10),
           ({ name := "Rice".toList, rate := 40, qty := 80 }, 20)] :
           List (ItemRec × Int)).map item_text))) :=
  ⟨by decide!,
   (sale_record_appended "2024-01-02 09:30:00".toList "Bob".toList (1029 / 2)
      [({ name := "Ghee".toList, rate := 52, qty := 0 }, 10),
       ({ name := "Rice".toList, rate := 40, qty := 80 }, 20)]
      { sales := some "2024-01-01 10:00:00|Bob|7.50|Tea(1)\n".toList }).2.2.1
      (by decide) (by decide) (by decide)⟩

/-! ## Completing a sale -/

/-- An iteration ends the loop for pricing only on "Complete Sale" with a cart that is not
empty, and does not change the state. -/
theorem bill_step_close (s t : BillState) (i : BillInput) (h : bill_step s i = .close t) :
    t = s ∧ s.sold_items ≠ [] ∧ i.choice = some 5 := by
  unfold bill_step at h
  cases hc : i.choice with
  | none => simp [hc] at h
  | some choice =>
    simp only [hc] at h
    split_ifs at h with h1 h3 h4 h5 h5e h6
    cases h
    exact ⟨rfl, h5e, by rw [h5]⟩

/-- The menu loop ends for pricing only with a cart that is not empty. -/
theorem bill_loop_close (entries : List BillInput) :
    ∀ s t : BillState, bill_loop entries s = some (.close t) → t.sold_items ≠ [] := by
  induction entries with
  | nil => intro s t h; simp [bill_loop] at h
  | cons i rest ih =>
    intro s t h
    unfold bill_loop at h
    cases hstep : bill_step s i with
    | running s1 =>
      simp only [hstep] at h
      exact ih s1 t h
    | close s1 =>
      simp only [hstep] at h
      cases h
      obtain ⟨h1, h2, _⟩ := bill_step_close s t i hstep
      rw [h1]; exact h2
    | cancelled s1 =>
      simp only [hstep] at h
      cases h

/-- C18. Completing a sale requires a cart that is not empty: in `print_bill_flow`,
"Complete Sale" with no cart line is rejected, the loop goes on in the same state (cart,
subtotal, catalog, customer data and all files unchanged); the loop ends for pricing only
with at least one cart line, so whenever `print_bill_flow` has changed the sales ledger or
the customer file, the sale was completed with a cart that was not empty. -/
theorem complete_sale_requires_cart :
    (∀ (s : BillState) (i : BillInput), i.choice = some 5 → s.sold_items = [] →
      bill_step s i = .running s) ∧
    (∀ (entries : List BillInput) (s t : BillState),
      bill_loop entries s = some (.close t) → t.sold_items ≠ []) ∧
    (∀ (w : World) (ses : Session) (w1 : World), print_bill_flow w ses = some w1 →
      (w1.sales ≠ w.sales ∨ w1.customers ≠ w.customers) →
      ∃ s, bill_loop ses.entries
          (resolve_customer (load_inventory w).1 (load_inventory w).2 ses) = some (.close s) ∧
        s.sold_items ≠ []) := by
  refine ⟨?_, bill_loop_close, ?_⟩
  · intro s i hc he
    unfold bill_step
    simp only [hc]
    simp [he]
  · intro w ses w1 hflow hchg
    unfold print_bill_flow at hflow
    simp only at hflow
    have hload := load_inventory_frame w
    have hres := resolve_customer_world (load_inventory w).1 (load_inventory w).2 ses
    by_cases hne : (load_inventory w).1 = []
    · rw [if_pos hne] at hflow
      cases hflow
      rcases hchg with h | h
      · exact absurd hload.1 h
      · exact absurd hload.2 h
    · rw [if_neg hne] at hflow
      cases hl : bill_loop ses.entries
          (resolve_customer (load_inventory w).1 (load_inventory w).2 ses) with
      | none => rw [hl] at hflow; cases hflow
      | some o =>
        rw [hl] at hflow
        cases o with
        | running s =>
          simp only [Option.some.injEq] at hflow
          have hf := bill_loop_frame _ _ _ hl s (Or.inl rfl)
          rw [← hflow] at hchg
          rcases hchg with h | h
          · exact absurd (hf.1.trans (hres.1.trans hload.1)) h
          · exact absurd (hf.2.trans (hres.2.1.trans hload.2)) h
        | cancelled s =>
          simp only [Option.some.injEq] at hflow
          have hf := bill_loop_frame _ _ _ hl s (Or.inr (Or.inr rfl))
          rw [← hflow] at hchg
          rcases hchg with h | h
          · exact absurd (hf.1.trans (hres.1.trans hload.1)) h
          · exact absurd (hf.2.trans (hres.2.1.trans hload.2)) h
        | close s => exact ⟨s, rfl, bill_loop_close _ _ s hl⟩

/-- "Complete Sale" on an empty cart: the loop goes on in the same state. -/
theorem complete_sale_requires_cart_witness :
    bill_step
        { inv := [{ name := "Rice".toList, rate := 40, qty := 100 }], customers := [],
          customer_obj := none, customer_name := "Walk-in Customer".toList,
          world := { inventory := some "Rice|40.00|100\n".toList } }
        { choice := some 5 } =
      .running
        { inv := [{ name := "Rice".toList, rate := 40, qty := 100 }], customers := [],
          customer_obj := none, customer_name := "Walk-in Customer".toList,
          world := { inventory := some "Rice|40.00|100\n".toList } } :=
  complete_sale_requires_cart.1 _ { choice := some 5 } rfl rfl

/-! ## Customer ledger: tolerant load -/

/-- Reading up to a separator that follows a field without separator. -/
theorem takeWhile_ne_append (d : Char) (f rest : Str) (h : d ∉ f) :
    (f ++ d :: rest).takeWhile (fun c => c ≠ d) = f ∧
    (f ++ d :: rest).dropWhile (fun c => c ≠ d) = d :: rest := by
  induction f with
  | nil => simp [List.takeWhile, List.dropWhile]
  | cons c cs ih =>
    have hc : c ≠ d := fun he => h (he ▸ List.mem_cons_self _ _)
    have := ih (fun hm => h (List.mem_cons_of_mem _ hm))
    have hd : decide (c ≠ d) = true := by simp [hc]
    rw [List.cons_append, List.takeWhile_cons, List.dropWhile_cons]
    simp only [hd, if_true]
    exact ⟨by rw [this.1], this.2⟩

/-- One `getline` on a stream that still holds the field and its separator. -/
theorem sgetline_field (d : Char) (f rest old : Str) (h : d ∉ f) :
    sgetline d (some (f ++ d :: rest)) old = (f, some rest) := by
  obtain ⟨h1, h2⟩ := takeWhile_ne_append d f rest h
  unfold sgetline
  split
  · rename_i heq; cases heq
  · rename_i heq
    simp only [Option.some.injEq] at heq
    exact absurd heq (by simp)
  · rename_i s hs heq
    simp only [Option.some.injEq] at heq
    subst heq
    rw [h2, h1]

/-- The last `getline` of a customer line reads all that is left. -/
theorem sgetline_rest (rest old : Str) (h : '\n' ∉ rest) :
    (sgetline '\n' (some rest) old).1 = rest := by
  unfold sgetline
  split
  · rename_i heq; cases heq
  · rename_i heq
    simp only [Option.some.injEq] at heq
    exact heq.symm
  · rename_i s hs heq
    simp only [Option.some.injEq] at heq
    subst heq
    have htw : rest.takeWhile (fun c => c ≠ '\n') = rest := by
      rw [List.takeWhile_eq_self_iff]
      intro c hc
      simp only [decide_eq_true_eq]
      exact fun he => h (he ▸ hc)
    split <;> exact htw


/-! ## The Open state of a checkout -/

/-- An iteration that leaves the loop running has changed nothing, or added a line, or
handled the loyalty discount. -/
theorem bill_step_running_cases (s t : BillState) (i : BillInput)
    (h : bill_step s i = .running t) :
    t = s ∨ (∃ choice, i.choice = some choice ∧ (choice = 1 ∨ choice = 2) ∧
      t = add_to_bill s choice i) ∨ (i.choice = some 4 ∧ t = apply_loyalty s i) := by
  unfold bill_step at h
  cases hc : i.choice with
  | none =>
    rw [hc] at h
    simp only [Outcome.running.injEq] at h
    exact Or.inl h.symm
  | some choice =>
    rw [hc] at h
    simp only at h
    by_cases h12 : choice = 1 ∨ choice = 2
    · rw [if_pos h12] at h
      simp only [Outcome.running.injEq] at h
      exact Or.inr (Or.inl ⟨choice, rfl, h12, h.symm⟩)
    · rw [if_neg h12] at h
      by_cases h3 : choice = 3
      · rw [if_pos h3] at h
        simp only [Outcome.running.injEq] at h
        exact Or.inl h.symm
      · rw [if_neg h3] at h
        by_cases h4 : choice = 4
        · rw [if_pos h4] at h
          simp only [Outcome.running.injEq] at h
          exact Or.inr (Or.inr ⟨by rw [h4], h.symm⟩)
        · rw [if_neg h4] at h
          by_cases h5 : choice = 5
          · rw [if_pos h5] at h
            by_cases he : s.sold_items = []
            · rw [if_pos he] at h
              simp only [Outcome.running.injEq] at h
              exact Or.inl h.symm
            · rw [if_neg he] at h
              cases h
          · rw [if_neg h5] at h
            by_cases h6 : choice = 6
            · rw [if_pos h6] at h
              cases h
            · rw [if_neg h6] at h
              simp only [Outcome.running.injEq] at h
              exact Or.inl h.symm

/-- An invariant of the iterations that leave the loop running holds after any number of
them. -/
theorem open_after_induction (P : BillState → Prop)
    (hstep : ∀ s t i, P s → bill_step s i = .running t → P t) (entries : List BillInput) :
    ∀ s t : BillState, P s → open_after entries s = some t → P t := by
  induction entries with
  | nil =>
    intro s t hs h
    simp only [open_after, Option.some.injEq] at h
    rw [← h]; exact hs
  | cons i more ih =>
    intro s t hs h
    unfold open_after at h
    cases hst : bill_step s i with
    | running s1 =>
      rw [hst] at h
      exact ih s1 t (hstep s s1 i hs hst) h
    | close s1 => rw [hst] at h; cases h
    | cancelled s1 => rw [hst] at h; cases h

/-- The checkout starts with an empty cart, a subtotal of zero and the loaded catalog. -/
theorem resolve_customer_cart (inv : List ItemRec) (w : World) (ses : Session) :
    (resolve_customer inv w ses).sold_items = [] ∧ (resolve_customer inv w ses).total = 0 ∧
    (resolve_customer inv w ses).inv = inv := by
  unfold resolve_customer
  simp only
  by_cases hp : ses.phone = []
  · rw [if_pos hp]; exact ⟨rfl, rfl, rfl⟩
  · rw [if_neg hp]
    cases find_customer_by_phone (load_customers w) ses.phone with
    | none =>
      simp only
      by_cases hn : ses.new_name ≠ []
      · rw [if_pos hn]; exact ⟨rfl, rfl, rfl⟩
      · rw [if_neg hn]; exact ⟨rfl, rfl, rfl⟩
    | some k =>
      simp only
      cases (load_customers w)[k]? <;> exact ⟨rfl, rfl, rfl⟩


/-! ## Cart lines are snapshots -/

/-- A line of a list is still at its position in every extension of the list. -/
theorem getElem?_of_extends {α : Type} (l1 l2 : List α) (h : l1 <+: l2) (j : Nat) (x : α)
    (hx : l1[j]? = some x) : l2[j]? = some x := by
  obtain ⟨r, hr⟩ := h
  rw [← hr, List.getElem?_append_left (List.getElem?_eq_some_iff.mp hx).1]
  exact hx

/-- The add branch keeps the cart lines it finds. -/
theorem add_to_bill_cart_extends (s : BillState) (choice : Int) (i : BillInput) :
    s.sold_items <+: (add_to_bill s choice i).sold_items := by
  rcases add_to_bill_cases s choice i with h1 | ⟨q, r, _, _, _, _, h1⟩
  · rw [h1]
  · rw [h1]; exact List.prefix_append _ _

/-- The cancel step leaves cart and subtotal as they are. -/
theorem bill_step_cancelled_cart (s t : BillState) (i : BillInput)
    (h : bill_step s i = .cancelled t) :
    t.sold_items = s.sold_items ∧ t.total = s.total := by
  unfold bill_step at h
  cases hc : i.choice with
  | none => simp [hc] at h
  | some choice =>
    simp only [hc] at h
    split_ifs at h
    cases h
    exact ⟨rfl, rfl⟩

/-- One iteration of the menu loop keeps the cart lines it finds, however it ends. -/
theorem bill_step_cart_extends (s t : BillState) (i : BillInput)
    (h : bill_step s i = .running t ∨ bill_step s i = .close t ∨
      bill_step s i = .cancelled t) :
    s.sold_items <+: t.sold_items := by
  rcases h with h | h | h
  · rcases bill_step_running_cases s t i h with h1 | ⟨choice, _, _, h1⟩ | ⟨_, h1⟩
    · rw [h1]
    · rw [h1]; exact add_to_bill_cart_extends s choice i
    · rw [h1, (apply_loyalty_cart s i).2]
  · rw [(bill_step_close s t i h).1]
  · rw [(bill_step_cancelled_cart s t i h).1]

/-- The menu loop keeps the cart lines it finds, however it ends. -/
theorem bill_loop_cart_extends (entries : List BillInput) :
    ∀ s t : BillState,
      (bill_loop entries s = some (.running t) ∨ bill_loop entries s = some (.close t) ∨
        bill_loop entries s = some (.cancelled t)) →
      s.sold_items <+: t.sold_items := by
  induction entries with
  | nil => intro s t h; simp [bill_loop] at h
  | cons i rest ih =>
    intro s t h
    unfold bill_loop at h
    cases hst : bill_step s i with
    | running s1 =>
      rw [hst] at h
      exact (bill_step_cart_extends s s1 i (Or.inl hst)).trans (ih s1 t h)
    | close s1 =>
      rw [hst] at h
      simp only [Option.some.injEq, reduceCtorEq, Outcome.close.injEq, false_or, or_false] at h
      rw [← h]
      exact bill_step_cart_extends s s1 i (Or.inr (Or.inl hst))
    | cancelled s1 =>
      rw [hst] at h
      simp only [Option.some.injEq, reduceCtorEq, Outcome.cancelled.injEq, false_or] at h
      rw [← h]
      exact bill_step_cart_extends s s1 i (Or.inr (Or.inr hst))

/-- C22. Cart lines are snapshots: a line that is in the cart stays at its position with
the same product record (name, price) and the same sold quantity through every later
iteration of the menu loop of the same checkout, be it an add-to-bill step, a loyalty
discount or the cancel step, also when the iteration changes the catalog entry of that
product. -/
theorem cart_lines_are_snapshots :
    (∀ (s t : BillState) (i : BillInput),
      (bill_step s i = .running t ∨ bill_step s i = .close t ∨
        bill_step s i = .cancelled t) →
      ∀ (j : Nat) (line : ItemRec × Int),
        s.sold_items[j]? = some line → t.sold_items[j]? = some line) ∧
    (∀ (entries : List BillInput) (s t : BillState), open_after entries s = some t →
      ∀ (j : Nat) (line : ItemRec × Int),
        s.sold_items[j]? = some line → t.sold_items[j]? = some line) ∧
    (∀ (entries : List BillInput) (s t : BillState),
      (bill_loop entries s = some (.close t) ∨ bill_loop entries s = some (.cancelled t)) →
      ∀ (j : Nat) (line : ItemRec × Int),
        s.sold_items[j]? = some line → t.sold_items[j]? = some line) := by
  refine ⟨?_, ?_, ?_⟩
  · intro s t i h j line hl
    exact getElem?_of_extends _ _ (bill_step_cart_extends s t i h) j line hl
  · intro entries s t h j line hl
    refine getElem?_of_extends _ _ ?_ j line hl
    exact open_after_induction (fun u => s.sold_items <+: u.sold_items)
      (fun u v i hu hst => hu.trans (bill_step_cart_extends u v i (Or.inl hst)))
      entries s t (List.prefix_refl _) h
  · intro entries s t h j line hl
    refine getElem?_of_extends _ _ (bill_loop_cart_extends entries s t ?_) j line hl
    rcases h with h | h
    · exact Or.inr (Or.inl h)
    · exact Or.inr (Or.inr h)

/-- The line of 20 Rice at 40 is the same after 30 more Rice have been added and the
catalog entry has gone from 80 to 50. -/
theorem cart_lines_are_snapshots_witness :
    bill_step
        { inv := [{ name := "Rice".toList, rate := 40, qty := 80 }], customers := [],
          customer_obj := none, customer_name := [],
          sold_items := [({ name := "Rice".toList, rate := 40, qty := 80 }, 20)],
          total := 800, world := {} }
        { choice := some 1, input := "Rice".toList, q := some 30 } =
      .running
        { inv := [{ name := "Rice".toList, rate := 40, qty := 50 }], customers := [],
          customer_obj := none, customer_name := [],
          sold_items := [({ name := "Rice".toList, rate := 40, qty := 80 }, 20),
                         ({ name := "Rice".toList, rate := 40, qty := 50 }, 30)],
          total := 2000,
          world := { inventory := some (inventory_text
            [{ name := "Rice".toList, rate := 40, qty := 50 }]) } } ∧
    ([({ name := "Rice".toList, rate := 40, qty := 80 }, 20),
      ({ name := "Rice".toList, rate := 40, qty := 50 }, 30)] :
        List (ItemRec × Int))[0]? =
      some ({ name := "Rice".toList, rate := 40, qty := 80 }, 20) :=
  have h : bill_step
        { inv := [{ name := "Rice".toList, rate := 40, qty := 80 }], customers := [],
          customer_obj := none, customer_name := [],
          sold_items := [({ name := "Rice".toList, rate := 40, qty := 80 }, 20)],
          total := 800, world := {} }
        { choice := some 1, input := "Rice".toList, q := some 30 } =
      .running
        { inv := [{ name := "Rice".toList, rate := 40, qty := 50 }], customers := [],
          customer_obj := none, customer_name := [],
          sold_items := [({ name := "Rice".toList, rate := 40, qty := 80 }, 20),
                         ({ name := "Rice".toList, rate := 40, qty := 50 }, 30)],
          total := 2000,
          world := { inventory := some (inventory_text
            [{ name := "Rice".toList, rate := 40, qty := 50 }]) } } := by decide!
  ⟨h, cart_lines_are_snapshots.1 _ _ _ (Or.inl h) 0 _ rfl⟩

/-! ## Failed add-to-bill steps -/

/-- C23. Non-fatal errors in Open are atomic: an add-to-bill step (by name or by barcode)
with an empty input, a quantity that cannot be read or is not positive, a product that is
not found, or a stock below the quantity asked leaves the whole state of the checkout as it
was (catalog in memory, files, cart, subtotal, customer data), and the loop goes on. -/
theorem failed_add_is_atomic (s : BillState) (i : BillInput) (choice : Int)
    (hc : i.choice = some choice) (h12 : choice = 1 ∨ choice = 2)
    (h : i.input = [] ∨ i.q = none ∨ (∃ q, i.q = some q ∧ q ≤ 0) ∨
      lookup_index s.inv choice i.input < 0 ∨
      (∃ q r, i.q = some q ∧
        s.inv[(lookup_index s.inv choice i.input).toNat]? = some r ∧ r.qty < q)) :
    add_to_bill s choice i = s ∧ bill_step s i = .running s := by
  have hadd : add_to_bill s choice i = s := by
    unfold add_to_bill
    by_cases hi : i.input = []
    · rw [if_pos hi]
    · rw [if_neg hi]
      cases hq : i.q with
      | none => rfl
      | some q =>
        simp only
        by_cases hq0 : q ≤ 0
        · rw [if_pos hq0]
        · rw [if_neg hq0]
          by_cases hidx : lookup_index s.inv choice i.input < 0
          · rw [if_pos hidx]
          · rw [if_neg hidx]
            cases hr : s.inv[(lookup_index s.inv choice i.input).toNat]? with
            | none => rfl
            | some r =>
              simp only
              by_cases hlt : r.qty < q
              · rw [if_pos hlt]
              · exfalso
                rcases h with h | h | ⟨q1, h1, h2⟩ | h | ⟨q1, r1, h1, h2, h3⟩
                · exact hi h
                · rw [hq] at h; cases h
                · rw [hq] at h1; cases h1; exact hq0 h2
                · exact hidx h
                · rw [hq] at h1; cases h1
                  rw [hr] at h2; cases h2
                  exact hlt h3
  refine ⟨hadd, ?_⟩
  unfold bill_step
  rw [hc]
  simp only
  rw [if_pos h12, hadd]

/-- Asking for 120 Rice when 100 are in stock changes nothing. -/
theorem failed_add_is_atomic_witness :
    bill_step
        { inv := [{ name := "Rice".toList, rate := 40, qty := 100 }], customers := [],
          customer_obj := none, customer_name := [], world := {} }
        { choice := some 1, input := "Rice".toList, q := some 120 } =
      .running
        { inv := [{ name := "Rice".toList, rate := 40, qty := 100 }], customers := [],
          customer_obj := none, customer_name := [], world := {} } :=
  (failed_add_is_atomic
    { inv := [{ name := "Rice".toList, rate := 40, qty := 100 }], customers := [],
      customer_obj := none, customer_name := [], world := {} }
    { choice := some 1, input := "Rice".toList, q := some 120 } 1 rfl (Or.inl rfl)
    (Or.inr (Or.inr (Or.inr (Or.inr
      ⟨120, { name := "Rice".toList, rate := 40, qty := 100 }, rfl, by decide!,
        by decide⟩))))).2

/-! ## The product invariant of loaded records -/

/-- A character that is neither blank nor tab. -/
theorem isBlank_false (c : Char) (h : isBlank c = false) : c ≠ ' ' ∧ c ≠ '\t' := by
  unfold isBlank at h
  simp only [Bool.or_eq_false_iff, decide_eq_false_iff_not] at h
  exact h

/-- A trimmed text that is not empty neither starts nor ends with a blank or a tab. -/
theorem trim_ends (s : Str) (h : trim s ≠ []) :
    isBlank ((trim s).head h) = false ∧ isBlank ((trim s).getLast h) = false := by
  have hpre : trim s <+: s.dropWhile isBlank := List.rdropWhile_prefix _ _
  have hd : s.dropWhile isBlank ≠ [] := by
    intro he
    rw [he] at hpre
    exact h (List.prefix_nil.mp hpre)
  constructor
  · rw [List.IsPrefix.head hpre h]
    exact List.head_dropWhile_not isBlank s hd
  · have := List.rdropWhile_last_not isBlank (s.dropWhile isBlank) h
    simpa using this

/-- Trimming a trimmed text changes nothing. -/
theorem trim_trim (s : Str) : trim (trim s) = trim s := by
  by_cases h : trim s = []
  · rw [h]; rfl
  · obtain ⟨h1, h2⟩ := trim_ends s h
    have hdrop : (trim s).dropWhile isBlank = trim s := by
      cases ht : trim s with
      | nil => rfl
      | cons c cs =>
        have hc : isBlank c = false := by
          have := h1
          simp only [ht, List.head_cons] at this
          exact this
        rw [List.dropWhile_cons, hc]
        simp
    have hr : (trim s).rdropWhile isBlank = trim s := by
      rw [List.rdropWhile_eq_self_iff]
      intro hl
      rw [h2]
      simp
    show ((trim s).dropWhile isBlank).rdropWhile isBlank = trim s
    rw [hdrop, hr]

/-- What an accepted line gives: the name is the trimmed first field and is not empty, rate
and quantity are not negative, and each of the three optional text fields is a field of the
line or the value passed in. -/
theorem parse_line_some (line : Str) (out r : ItemRec) (h : parse_line line out = some r) :
    r.name = trim ((splitOn '|' line).getD 0 []) ∧ r.name ≠ [] ∧ 0 ≤ r.rate ∧ 0 ≤ r.qty ∧
    (r.barcode = (splitOn '|' line).getD 3 [] ∨ r.barcode = out.barcode) ∧
    (r.category = (splitOn '|' line).getD 4 [] ∨ r.category = out.category) ∧
    (r.supplier = (splitOn '|' line).getD 5 [] ∨ r.supplier = out.supplier) := by
  unfold parse_line at h
  by_cases hg : line = [] ∨ line.head? = some '#'
  · rw [if_pos hg] at h; cases h
  · rw [if_neg hg] at h
    simp only at h
    by_cases hl : (splitOn '|' line).length < 3
    · rw [if_pos hl] at h; cases h
    · rw [if_neg hl] at h
      cases hrate : stod ((splitOn '|' line).getD 1 []) with
      | none => rw [hrate] at h; cases h
      | some rate =>
        rw [hrate] at h
        simp only at h
        cases hqty : stoi ((splitOn '|' line).getD 2 []) with
        | none => rw [hqty] at h; cases h
        | some qty =>
          rw [hqty] at h
          simp only at h
          cases hth : (if (splitOn '|' line).length > 6 then stoi ((splitOn '|' line).getD 6 [])
              else some out.low_stock_threshold) with
          | none => rw [hth] at h; cases h
          | some threshold =>
            rw [hth] at h
            simp only at h
            by_cases hv : trim ((splitOn '|' line).getD 0 []) ≠ [] ∧ 0 ≤ rate ∧ 0 ≤ qty
            · rw [if_pos hv] at h
              simp only [Option.some.injEq] at h
              rw [← h]
              refine ⟨rfl, hv.1, hv.2.1, hv.2.2, ?_, ?_, ?_⟩
              · by_cases h3 : (splitOn '|' line).length > 3
                · left; simp only [if_pos h3]
                · right; simp only [if_neg h3]
              · by_cases h4 : (splitOn '|' line).length > 4
                · left; simp only [if_pos h4]
                · right; simp only [if_neg h4]
              · by_cases h5 : (splitOn '|' line).length > 5
                · left; simp only [if_pos h5]
                · right; simp only [if_neg h5]
            · rw [if_neg hv] at h; cases h

/-- An accepted line gives a record that satisfies the product invariant. -/
theorem parse_line_invariant (line : Str) (out r : ItemRec)
    (h : parse_line line out = some r) : ProductInvariant r := by
  obtain ⟨hname, hne, hrate, hqty, _⟩ := parse_line_some line out r h
  have hne2 : trim ((splitOn '|' line).getD 0 []) ≠ [] := by rw [← hname]; exact hne
  obtain ⟨h1, h2⟩ := trim_ends _ hne2
  refine ⟨hne, ?_, ?_, hrate, hqty⟩
  · intro c hc
    rw [hname, List.head?_eq_head hne2] at hc
    simp only [Option.some.injEq] at hc
    rw [← hc]
    exact isBlank_false _ h1
  · intro c hc
    rw [hname, List.getLast?_eq_getLast _ hne2] at hc
    simp only [Option.some.injEq] at hc
    rw [← hc]
    exact isBlank_false _ h2

/-- C24. Loaded products satisfy the product invariant: every record accepted by
`parse_line`, hence every product returned by `load_inventory`, has a name that is not
empty and neither starts nor ends with a space or a tab, a price `≥ 0` and a quantity
`≥ 0`. -/
theorem loaded_products_valid :
    (∀ (line : Str) (out r : ItemRec), parse_line line out = some r → ProductInvariant r) ∧
    (∀ (w : World) (r : ItemRec), r ∈ (load_inventory w).1 → ProductInvariant r) := by
  refine ⟨parse_line_invariant, ?_⟩
  intro w r hr
  unfold load_inventory at hr
  cases hw : w.inventory with
  | none => rw [hw] at hr; cases hr
  | some text =>
    rw [hw] at hr
    simp only [parse_inventory, List.mem_filterMap] at hr
    obtain ⟨line, _, hline⟩ := hr
    exact parse_line_invariant line {} r hline

/-- A line whose name field is padded with blanks and a tab loads with the name `Rice`; a
line with a negative quantity does not load. -/
theorem loaded_products_valid_witness :
    load_inventory { inventory := some "  Rice \t|40|100\nSalt|5|-3\n".toList } =
      ([{ name := "Rice".toList, rate := 40, qty := 100 }],
       { inventory := some "  Rice \t|40|100\nSalt|5|-3\n".toList }) ∧
    ProductInvariant { name := "Rice".toList, rate := 40, qty := 100 } :=
  ⟨by decide!,
   loaded_products_valid.2 { inventory := some "  Rice \t|40|100\nSalt|5|-3\n".toList }
     { name := "Rice".toList, rate := 40, qty := 100 } (by decide!)⟩

/-! ## Lookup by name -/

/-- C26. The function `find_item` returns the least index `i` with `inv[i].name` equal to
the given name (exact comparison, so `rice` does not find `Rice`), and `-1` if and only if
no product in the list has that name; a result that is not negative is a valid index into
the list. -/
theorem find_item_spec :
    (∀ (inv : List ItemRec) (name : Str),
      (find_item inv name = -1 ↔ ∀ x ∈ inv, x.name ≠ name) ∧
      (find_item inv name = -1 ∨
        (0 ≤ find_item inv name ∧ (find_item inv name).toNat < inv.length)) ∧
      (∀ k : Nat, find_item inv name = (k : Int) ↔
        (∃ r, inv[k]? = some r ∧ r.name = name) ∧
        ∀ j, j < k → ∀ x, inv[j]? = some x → x.name ≠ name)) ∧
    find_item [{ name := "Tea".toList }, { name := "Rice".toList, qty := 1 },
               { name := "Rice".toList, qty := 2 }] "Rice".toList = 1 ∧
    find_item [{ name := "Tea".toList }, { name := "Rice".toList, qty := 1 },
               { name := "Rice".toList, qty := 2 }] "rice".toList = -1 := by
  refine ⟨?_, by decide, by decide⟩
  intro inv name
  unfold find_item
  rcases find_item_from_spec name inv 0 with ⟨h1, h2⟩ | ⟨k, h1, r, h2, h3, h4⟩
  · refine ⟨⟨fun _ => h2, fun _ => h1⟩, Or.inl h1, ?_⟩
    intro k
    rw [h1]
    constructor
    · intro h; omega
    · rintro ⟨⟨r, hr, hn⟩, _⟩
      exact absurd hn (h2 r (List.getElem?_mem hr))
  · rw [h1, zero_add]
    have hk : k < inv.length := (List.getElem?_eq_some_iff.mp h2).1
    refine ⟨⟨fun h => by omega, fun h => absurd h3 (h r (List.getElem?_mem h2))⟩,
      Or.inr ⟨by omega, by simpa using hk⟩, ?_⟩
    intro k1
    constructor
    · intro h
      have hkk : k = k1 := by exact_mod_cast h
      subst hkk
      exact ⟨⟨r, h2, h3⟩, h4⟩
    · rintro ⟨⟨r1, hr1, hn1⟩, hmin⟩
      congr 1
      rcases Nat.lt_trichotomy k k1 with hlt | heq | hgt
      · exact absurd h3 (hmin k hlt r h2)
      · exact heq
      · exact absurd hn1 (h4 k1 hgt r1 hr1)

/-! ## Reservation invariant -/

/-- The reserved quantity with one more line in front. -/
theorem reserved_cons (n : Str) (it : ItemRec × Int) (cart : List (ItemRec × Int)) :
    reserved n (it :: cart) = (if it.1.name = n then it.2 else 0) + reserved n cart := by
  unfold reserved
  by_cases h : it.1.name = n
  · simp [List.filter_cons, h]
  · simp [List.filter_cons, h]

/-- Adding every cart line back under its name raises each product by the quantity that
the cart reserves under the name of the product. -/
theorem restore_all_eq_map (cart : List (ItemRec × Int)) :
    ∀ inv : List ItemRec,
      restore_all cart inv =
        inv.map (fun r => { r with qty := r.qty + reserved r.name cart }) := by
  induction cart with
  | nil =>
    intro inv
    simp [restore_all, reserved]
  | cons it rest ih =>
    intro inv
    have hstep : restore_all (it :: rest) inv =
        restore_all rest (inv.map (adjust it.1.name it.2)) := rfl
    rw [hstep, ih, List.map_map]
    apply List.map_congr_left
    intro r _
    simp only [Function.comp, reserved_cons, adjust]
    by_cases h : r.name = it.1.name
    · rw [if_pos h, if_pos h.symm]
      simp only
      congr 1
      omega
    · rw [if_neg h, if_neg (fun he => h he.symm)]
      congr 1
      omega

/-- The add branch leaves no negative quantity in the catalog. -/
theorem add_to_bill_qty_nonneg (s : BillState) (choice : Int) (i : BillInput)
    (h : ∀ r ∈ s.inv, 0 ≤ r.qty) : ∀ r ∈ (add_to_bill s choice i).inv, 0 ≤ r.qty := by
  rcases add_to_bill_cases s choice i with h1 | ⟨q, r0, _, _, _, hle, h1⟩
  · rw [h1]; exact h
  · rw [h1]
    intro r hr
    simp only at hr
    rcases List.mem_or_eq_of_mem_set hr with hm | he
    · exact h r hm
    · rw [he]
      simp only
      omega

/-- An iteration that leaves the loop running leaves no negative quantity in the
catalog. -/
theorem bill_step_qty_nonneg (s t : BillState) (i : BillInput)
    (h : ∀ r ∈ s.inv, 0 ≤ r.qty) (hst : bill_step s i = .running t) :
    ∀ r ∈ t.inv, 0 ≤ r.qty := by
  rcases bill_step_running_cases s t i hst with h1 | ⟨choice, _, _, h1⟩ | ⟨_, h1⟩
  · rw [h1]; exact h
  · rw [h1]; exact add_to_bill_qty_nonneg s choice i h
  · rw [h1, (apply_loyalty_cart s i).1]; exact h

/-- The reservation invariant for a checkout that starts from the catalog `inv0`. -/
theorem open_after_reserved (inv0 : List ItemRec) (w : World) (ses : Session)
    (entries : List BillInput) (t : BillState)
    (hnd : (inv0.map ItemRec.name).Nodup) (hq : ∀ r ∈ inv0, 0 ≤ r.qty)
    (h : open_after entries (resolve_customer inv0 w ses) = some t) :
    (∀ (k : Nat) (p : ItemRec), inv0[k]? = some p →
      ∃ r, t.inv[k]? = some r ∧ r.name = p.name ∧
        r.qty + reserved p.name t.sold_items = p.qty) ∧
    (∀ r ∈ t.inv, 0 ≤ r.qty) := by
  obtain ⟨hcart, _, hinv⟩ := resolve_customer_cart inv0 w ses
  have hP := open_after_induction
    (fun u => ((u.inv.map ItemRec.name).Nodup ∧
        restore_all u.sold_items u.inv = inv0) ∧ ∀ r ∈ u.inv, 0 ≤ r.qty)
    (fun u v i hu hst =>
      ⟨⟨(bill_step_open_reserved u v i hu.1.1 hst).1,
        (bill_step_open_reserved u v i hu.1.1 hst).2.trans hu.1.2⟩,
       bill_step_qty_nonneg u v i hu.2 hst⟩)
    entries _ t
    ⟨⟨by rw [hinv]; exact hnd, by rw [hcart, hinv]; rfl⟩, by rw [hinv]; exact hq⟩ h
  obtain ⟨⟨_, hres⟩, hnn⟩ := hP
  refine ⟨?_, hnn⟩
  intro k p hp
  rw [← hres, restore_all_eq_map, List.getElem?_map] at hp
  cases hr : t.inv[k]? with
  | none => rw [hr] at hp; cases hp
  | some r =>
    rw [hr] at hp
    simp only [Option.map_some', Option.some.injEq] at hp
    refine ⟨r, rfl, ?_, ?_⟩
    · rw [← hp]
    · rw [← hp]

/-- C27. Reservation invariant of the Open state: for a catalog with pairwise distinct
product names and no negative quantity (as every loaded catalog is), after every sequence
of iterations of the menu loop of `print_bill_flow` that leave the checkout open, and for
every product `p`, the catalog holds at the position of `p` a product of that name whose
quantity plus the sum of the quantities of the cart lines naming `p` equals the quantity of
`p` at the start of the transaction, and every catalog quantity is `≥ 0`. -/
theorem reservation_invariant :
    (∀ (inv0 : List ItemRec) (w : World) (ses : Session) (entries : List BillInput)
      (t : BillState),
      (inv0.map ItemRec.name).Nodup → (∀ r ∈ inv0, 0 ≤ r.qty) →
      open_after entries (resolve_customer inv0 w ses) = some t →
      (∀ (k : Nat) (p : ItemRec), inv0[k]? = some p →
        ∃ r, t.inv[k]? = some r ∧ r.name = p.name ∧
          r.qty + reserved p.name t.sold_items = p.qty) ∧
      (∀ r ∈ t.inv, 0 ≤ r.qty)) ∧
    (∀ (w : World) (ses : Session) (entries : List BillInput) (t : BillState),
      ((load_inventory w).1.map ItemRec.name).Nodup →
      open_after entries
        (resolve_customer (load_inventory w).1 (load_inventory w).2 ses) = some t →
      (∀ (k : Nat) (p : ItemRec), (load_inventory w).1[k]? = some p →
        ∃ r, t.inv[k]? = some r ∧ r.name = p.name ∧
          r.qty + reserved p.name t.sold_items = p.qty) ∧
      (∀ r ∈ t.inv, 0 ≤ r.qty)) := by
  refine ⟨open_after_reserved, ?_⟩
  intro w ses entries t hnd h
  refine open_after_reserved _ _ ses entries t hnd ?_ h
  intro r hr
  unfold load_inventory at hr
  cases hw : w.inventory with
  | none => rw [hw] at hr; cases hr
  | some text =>
    rw [hw] at hr
    simp only [parse_inventory, List.mem_filterMap] at hr
    obtain ⟨line, _, hline⟩ := hr
    exact (parse_line_some line {} r hline).2.2.2.1

/-- Rice starts at 100: after 20 by name, a rejected 90 and 30 by barcode the catalog holds
50 and the cart reserves 50. -/
theorem reservation_invariant_witness :
    ∃ r, ([{ name := "Rice".toList, rate := 40, qty := 50,
             barcode := "12345678".toList }] : List ItemRec)[0]? = some r ∧
      r.name = "Rice".toList ∧
      r.qty + reserved "Rice".toList
        [({ name := "Rice".toList, rate := 40, qty := 80, barcode := "12345678".toList }, 20),
         ({ name := "Rice".toList, rate := 40, qty := 50, barcode := "12345678".toList }, 30)]
        = 100 :=
  (reservation_invariant.1
    [{ name := "Rice".toList, rate := 40, qty := 100, barcode := "12345678".toList }] {} {}
    [{ choice := some 1, input := "Rice".toList, q := some 20 },
     { choice := some 1, input := "Rice".toList, q := some 90 },
     { choice := some 2, input := "12345678".toList, q := some 30 }]
    { inv := [{ name := "Rice".toList, rate := 40, qty := 50, barcode := "12345678".toList }],
      customers := [], customer_obj := none, customer_name := "Walk-in Customer".toList,
      sold_items :=
        [({ name := "Rice".toList, rate := 40, qty := 80, barcode := "12345678".toList }, 20),
         ({ name := "Rice".toList, rate := 40, qty := 50, barcode := "12345678".toList }, 30)],
      total := 2000,
      world := { inventory := some (inventory_text
        [{ name := "Rice".toList, rate := 40, qty := 50,
           barcode := "12345678".toList }]) } }
    (by decide) (by decide) (by decide!)).1 0
    { name := "Rice".toList, rate := 40, qty := 100, barcode := "12345678".toList } rfl


/-! ## The net total as a function of the subtotal -/

/-- C30. The net total is not monotone in the subtotal: the subtotals 500 and 501 give the
net totals 525 and 476.05, because the flat discount of 50 starts just above 500; for every
subtotal `S ≥ 0` the net total is nevertheless `≥ 0`. -/
theorem net_total_not_monotone :
    (pricing 500).net_total = 525 ∧ (pricing 501).net_total = 47605 / 100 ∧
    (∃ S1 S2 : ℚ, S1 < S2 ∧ (pricing S1).net_total > (pricing S2).net_total) ∧
    (∀ S : ℚ, 0 ≤ S → 0 ≤ (pricing S).net_total) := by
  have h500 : (pricing 500).net_total = 525 := by decide!
  have h501 : (pricing 501).net_total = 47605 / 100 := by decide!
  refine ⟨h500, h501, ⟨500, 501, by norm_num, ?_⟩, ?_⟩
  · rw [h500, h501]; norm_num
  · intro S hS
    simp only [pricing, VAT_RATE, DISCOUNT_THRESHOLD, DISCOUNT_AMOUNT]
    by_cases h : S > 500
    · rw [if_pos h]; linarith
    · rw [if_neg h]; linarith

/-- A subtotal of 600 gives the net total 580. -/
theorem net_total_not_monotone_witness :
    (pricing 600).net_total = 580 ∧ (0 : ℚ) ≤ (pricing 600).net_total :=
  ⟨by decide!, net_total_not_monotone.2.2.2 600 (by norm_num)⟩

/-! ## Product names stay unique -/

/-- A field cut out of a text does not hold the separator, and holds only characters of the
text. -/
theorem splitOn_mem (d : Char) :
    ∀ (s f : Str), f ∈ splitOn d s → d ∉ f ∧ ∀ c ∈ f, c ∈ s := by
  intro s
  induction s with
  | nil => intro f h; simp [splitOn] at h
  | cons c cs ih =>
    intro f h
    unfold splitOn at h
    by_cases hc : c = d
    · rw [if_pos hc] at h
      rcases List.mem_cons.mp h with h | h
      · rw [h]
        exact ⟨List.not_mem_nil _, fun x hx => absurd hx (List.not_mem_nil _)⟩
      · obtain ⟨h1, h2⟩ := ih f h
        exact ⟨h1, fun x hx => List.mem_cons_of_mem _ (h2 x hx)⟩
    · rw [if_neg hc] at h
      cases hs : splitOn d cs with
      | nil =>
        rw [hs] at h
        simp only [List.mem_singleton] at h
        rw [h]
        refine ⟨?_, ?_⟩
        · simp only [List.mem_singleton]
          exact fun he => hc he.symm
        · intro x hx
          simp only [List.mem_singleton] at hx
          rw [hx]
          exact List.mem_cons_self _ _
      | cons f0 fs =>
        rw [hs] at h
        simp only [List.mem_cons] at h
        rcases h with h | h
        · obtain ⟨h1, h2⟩ := ih f0 (by rw [hs]; exact List.mem_cons_self _ _)
          rw [h]
          refine ⟨?_, ?_⟩
          · simp only [List.mem_cons, not_or]
            exact ⟨fun he => hc he.symm, h1⟩
          · intro x hx
            rcases List.mem_cons.mp hx with hx | hx
            · rw [hx]; exact List.mem_cons_self _ _
            · exact List.mem_cons_of_mem _ (h2 x hx)
        · obtain ⟨h1, h2⟩ := ih f (by rw [hs]; exact List.mem_cons_of_mem _ h)
          exact ⟨h1, fun x hx => List.mem_cons_of_mem _ (h2 x hx)⟩

/-- The field at a position, empty when there is none, does not hold the separator, and
holds only characters of the text. -/
theorem field_plain (d : Char) (s : Str) (k : Nat) :
    d ∉ (splitOn d s).getD k [] ∧ ∀ c ∈ (splitOn d s).getD k [], c ∈ s := by
  rw [List.getD_eq_getElem?_getD]
  cases h : (splitOn d s)[k]? with
  | none =>
    simp only [Option.getD_none]
    exact ⟨List.not_mem_nil _, fun x hx => absurd hx (List.not_mem_nil _)⟩
  | some f =>
    simp only [Option.getD_some]
    exact splitOn_mem d s f (List.getElem?_mem h)

/-- Trimming keeps only characters of the text. -/
theorem trim_subset (s : Str) : ∀ c ∈ trim s, c ∈ s := by
  intro c hc
  have h1 : c ∈ s.dropWhile isBlank := ( List.rdropWhile_prefix isBlank _).subset hc
  exact (List.dropWhile_suffix isBlank).subset h1

/-- A record loaded from a line of the file: the name holds no separator and no blank at
either end, and no text field holds a line break. -/
theorem loaded_record_plain (line : Str) (r : ItemRec) (h : parse_line line {} = some r)
    (hline : '\n' ∉ line) :
    '|' ∉ r.name ∧ trim r.name = r.name ∧ '\n' ∉ r.name ∧ '\n' ∉ r.barcode ∧
    '\n' ∉ r.category ∧ '\n' ∉ r.supplier := by
  obtain ⟨hname, _, _, _, hb, hc, hs⟩ := parse_line_some line {} r h
  have hfield : ∀ k, '\n' ∉ (splitOn '|' line).getD k [] :=
    fun k hm => hline ((field_plain '|' line k).2 _ hm)
  refine ⟨?_, ?_, ?_, ?_, ?_, ?_⟩
  · rw [hname]
    exact fun hm => (field_plain '|' line 0).1 (trim_subset _ _ hm)
  · rw [hname, trim_trim]
  · rw [hname]
    exact fun hm => hfield 0 (trim_subset _ _ hm)
  · rcases hb with hb | hb
    · rw [hb]; exact hfield 3
    · rw [hb]; exact List.not_mem_nil _
  · rcases hc with hc | hc
    · rw [hc]; exact hfield 4
    · rw [hc]; exact List.not_mem_nil _
  · rcases hs with hs | hs
    · rw [hs]; exact hfield 5
    · rw [hs]; exact List.not_mem_nil _

/-- A line of a text holds no line break. -/
theorem loaded_inventory_plain (w : World) (r : ItemRec) (hr : r ∈ (load_inventory w).1) :
    '|' ∉ r.name ∧ trim r.name = r.name ∧ '\n' ∉ r.name ∧ '\n' ∉ r.barcode ∧
    '\n' ∉ r.category ∧ '\n' ∉ r.supplier := by
  unfold load_inventory at hr
  cases hw : w.inventory with
  | none => rw [hw] at hr; cases hr
  | some text =>
    rw [hw] at hr
    simp only [parse_inventory, List.mem_filterMap] at hr
    obtain ⟨line, hl, hline⟩ := hr
    exact loaded_record_plain line r hline (splitOn_mem '\n' text line hl).1

/-- A record without line break in its text fields is written as one line. -/
theorem serialize_line_one_line (r : ItemRec) (hn : '\n' ∉ r.name) (hb : '\n' ∉ r.barcode)
    (hc : '\n' ∉ r.category) (hs : '\n' ∉ r.supplier) : '\n' ∉ serialize_line r := by
  unfold serialize_line
  simp only [List.mem_append, List.mem_cons, not_or]
  exact ⟨hn, by decide, (to_string_double_plain _).2, by decide, (to_string_int_plain _).2.1,
    by decide, hb, by decide, hc, by decide, hs, by decide, (to_string_int_plain _).2.1⟩

/-- Loading the text that `save_inventory` writes handles the records one by one. -/
theorem parse_inventory_text_filterMap (inv : List ItemRec)
    (h : ∀ r ∈ inv, '\n' ∉ serialize_line r) :
    parse_inventory (inventory_text inv) =
      inv.filterMap (fun r => parse_line (serialize_line r) {}) := by
  unfold parse_inventory inventory_text
  rw [splitOn_append _ _ _ inventory_header_skipped.2]
  have hmap : inv.map (fun r => serialize_line r ++ ['\n'])
      = (inv.map serialize_line).map (fun l => l ++ ['\n']) := by
    rw [List.map_map]; rfl
  rw [hmap, splitOn_lines]
  · rw [List.filterMap_cons, inventory_header_skipped.1]
    simp only
    rw [List.filterMap_map]
    rfl
  · intro l hl
    obtain ⟨r, hr, hrl⟩ := List.mem_map.mp hl
    rw [← hrl]
    exact h r hr

/-- A record whose name holds no separator comes back, if at all, under its trimmed
name. -/
theorem reload_name (r r1 out : ItemRec) (hbar : '|' ∉ r.name)
    (h : parse_line (serialize_line r) out = some r1) : r1.name = trim r.name := by
  have hsplit : splitOn '|' (serialize_line r) =
      r.name :: splitOn '|' (to_string_double r.rate ++ '|' :: (to_string_int r.qty ++ '|' ::
        (r.barcode ++ '|' :: (r.category ++ '|' :: (r.supplier ++ '|' ::
          to_string_int r.low_stock_threshold))))) := by
    unfold serialize_line
    exact splitOn_append '|' _ _ hbar
  rw [(parse_line_some _ out r1 h).1, hsplit]
  rfl

/-- The names that come back from the file are, in order, some of the names written. -/
theorem reloaded_names_sublist (inv : List ItemRec)
    (h : ∀ r ∈ inv, '|' ∉ r.name ∧ trim r.name = r.name) :
    List.Sublist ((inv.filterMap (fun r => parse_line (serialize_line r) {})).map ItemRec.name)
      (inv.map ItemRec.name) := by
  induction inv with
  | nil => exact List.Sublist.slnil
  | cons r rest ih =>
    have ih1 := ih (fun x hx => h x (List.mem_cons_of_mem _ hx))
    obtain ⟨hbar, htrim⟩ := h r (List.mem_cons_self _ _)
    rw [List.filterMap_cons]
    cases hp : parse_line (serialize_line r) {} with
    | none =>
      simp only [List.map_cons]
      exact List.Sublist.cons _ ih1
    | some r1 =>
      simp only [List.map_cons]
      rw [reload_name r r1 {} hbar hp, htrim]
      exact List.Sublist.cons₂ _ ih1

/-- Replacing the record found under a name, or appending a record whose name is not found,
keeps the names pairwise distinct. -/
theorem add_or_replace_names (inv : List ItemRec) (item : ItemRec)
    (hnd : (inv.map ItemRec.name).Nodup) :
    ((add_or_replace inv item).map ItemRec.name).Nodup := by
  unfold add_or_replace find_item
  rcases find_item_from_spec item.name inv 0 with ⟨h1, h2⟩ | ⟨k, h1, r, h2, h3, _⟩
  · simp only [h1]
    rw [if_neg (by decide)]
    rw [List.map_append, List.nodup_append]
    refine ⟨hnd, List.nodup_singleton _, ?_⟩
    intro a ha hb
    simp only [List.map_cons, List.map_nil, List.mem_singleton] at hb
    obtain ⟨x, hx, hxa⟩ := List.mem_map.mp ha
    exact h2 x hx (hxa.trans hb)
  · simp only [h1, zero_add]
    rw [if_pos (by omega)]
    have hk : k < inv.length := (List.getElem?_eq_some_iff.mp h2).1
    have hnames : (inv.set (k : Int).toNat item).map ItemRec.name = inv.map ItemRec.name := by
      simp only [Int.toNat_ofNat]
      rw [List.map_set]
      apply List.ext_getElem?
      intro j
      rw [List.getElem?_set]
      by_cases hj : k = j
      · subst hj
        rw [if_pos rfl]
        simp only [List.length_map, hk, if_true, List.getElem?_map, h2, Option.map_some', h3]
      · rw [if_neg hj]
    rw [hnames]
    exact hnd

/-- Every record of the updated catalog is a loaded record or the new one. -/
theorem add_or_replace_mem (inv : List ItemRec) (item r : ItemRec)
    (h : r ∈ add_or_replace inv item) : r ∈ inv ∨ r = item := by
  unfold add_or_replace at h
  simp only at h
  by_cases hi : 0 ≤ find_item inv item.name
  · rw [if_pos hi] at h
    exact List.mem_or_eq_of_mem_set h
  · rw [if_neg hi] at h
    rcases List.mem_append.mp h with h | h
    · exact Or.inl h
    · exact Or.inr (List.mem_singleton.mp h)

/-- One pass through "Add New Item" either leaves the files alone or saves the updated
catalog. -/
theorem add_new_item_cases (w : World) (i : ItemInput) :
    add_new_item w i = w ∨
    ∃ rate qty, i.rate = some rate ∧ i.qty = some qty ∧
      add_new_item w i =
        (save_inventory (add_or_replace (load_inventory w).1 (new_item i rate qty)) i.canWrite
          (load_inventory w).2).2 := by
  unfold add_new_item
  by_cases h1 : i.name = []
  · rw [if_pos h1]; exact Or.inl rfl
  · rw [if_neg h1]
    by_cases h2 : i.barcode ≠ [] ∧ validate_barcode i.barcode = false
    · rw [if_pos h2]; exact Or.inl rfl
    · rw [if_neg h2]
      cases hr : i.rate with
      | none => exact Or.inl rfl
      | some rate =>
        simp only
        by_cases h3 : rate < 0
        · rw [if_pos h3]; exact Or.inl rfl
        · rw [if_neg h3]
          cases hq : i.qty with
          | none => exact Or.inl rfl
          | some qty =>
            simp only
            by_cases h4 : qty < 0
            · rw [if_pos h4]; exact Or.inl rfl
            · rw [if_neg h4]
              exact Or.inr ⟨rate, qty, rfl, rfl, rfl⟩

/-- Loading again from the state that `load_inventory` leaves gives the same catalog. -/
theorem load_inventory_again (w : World) :
    (load_inventory (load_inventory w).2).1 = (load_inventory w).1 := by
  unfold load_inventory
  cases hw : w.inventory with
  | none => rfl
  | some text => simp only [hw]

/-- C25, amended. Product names stay unique within the catalog: if the catalog loaded from
the store has pairwise distinct names, then after "Add New Item" in `add_item_flow` with an
entered name that has no space or tab at either end and holds no `|` (the record found by
`find_item` under the name is replaced, the record is appended otherwise) and the save,
successful or not, the catalog loaded back from the store again has pairwise distinct
names.  The four texts entered are lines read from the console, so they hold no line
break. -/
theorem add_item_keeps_names_unique (w : World) (i : ItemInput)
    (hnd : ((load_inventory w).1.map ItemRec.name).Nodup)
    (htrim : trim i.name = i.name) (hbar : '|' ∉ i.name)
    (hlines : '\n' ∉ i.name ∧ '\n' ∉ i.barcode ∧ '\n' ∉ i.category ∧ '\n' ∉ i.supplier) :
    ((load_inventory (add_new_item w i)).1.map ItemRec.name).Nodup := by
  rcases add_new_item_cases w i with h | ⟨rate, qty, _, _, h⟩
  · rw [h]; exact hnd
  · rw [h]
    unfold save_inventory
    cases hcw : i.canWrite with
    | false =>
      simp only [Bool.false_eq_true, if_false]
      rw [load_inventory_again]
      exact hnd
    | true =>
      simp only [if_true]
      have hplain : ∀ r ∈ add_or_replace (load_inventory w).1 (new_item i rate qty),
          '|' ∉ r.name ∧ trim r.name = r.name ∧ '\n' ∉ r.name ∧ '\n' ∉ r.barcode ∧
          '\n' ∉ r.category ∧ '\n' ∉ r.supplier := by
        intro r hr
        rcases add_or_replace_mem _ _ r hr with hm | he
        · exact loaded_inventory_plain w r hm
        · rw [he]
          exact ⟨hbar, htrim, hlines.1, hlines.2.1, hlines.2.2.1, hlines.2.2.2⟩
      have hload : (load_inventory
          { (load_inventory w).2 with
            inventory := some (inventory_text
              (add_or_replace (load_inventory w).1 (new_item i rate qty))) }).1 =
          (add_or_replace (load_inventory w).1 (new_item i rate qty)).filterMap
            (fun r => parse_line (serialize_line r) {}) := by
        unfold load_inventory
        simp only
        exact parse_inventory_text_filterMap _ (fun r hr =>
          serialize_line_one_line r (hplain r hr).2.2.1 (hplain r hr).2.2.2.1
            (hplain r hr).2.2.2.2.1 (hplain r hr).2.2.2.2.2)
      rw [hload]
      exact List.Nodup.sublist
        (reloaded_names_sublist _ (fun r hr => ⟨(hplain r hr).1, (hplain r hr).2.1⟩))
        (add_or_replace_names _ _ hnd)

/-- Tea is added to a catalog that holds Rice: both names are loaded back. -/
theorem add_item_keeps_names_unique_witness :
    (load_inventory (add_new_item { inventory := some "Rice|40|100\n".toList }
        { name := "Tea".toList, rate := some 15, qty := some 9 })).1.map ItemRec.name =
      ["Rice".toList, "Tea".toList] ∧
    ((load_inventory (add_new_item { inventory := some "Rice|40|100\n".toList }
        { name := "Tea".toList, rate := some 15, qty := some 9 })).1.map ItemRec.name).Nodup :=
  ⟨by decide!,
   add_item_keeps_names_unique { inventory := some "Rice|40|100\n".toList }
     { name := "Tea".toList, rate := some 15, qty := some 9 }
     (by decide!) (by decide) (by decide) (by decide)⟩

/-- C25 as stated fails: the catalog holds Rice once; the name entered as Rice with a
blank in front is not found by `find_item` and is appended, and the catalog loaded back
holds the name Rice twice, since `parse_line` trims it.  The same happens with the entered
name `Rice|45|10` and category 7, which are read back as name, rate, quantity and
threshold. -/
theorem add_item_duplicates_untrimmed_name :
    ((load_inventory { inventory := some "Rice|40|100\n".toList }).1.map ItemRec.name).Nodup ∧
    (load_inventory (add_new_item { inventory := some "Rice|40|100\n".toList }
        { name := " Rice".toList, rate := some 45, qty := some 10 })).1 =
      [{ name := "Rice".toList, rate := 40, qty := 100 },
       { name := "Rice".toList, rate := 45, qty := 10 }] ∧
    (load_inventory (add_new_item { inventory := some "Rice|40|100\n".toList }
        { name := "Rice|45|10".toList, category := "7".toList, rate := some 1,
          qty := some 2 })).1.map ItemRec.name =
      ["Rice".toList, "Rice".toList] := by
  refine ⟨by decide!, by decide!, by decide!⟩

/-! ## Rounding to the nearest `double` -/

/-! ## Rounding to binary64 -/

/-- The function `pow2` is the power of two. -/
theorem pow2_eq_zpow (k : Int) : pow2 k = (2 : ℚ) ^ k := by
  unfold pow2
  by_cases h : 0 ≤ k
  · rw [if_pos h]
    obtain ⟨n, rfl⟩ := Int.eq_ofNat_of_zero_le h
    simp [zpow_natCast]
  · rw [if_neg h]
    obtain ⟨n, hn⟩ := Int.exists_eq_neg_ofNat (le_of_lt (not_le.mp h))
    subst hn
    simp [zpow_neg, zpow_natCast]

theorem pow2_pos (k : Int) : 0 < pow2 k := by
  rw [pow2_eq_zpow]; exact zpow_pos (by norm_num) k

theorem pow2_add (a b : Int) : pow2 (a + b) = pow2 a * pow2 b := by
  simp only [pow2_eq_zpow]; exact zpow_add₀ (by norm_num) a b

theorem pow2_zero : pow2 0 = 1 := by
  rw [pow2_eq_zpow]; simp

theorem pow2_one : pow2 1 = 2 := by
  rw [pow2_eq_zpow]; simp

theorem pow2_succ (k : Int) : pow2 (k + 1) = pow2 k * 2 := by
  rw [pow2_add, pow2_one]

theorem pow2_mono {a b : Int} (h : a ≤ b) : pow2 a ≤ pow2 b := by
  simp only [pow2_eq_zpow]; exact zpow_le_zpow_right₀ (by norm_num) h

theorem pow2_strict {a b : Int} (h : a < b) : pow2 a < pow2 b := by
  simp only [pow2_eq_zpow]; exact zpow_lt_zpow_right₀ (by norm_num) h

theorem pow2_lt_iff {a b : Int} : pow2 a < pow2 b ↔ a < b := by
  simp only [pow2_eq_zpow]; exact zpow_lt_zpow_iff_right₀ (by norm_num)

theorem pow2_cancel (a : Int) : pow2 a * pow2 (-a) = 1 := by
  rw [← pow2_add, add_neg_cancel, pow2_zero]

theorem pow2_natCast (n : Nat) : pow2 (n : Int) = ((2 ^ n : Nat) : ℚ) := by
  rw [pow2_eq_zpow]; simp [zpow_natCast]

/-- Halving with fuel finds the highest bit. -/
theorem log2_fuel_eq (f : Nat) : ∀ n, n ≤ f → log2_fuel f n = Nat.log2 n := by
  induction f with
  | zero =>
    intro n hn
    have : n = 0 := by omega
    subst this
    simp [log2_fuel, Nat.log2]
  | succ f ih =>
    intro n hn
    rw [log2_fuel, Nat.log2]
    by_cases h : 2 ≤ n
    · rw [if_pos h, if_pos h, ih (n / 2) (by omega)]
    · rw [if_neg h, if_neg h]

/-- A positive natural number lies between the power of two of its highest bit and the
next. -/
theorem log2_fuel_spec (n : Nat) (hn : n ≠ 0) :
    pow2 (log2_fuel n n : Int) ≤ (n : ℚ) ∧ (n : ℚ) < pow2 ((log2_fuel n n : Int) + 1) := by
  rw [log2_fuel_eq n n (le_refl _)]
  constructor
  · rw [pow2_natCast]
    exact_mod_cast Nat.log2_self_le hn
  · have h : ((n.log2 : Int) + 1) = ((n.log2 + 1 : Nat) : Int) := by push_cast; ring
    rw [h, pow2_natCast]
    exact_mod_cast Nat.lt_log2_self

/-- The binary exponent brackets a positive number. -/
theorem exponent_spec (x : ℚ) (hx : 0 < x) :
    pow2 (exponent x) ≤ x ∧ x < pow2 (exponent x + 1) := by
  have hnum : 0 < x.num := Rat.num_pos.mpr hx
  have hn0 : x.num.natAbs ≠ 0 := by omega
  have hd0 : x.den ≠ 0 := x.den_nz
  obtain ⟨hn1, hn2⟩ := log2_fuel_spec x.num.natAbs hn0
  obtain ⟨hd1, hd2⟩ := log2_fuel_spec x.den hd0
  have hdpos : (0 : ℚ) < x.den := by exact_mod_cast x.den_pos
  have hxn : x * x.den = (x.num.natAbs : ℚ) := by
    have h1 : (x.num.natAbs : Int) = x.num := Int.natAbs_of_nonneg hnum.le
    have h2 : (x.num.natAbs : ℚ) = (x.num : ℚ) :=
      calc (x.num.natAbs : ℚ) = ((x.num.natAbs : Int) : ℚ) := (Int.cast_natCast _).symm
        _ = (x.num : ℚ) := by rw [h1]
    rw [h2]
    exact Rat.mul_den_eq_num x
  set a : Int := (log2_fuel x.num.natAbs x.num.natAbs : Int) with ha
  set b : Int := (log2_fuel x.den x.den : Int) with hb
  have hlow : pow2 (a - b - 1) < x := by
    have h1 : pow2 (a - b - 1) * x.den < x * x.den := by
      rw [hxn]
      calc pow2 (a - b - 1) * x.den < pow2 (a - b - 1) * pow2 (b + 1) :=
            mul_lt_mul_of_pos_left hd2 (pow2_pos _)
        _ = pow2 a := by rw [← pow2_add]; congr 1; ring
        _ ≤ _ := hn1
    exact lt_of_mul_lt_mul_right h1 hdpos.le
  have hhigh : x < pow2 (a - b + 1) := by
    have h1 : x * x.den < pow2 (a - b + 1) * x.den := by
      rw [hxn]
      calc (x.num.natAbs : ℚ) < pow2 (a + 1) := hn2
        _ = pow2 (a - b + 1) * pow2 b := by rw [← pow2_add]; congr 1; ring
        _ ≤ pow2 (a - b + 1) * x.den := mul_le_mul_of_nonneg_left hd1 (pow2_pos _).le
    exact lt_of_mul_lt_mul_right h1 hdpos.le
  unfold exponent
  simp only
  rw [← ha, ← hb]
  by_cases h : pow2 (a - b) ≤ x
  · rw [if_pos h]
    exact ⟨h, hhigh⟩
  · rw [if_neg h]
    refine ⟨hlow.le, ?_⟩
    rw [sub_add_cancel]
    exact not_le.mp h

/-- The binary exponent is the only integer that brackets a positive number. -/
theorem exponent_unique (x : ℚ) (e : Int) (h1 : pow2 e ≤ x) (h2 : x < pow2 (e + 1)) :
    exponent x = e := by
  have hx : 0 < x := lt_of_lt_of_le (pow2_pos e) h1
  obtain ⟨h3, h4⟩ := exponent_spec x hx
  have h5 : e < exponent x + 1 := pow2_lt_iff.mp (lt_of_le_of_lt h1 h4)
  have h6 : exponent x < e + 1 := pow2_lt_iff.mp (lt_of_le_of_lt h3 h2)
  omega

/-- The binary exponent does not fall when the number rises. -/
theorem exponent_mono (x y : ℚ) (hx : 0 < x) (hxy : x ≤ y) : exponent x ≤ exponent y := by
  obtain ⟨h1, _⟩ := exponent_spec x hx
  obtain ⟨_, h4⟩ := exponent_spec y (lt_of_lt_of_le hx hxy)
  have : exponent x < exponent y + 1 := pow2_lt_iff.mp (lt_of_le_of_lt (h1.trans hxy) h4)
  omega


/-- Rounding to the nearest integer gives the floor or the floor plus one. -/
theorem roundHalfEven_cases (x : ℚ) :
    roundHalfEven x = ⌊x⌋ ∨ roundHalfEven x = ⌊x⌋ + 1 := by
  unfold roundHalfEven
  simp only
  split_ifs
  · exact Or.inl rfl
  · exact Or.inr rfl
  · exact Or.inl rfl
  · exact Or.inr rfl

/-- Rounding to the nearest integer moves a number by at most one half. -/
theorem roundHalfEven_error (x : ℚ) : |(roundHalfEven x : ℚ) - x| ≤ 1 / 2 := by
  have h1 := Int.floor_le x
  have h2 := Int.lt_floor_add_one x
  unfold roundHalfEven
  simp only
  rw [abs_le]
  split_ifs with ha hb hc
  · constructor <;> linarith
  · push_cast; constructor <;> linarith
  · constructor <;> linarith
  · push_cast; constructor <;> linarith

/-- An integer is its own rounding. -/
theorem roundHalfEven_intCast (n : Int) : roundHalfEven (n : ℚ) = n := by
  unfold roundHalfEven
  simp only [Int.floor_intCast, sub_self]
  rw [if_pos (by norm_num)]

/-- Rounding to the nearest integer keeps the order. -/
theorem roundHalfEven_mono (x y : ℚ) (h : x ≤ y) : roundHalfEven x ≤ roundHalfEven y := by
  have hf : ⌊x⌋ ≤ ⌊y⌋ := Int.floor_le_floor h
  rcases lt_or_eq_of_le hf with hlt | heq
  · rcases roundHalfEven_cases x with h1 | h1 <;> rcases roundHalfEven_cases y with h2 | h2 <;>
      omega
  · unfold roundHalfEven
    simp only
    rw [← heq]
    split_ifs with a1 a2 a3 a4 a5 a6 a7 a8 a9 <;> first | omega | (exfalso; linarith)

/-- Rounding to the nearest integer stays on the side of an integer bound. -/
theorem roundHalfEven_le (x : ℚ) (n : Int) (h : x ≤ n) : roundHalfEven x ≤ n := by
  have := roundHalfEven_mono x n h
  rwa [roundHalfEven_intCast] at this

theorem le_roundHalfEven (x : ℚ) (n : Int) (h : (n : ℚ) ≤ x) : n ≤ roundHalfEven x := by
  have := roundHalfEven_mono n x h
  rwa [roundHalfEven_intCast] at this

/-- The rounding of a number that is not negative, written out. -/
theorem round_double_of_nonneg (x : ℚ) (hx : 0 ≤ x) :
    round_double x =
      (roundHalfEven (x * pow2 (52 - max (exponent x) (-1022))) : ℚ) *
        pow2 (max (exponent x) (-1022) - 52) := by
  unfold round_double
  simp only [abs_of_nonneg hx]
  rw [if_neg (not_lt.mpr hx)]

/-- Rounding commutes with the sign. -/
theorem round_double_neg (x : ℚ) : round_double (-x) = -round_double x := by
  rcases lt_trichotomy x 0 with h | h | h
  · unfold round_double
    simp only [abs_neg]
    rw [if_neg (by linarith), if_pos h, neg_neg]
  · subst h
    simp [round_double, roundHalfEven]
  · unfold round_double
    simp only [abs_neg]
    rw [if_pos (by linarith), if_neg (by linarith)]

theorem round_double_zero : round_double 0 = 0 := by
  simp [round_double, roundHalfEven]

/-- Rounding keeps a number that is not negative so. -/
theorem round_double_nonneg (x : ℚ) (hx : 0 ≤ x) : 0 ≤ round_double x := by
  rw [round_double_of_nonneg x hx]
  apply mul_nonneg _ (pow2_pos _).le
  have : (0 : Int) ≤ roundHalfEven (x * pow2 (52 - max (exponent x) (-1022))) :=
    le_roundHalfEven _ 0 (by
      simp only [Int.cast_zero]
      exact mul_nonneg hx (pow2_pos _).le)
  exact_mod_cast this

/-- The scaled number times the spacing of the grid is the number. -/
theorem scale_unscale (x : ℚ) (e : Int) : x * pow2 (52 - e) * pow2 (e - 52) = x := by
  rw [mul_assoc, ← pow2_add]
  have : (52 - e + (e - 52)) = 0 := by ring
  rw [this, pow2_zero, mul_one]

/-- Rounding moves a number by at most half the spacing of the grid at its exponent. -/
theorem round_double_error_nonneg (x : ℚ) (hx : 0 ≤ x) :
    |round_double x - x| ≤ pow2 (max (exponent x) (-1022) - 53) := by
  rw [round_double_of_nonneg x hx]
  set e := max (exponent x) (-1022) with he
  have h1 := roundHalfEven_error (x * pow2 (52 - e))
  have h2 : (roundHalfEven (x * pow2 (52 - e)) : ℚ) * pow2 (e - 52) - x =
      ((roundHalfEven (x * pow2 (52 - e)) : ℚ) - x * pow2 (52 - e)) * pow2 (e - 52) := by
    rw [sub_mul, scale_unscale]
  rw [h2, abs_mul, abs_of_pos (pow2_pos _)]
  have h3 : pow2 (e - 53) = 1 / 2 * pow2 (e - 52) := by
    have : e - 52 = (e - 53) + 1 := by ring
    rw [this, pow2_succ]; ring
  rw [h3]
  exact mul_le_mul_of_nonneg_right h1 (pow2_pos _).le


/-- The exponent used for rounding is at least that of the smallest normal number. -/
theorem grid_exponent_ge (x : ℚ) : -1022 ≤ max (exponent x) (-1022) := le_max_right _ _

/-- A number that is not negative lies below the next power of two of its rounding
exponent. -/
theorem lt_pow2_grid_exponent (x : ℚ) (hx : 0 ≤ x) :
    x < pow2 (max (exponent x) (-1022) + 1) := by
  rcases eq_or_lt_of_le hx with h | h
  · rw [← h]; exact pow2_pos _
  · exact lt_of_lt_of_le (exponent_spec x h).2 (pow2_mono (by have := le_max_left (exponent x) (-1022); omega))

/-- The rounding of a number that is not negative does not pass the next power of two. -/
theorem round_double_le_pow2 (x : ℚ) (hx : 0 ≤ x) :
    round_double x ≤ pow2 (max (exponent x) (-1022) + 1) := by
  rw [round_double_of_nonneg x hx]
  set e := max (exponent x) (-1022) with he
  have h1 : x * pow2 (52 - e) ≤ (((2 ^ 53 : Nat) : Int) : ℚ) := by
    have h2 : x * pow2 (52 - e) < pow2 (e + 1) * pow2 (52 - e) :=
      mul_lt_mul_of_pos_right (lt_pow2_grid_exponent x hx) (pow2_pos _)
    rw [← pow2_add] at h2
    have h3 : e + 1 + (52 - e) = ((53 : Nat) : Int) := by push_cast; ring
    rw [h3, pow2_natCast] at h2
    exact_mod_cast h2.le
  have h4 := roundHalfEven_le _ _ h1
  have h5 : (roundHalfEven (x * pow2 (52 - e)) : ℚ) ≤ ((2 ^ 53 : Nat) : ℚ) := by exact_mod_cast h4
  calc (roundHalfEven (x * pow2 (52 - e)) : ℚ) * pow2 (e - 52)
      ≤ ((2 ^ 53 : Nat) : ℚ) * pow2 (e - 52) := mul_le_mul_of_nonneg_right h5 (pow2_pos _).le
    _ = pow2 (e + 1) := by
        rw [← pow2_natCast, ← pow2_add]; congr 1; push_cast; ring

/-- The rounding of a number from a power of two on is at least that power. -/
theorem pow2_le_round_double (x : ℚ) (e : Int) (he : -1022 ≤ e) (h : pow2 e ≤ x) :
    pow2 e ≤ round_double x := by
  have hx : 0 < x := lt_of_lt_of_le (pow2_pos e) h
  rw [round_double_of_nonneg x hx.le]
  set E := max (exponent x) (-1022) with hE
  have hle : e ≤ E := by
    have h1 : e < exponent x + 1 := pow2_lt_iff.mp (lt_of_le_of_lt h (exponent_spec x hx).2)
    have := le_max_left (exponent x) (-1022)
    omega
  by_cases hbig : E - e ≤ 52
  · obtain ⟨j, hj⟩ := Int.eq_ofNat_of_zero_le (show 0 ≤ e + 52 - E by omega)
    have h1 : (((2 ^ j : Nat) : Int) : ℚ) ≤ x * pow2 (52 - E) := by
      have : pow2 e * pow2 (52 - E) ≤ x * pow2 (52 - E) :=
        mul_le_mul_of_nonneg_right h (pow2_pos _).le
      rw [← pow2_add] at this
      have h3 : e + (52 - E) = (j : Int) := by omega
      rw [h3, pow2_natCast] at this
      exact_mod_cast this
    have h4 := le_roundHalfEven _ _ h1
    have h5 : ((2 ^ j : Nat) : ℚ) ≤ (roundHalfEven (x * pow2 (52 - E)) : ℚ) := by
      exact_mod_cast h4
    calc pow2 e = ((2 ^ j : Nat) : ℚ) * pow2 (E - 52) := by
          rw [← pow2_natCast, ← pow2_add]; congr 1; omega
      _ ≤ _ := mul_le_mul_of_nonneg_right h5 (pow2_pos _).le
  · -- then `E` is far above `e`, and already `pow2 (exponent x) ≤ x` carries the bound
    have hEx : E = exponent x := by
      have := le_max_left (exponent x) (-1022)
      rcases max_choice (exponent x) (-1022) with hm | hm
      · exact hm
      · rw [← hE] at hm; omega
    have h1 : (((2 ^ 52 : Nat) : Int) : ℚ) ≤ x * pow2 (52 - E) := by
      have : pow2 E * pow2 (52 - E) ≤ x * pow2 (52 - E) :=
        mul_le_mul_of_nonneg_right (by rw [hEx]; exact (exponent_spec x hx).1) (pow2_pos _).le
      rw [← pow2_add] at this
      have h3 : E + (52 - E) = ((52 : Nat) : Int) := by push_cast; ring
      rw [h3, pow2_natCast] at this
      exact_mod_cast this
    have h4 := le_roundHalfEven _ _ h1
    have h5 : ((2 ^ 52 : Nat) : ℚ) ≤ (roundHalfEven (x * pow2 (52 - E)) : ℚ) := by
      exact_mod_cast h4
    calc pow2 e ≤ pow2 E := pow2_mono hle
      _ = ((2 ^ 52 : Nat) : ℚ) * pow2 (E - 52) := by
          rw [← pow2_natCast, ← pow2_add]; congr 1; push_cast; ring
      _ ≤ _ := mul_le_mul_of_nonneg_right h5 (pow2_pos _).le

/-- Rounding keeps the order of numbers that are not negative. -/
theorem round_double_mono_nonneg (x y : ℚ) (hx : 0 ≤ x) (hxy : x ≤ y) :
    round_double x ≤ round_double y := by
  have hy : 0 ≤ y := hx.trans hxy
  rcases eq_or_lt_of_le hx with h0 | hpos
  · rw [← h0, round_double_zero]; exact round_double_nonneg y hy
  · have hexp := exponent_mono x y hpos hxy
    set ex := max (exponent x) (-1022) with hex
    set ey := max (exponent y) (-1022) with hey
    have hle : ex ≤ ey := max_le_max hexp (le_refl _)
    rcases eq_or_lt_of_le hle with heq | hlt
    · rw [round_double_of_nonneg x hx, round_double_of_nonneg y hy, ← hex, ← hey, heq]
      apply mul_le_mul_of_nonneg_right _ (pow2_pos _).le
      have := roundHalfEven_mono (x * pow2 (52 - ey)) (y * pow2 (52 - ey))
        (mul_le_mul_of_nonneg_right hxy (pow2_pos _).le)
      exact_mod_cast this
    · have h1 : round_double x ≤ pow2 (ex + 1) := round_double_le_pow2 x hx
      have hey2 : ey = exponent y := by
        have := grid_exponent_ge x
        rcases max_choice (exponent y) (-1022) with hm | hm
        · exact hm
        · rw [← hey] at hm; rw [← hex] at this; omega
      have h2 : pow2 ey ≤ round_double y :=
        pow2_le_round_double y ey (grid_exponent_ge y)
          (by rw [hey2]; exact (exponent_spec y (lt_of_lt_of_le hpos hxy)).1)
      exact h1.trans ((pow2_mono (by omega)).trans h2)

/-- Rounding keeps the order. -/
theorem round_double_mono (x y : ℚ) (hxy : x ≤ y) : round_double x ≤ round_double y := by
  rcases le_or_lt 0 x with hx | hx
  · exact round_double_mono_nonneg x y hx hxy
  · rcases le_or_lt 0 y with hy | hy
    · have h1 : round_double x ≤ 0 := by
        have := round_double_nonneg (-x) (by linarith)
        rw [round_double_neg] at this
        linarith
      exact h1.trans (round_double_nonneg y hy)
    · have := round_double_mono_nonneg (-y) (-x) (by linarith) (by linarith)
      rw [round_double_neg, round_double_neg] at this
      linarith


/-- A number whose scaled value is an integer is on the grid at its exponent. -/
theorem round_double_of_scaled_int (x : ℚ) (hx : 0 ≤ x) (n : Int)
    (h : x * pow2 (52 - max (exponent x) (-1022)) = n) : round_double x = x := by
  rw [round_double_of_nonneg x hx, h, roundHalfEven_intCast, ← h, scale_unscale]

/-- An integer multiple of a power of two that is not finer than the grid at the exponent
of the number is on the grid. -/
theorem round_double_of_multiple (x : ℚ) (hx : 0 ≤ x) (k j : Int) (hxk : x = k * pow2 j)
    (hj : max (exponent x) (-1022) - 52 ≤ j) : round_double x = x := by
  obtain ⟨d, hd⟩ := Int.eq_ofNat_of_zero_le
    (show 0 ≤ j + (52 - max (exponent x) (-1022)) by omega)
  apply round_double_of_scaled_int x hx (k * ((2 ^ d : Nat) : Int))
  have h1 : pow2 j * pow2 (52 - max (exponent x) (-1022)) = ((2 ^ d : Nat) : ℚ) := by
    rw [← pow2_add, hd, pow2_natCast]
  calc x * pow2 (52 - max (exponent x) (-1022))
      = k * (pow2 j * pow2 (52 - max (exponent x) (-1022))) := by
        rw [← mul_assoc, ← hxk]
    _ = _ := by rw [h1]; push_cast; ring

/-- Rounding a rounded number changes nothing. -/
theorem round_double_idem (x : ℚ) : round_double (round_double x) = round_double x := by
  have key : ∀ y : ℚ, 0 ≤ y → round_double (round_double y) = round_double y := by
    intro y hy
    have hr : 0 ≤ round_double y := round_double_nonneg y hy
    rcases eq_or_lt_of_le hr with h0 | hpos
    · rw [← h0, round_double_zero]
    set e := max (exponent y) (-1022) with he
    have hform := round_double_of_nonneg y hy
    rw [← he] at hform
    have hle := round_double_le_pow2 y hy
    rw [← he] at hle
    have hge := grid_exponent_ge y
    rw [← he] at hge
    rcases eq_or_lt_of_le hle with heq | hlt
    · -- the rounding is the next power of two
      have hexp : exponent (round_double y) = e + 1 :=
        exponent_unique _ _ (by rw [heq]) (by rw [heq]; exact pow2_strict (by omega))
      apply round_double_of_multiple _ hr 1 (e + 1) (by rw [heq]; ring)
      rw [hexp, max_eq_left (by omega)]
      omega
    · -- the rounding stays below it, so its exponent is at most `e`
      apply round_double_of_multiple _ hr _ (e - 52) hform
      have h1 := (exponent_spec _ hpos).1
      have h2 : exponent (round_double y) < e + 1 :=
        pow2_lt_iff.mp (lt_of_le_of_lt h1 hlt)
      have hE : max (exponent (round_double y)) (-1022) ≤ e := max_le (by omega) hge
      omega
  rcases le_or_lt 0 x with hx | hx
  · exact key x hx
  · have := key (-x) (by linarith)
    rw [round_double_neg, round_double_neg] at this
    linarith


/-- A number that is at least the smallest normal number is rounded at its own exponent. -/
theorem grid_exponent_of_normal (x : ℚ) (h : pow2 (-1022) ≤ x) :
    max (exponent x) (-1022) = exponent x := by
  have hx : 0 < x := lt_of_lt_of_le (pow2_pos _) h
  have h1 : (-1022 : Int) < exponent x + 1 :=
    pow2_lt_iff.mp (lt_of_le_of_lt h (exponent_spec x hx).2)
  exact max_eq_left (by omega)

/-- In the normal range rounding changes a number by at most the fraction `2 ^ -53`. -/
theorem round_double_rel_error (x : ℚ) (h : pow2 (-1022) ≤ |x|) :
    |round_double x - x| ≤ pow2 (-53) * |x| := by
  have key : ∀ y : ℚ, pow2 (-1022) ≤ y → |round_double y - y| ≤ pow2 (-53) * y := by
    intro y hy
    have hpos : 0 < y := lt_of_lt_of_le (pow2_pos _) hy
    have h1 := round_double_error_nonneg y hpos.le
    rw [grid_exponent_of_normal y hy] at h1
    have h2 : pow2 (exponent y - 53) = pow2 (-53) * pow2 (exponent y) := by
      rw [← pow2_add]; congr 1; ring
    rw [h2] at h1
    exact h1.trans (mul_le_mul_of_nonneg_left (exponent_spec y hpos).1 (pow2_pos _).le)
  rcases le_or_lt 0 x with hx | hx
  · rw [abs_of_nonneg hx] at h ⊢
    exact key x h
  · rw [abs_of_neg hx] at h ⊢
    have := key (-x) h
    rw [round_double_neg] at this
    have h3 : -round_double x - -x = -(round_double x - x) := by ring
    rwa [h3, abs_neg] at this

/-- Every number of the grid is an integer multiple of `2 ^ -1074`. -/
theorem double_multiple (x : ℚ) (h : round_double x = x) : ∃ k : Int, x = k * pow2 (-1074) := by
  have key : ∀ y : ℚ, 0 ≤ y → round_double y = y → ∃ k : Int, y = k * pow2 (-1074) := by
    intro y hy hyy
    have hform := round_double_of_nonneg y hy
    rw [hyy] at hform
    have hge := grid_exponent_ge y
    obtain ⟨j, hj⟩ := Int.eq_ofNat_of_zero_le
      (show 0 ≤ max (exponent y) (-1022) - 52 + 1074 by omega)
    refine ⟨roundHalfEven (y * pow2 (52 - max (exponent y) (-1022))) * ((2 ^ j : Nat) : Int), ?_⟩
    have h1 : pow2 (max (exponent y) (-1022) - 52) = ((2 ^ j : Nat) : ℚ) * pow2 (-1074) := by
      rw [← pow2_natCast, ← hj, ← pow2_add]; congr 1; ring
    rw [h1] at hform
    calc y = _ := hform
      _ = _ := by push_cast; ring
  rcases le_or_lt 0 x with hx | hx
  · exact key x hx h
  · obtain ⟨k, hk⟩ := key (-x) (by linarith) (by rw [round_double_neg, h])
    exact ⟨-k, by push_cast; linarith⟩

/-- Below the smallest normal number every multiple of `2 ^ -1074` is on the grid. -/
theorem round_double_small_multiple (x : ℚ) (k : Int) (hk : x = k * pow2 (-1074))
    (hs : |x| < pow2 (-1022)) : round_double x = x := by
  have key : ∀ (y : ℚ) (k : Int), 0 ≤ y → y = k * pow2 (-1074) → y < pow2 (-1022) →
      round_double y = y := by
    intro y k hy hk hs
    rcases eq_or_lt_of_le hy with h0 | hpos
    · rw [← h0, round_double_zero]
    · apply round_double_of_multiple y hy k (-1074) hk
      have h1 : exponent y < -1022 :=
        pow2_lt_iff.mp (lt_of_le_of_lt (exponent_spec y hpos).1 hs)
      rw [max_eq_right (by omega)]
      norm_num
  rcases le_or_lt 0 x with hx | hx
  · rw [abs_of_nonneg hx] at hs
    exact key x k hx hk hs
  · rw [abs_of_neg hx] at hs
    have := key (-x) (-k) (by linarith) (by push_cast; linarith) hs
    rw [round_double_neg] at this
    linarith

/-- The difference of two numbers of the grid is rounded with a relative error of at most
`2 ^ -53`, also below the smallest normal number, where it is exact. -/
theorem round_double_sub_error (a b : ℚ) (ha : round_double a = a) (hb : round_double b = b) :
    |round_double (a - b) - (a - b)| ≤ pow2 (-53) * |a - b| := by
  rcases le_or_lt (pow2 (-1022)) |a - b| with h | h
  · exact round_double_rel_error _ h
  · obtain ⟨ka, hka⟩ := double_multiple a ha
    obtain ⟨kb, hkb⟩ := double_multiple b hb
    have hx : a - b = ((ka - kb : Int) : ℚ) * pow2 (-1074) := by
      push_cast; rw [sub_mul, ← hka, ← hkb]
    rw [round_double_small_multiple (a - b) (ka - kb) hx h, sub_self, abs_zero]
    exact mul_nonneg (pow2_pos _).le (abs_nonneg _)

/-- A rounded number does not pass a number of the grid that bounds the exact one. -/
theorem round_double_le_of_le (x d : ℚ) (hd : round_double d = d) (h : x ≤ d) :
    round_double x ≤ d := by
  have := round_double_mono x d h
  rwa [hd] at this

theorem le_round_double_of_le (x d : ℚ) (hd : round_double d = d) (h : d ≤ x) :
    d ≤ round_double x := by
  have := round_double_mono d x h
  rwa [hd] at this


/-! ## Operations on finite values of type `double` -/

/-- A rounded number is the value of a finite `double` when it is below `2 ^ 1024`. -/
theorem isDouble_round (x : ℚ) (h : |round_double x| < pow2 1024) :
    isDouble (round_double x) := ⟨round_double_idem x, h⟩

/-- The result of an operation is finite when the rounded number is below `2 ^ 1024` and is
not a negative number rounded to zero. -/
theorem Double.ofRat_fin (x : ℚ) (h1 : |round_double x| < pow2 1024)
    (h2 : ¬ (round_double x = 0 ∧ x < 0)) : Double.ofRat x = .fin (round_double x) := by
  unfold Double.ofRat
  simp only
  rw [if_neg (not_le.mpr h1), if_neg h2]

/-- The minus of a finite value that is not zero. -/
theorem Double.neg_fin (x : ℚ) (h : x ≠ 0) : Double.neg (.fin x) = .fin (-x) := by
  simp only [Double.neg, if_neg h]

/-- The sum of two finite values is the rounded exact sum. -/
theorem Double.add_fin (x y : ℚ) : Double.add (.fin x) (.fin y) = Double.ofRat (x + y) := rfl

/-- The difference of two finite values is the sum with the negated second. -/
theorem Double.sub_fin_fin (x y : ℚ) :
    Double.sub (.fin x) (.fin y) = Double.add (.fin x) (Double.neg (.fin y)) := rfl

/-- The difference of a finite `double` and one between zero and it: the rounded
difference, which lies between zero and the first. -/
theorem Double.sub_fin (r a : ℚ) (hr : isDouble r) (ha0 : 0 ≤ a) (har : a ≤ r) :
    Double.sub (.fin r) (.fin a) = .fin (round_double (r - a)) ∧
    isDouble (round_double (r - a)) ∧ 0 ≤ round_double (r - a) ∧
    round_double (r - a) ≤ r := by
  have h0 : 0 ≤ round_double (r - a) := round_double_nonneg _ (by linarith)
  have hle : round_double (r - a) ≤ r := round_double_le_of_le _ _ hr.1 (by linarith)
  have hr0 : 0 ≤ r := by linarith
  have hlt : |round_double (r - a)| < pow2 1024 := by
    rw [abs_of_nonneg h0]
    have := hr.2
    rw [abs_of_nonneg hr0] at this
    linarith
  refine ⟨?_, isDouble_round _ hlt, h0, hle⟩
  rcases eq_or_lt_of_le ha0 with hz | hpos
  · subst hz
    rw [sub_zero, hr.1, Double.sub_fin_fin]
    simp only [Double.neg, if_true, Double.add]
  · rw [Double.sub_fin_fin, Double.neg_fin a (ne_of_gt hpos), Double.add_fin,
      ← sub_eq_add_neg]
    exact Double.ofRat_fin _ hlt (fun h => by linarith [h.2])

/-- An amount that the extraction delivers and the loop does not refuse is a finite
positive `double`. -/
theorem cin_double_positive (q : ℚ) (entered : Double)
    (h : cin_double (some q) = some entered) (hpos : Double.le entered (.fin 0) = false) :
    entered = .fin (round_double q) ∧ 0 < round_double q ∧ isDouble (round_double q) := by
  unfold cin_double at h
  simp only at h
  unfold Double.ofRat at h
  simp only at h
  by_cases h1 : pow2 1024 ≤ |round_double q|
  · rw [if_pos h1] at h
    simp at h
  · rw [if_neg h1] at h
    by_cases h2 : round_double q = 0 ∧ q < 0
    · rw [if_pos h2] at h
      simp only [Option.some.injEq] at h
      rw [← h] at hpos
      simp [Double.le, Double.val] at hpos
    · rw [if_neg h2] at h
      simp only [Option.some.injEq] at h
      rw [← h] at hpos
      have hp : 0 < round_double q := by
        simp only [Double.le, Double.val, decide_eq_false_iff_not, not_le] at hpos
        exact hpos
      exact ⟨h.symm, hp, isDouble_round _ (not_le.mp h1)⟩

/-- An entry that does not pass the two checks leaves the locals unchanged. -/
theorem payment_step_d_rejected (remaining : Double) (payments : List PaymentD)
    (i : PayEntry) (h : accepted_d i = false) :
    payment_step_d remaining payments i = (remaining, payments) := by
  unfold accepted_d at h
  unfold payment_step_d
  cases hm : i.method with
  | none => rfl
  | some method =>
    rw [hm] at h
    simp only
    by_cases hbad : method < 1 ∨ method > 4
    · rw [if_pos hbad]
    · rw [if_neg hbad]
      cases hc : cin_double i.typed with
      | none => rfl
      | some entered =>
        rw [hc] at h
        simp only
        have h12 : 1 ≤ method ∧ method ≤ 4 := by omega
        simp only [h12, and_self, decide_True, Bool.true_and, Bool.not_eq_false'] at h
        rw [if_pos h]

/-- The comparison of two finite values. -/
theorem Double.lt_fin (x y : ℚ) : Double.lt (.fin x) (.fin y) = decide (x < y) := rfl

/-- An entry that passes the two checks, met with a finite amount due that is not negative:
the amount recorded is the rounded number typed, or the amount due when that is less; the
new amount due is the rounded difference. -/
theorem payment_step_d_accepted (r : ℚ) (hr : isDouble r) (hr0 : 0 ≤ r)
    (payments : List PaymentD) (i : PayEntry) (h : accepted_d i = true) :
    ∃ method q, i.method = some method ∧ i.typed = some q ∧ 0 < round_double q ∧
      isDouble (round_double q) ∧
      payment_step_d (.fin r) payments i =
        (.fin (round_double (r - min (round_double q) r)),
          payments ++ [PaymentD.mk method (.fin (min (round_double q) r))
            (if method ≠ CASH then i.reference else []) i.now]) := by
  unfold accepted_d at h
  cases hm : i.method with
  | none => rw [hm] at h; simp at h
  | some method =>
    rw [hm] at h
    cases ht : i.typed with
    | none =>
      rw [ht] at h
      have : cin_double none = none := rfl
      rw [this] at h
      simp at h
    | some q =>
      rw [ht] at h
      cases hc : cin_double (some q) with
      | none => rw [hc] at h; simp at h
      | some entered =>
        rw [hc] at h
        simp only [Bool.and_eq_true, decide_eq_true_eq, Bool.not_eq_true'] at h
        obtain ⟨h12, hpos⟩ := h
        obtain ⟨he, hq0, hqd⟩ := cin_double_positive q entered hc hpos
        refine ⟨method, q, rfl, rfl, hq0, hqd, ?_⟩
        have hbad : ¬ (method < 1 ∨ method > 4) := by omega
        have hcin : cin_double (some q) = some (.fin (round_double q)) := by
          rw [hc, he]
        have hle : Double.le (.fin (round_double q)) (.fin 0) = false := by
          rw [← he]; exact hpos
        have hmin0 : 0 ≤ min (round_double q) r := le_min hq0.le hr0
        have hsub := (Double.sub_fin r (min (round_double q) r) hr hmin0 (min_le_right _ _)).1
        have hamount : (if Double.lt (.fin r) (.fin (round_double q)) = true then Double.fin r
            else Double.fin (round_double q)) = Double.fin (min (round_double q) r) := by
          rw [Double.lt_fin]
          by_cases hlt : r < round_double q
          · rw [if_pos (by simpa using hlt), min_eq_right hlt.le]
          · rw [if_neg (by simpa using hlt), min_eq_left (not_lt.mp hlt)]
        unfold payment_step_d
        rw [hm]
        simp only
        rw [if_neg hbad, ht, hcin]
        simp only
        rw [hle]
        simp only [Bool.false_eq_true, if_false]
        rw [hamount, hsub]


/-! ## The payment loop in `double` arithmetic -/

/-- The literal `0.01` as a `double`. -/
theorem ofRat_0_01 : Double.ofRat (1 / 100) = .fin double_0_01 := by decide!

theorem double_0_01_bounds : (1 : ℚ) / 100 ≤ double_0_01 ∧ double_0_01 ≤ 1 / 99 := by
  unfold double_0_01; constructor <;> norm_num

/-- The guard of the loop for a finite amount due. -/
theorem guard_fin (r : ℚ) :
    Double.lt (Double.ofRat (1 / 100)) (.fin r) = decide (double_0_01 < r) := by
  rw [ofRat_0_01]; rfl

/-- The sum paid with one more payment at the end. -/
theorem paid_d_append (ps : List PaymentD) (p : PaymentD) :
    paid_d (ps ++ [p]) = paid_d ps + p.amount.val := by
  simp [paid_d, List.sum_append]

/-- Once no more than 0.01 is due, further console entries change nothing. -/
theorem foldl_payment_d_done (inputs : List PayEntry) :
    ∀ st : Double × List PaymentD, Double.lt (Double.ofRat (1 / 100)) st.1 = false →
      inputs.foldl
        (fun st i => if Double.lt (Double.ofRat (1 / 100)) st.1 then payment_step_d st.1 st.2 i
          else st) st = st := by
  induction inputs with
  | nil => intro st _; rfl
  | cons i rest ih =>
    intro st h
    rw [List.foldl_cons]
    simp only [h, Bool.false_eq_true, if_false]
    exact ih st h

/-- The loop of `process_payment` returns the payments of the state reached, when no more
than 0.01 is due then. -/
theorem process_payment_loop_d_eq_foldl (inputs : List PayEntry) :
    ∀ (remaining : Double) (payments : List PaymentD),
      process_payment_loop_d inputs remaining payments =
        if Double.lt (Double.ofRat (1 / 100)) (inputs.foldl
            (fun st i => if Double.lt (Double.ofRat (1 / 100)) st.1
              then payment_step_d st.1 st.2 i else st) (remaining, payments)).1
        then none
        else some (inputs.foldl
            (fun st i => if Double.lt (Double.ofRat (1 / 100)) st.1
              then payment_step_d st.1 st.2 i else st) (remaining, payments)).2 := by
  induction inputs with
  | nil =>
    intro remaining payments
    simp only [process_payment_loop_d, List.foldl_nil]
  | cons i rest ih =>
    intro remaining payments
    rw [process_payment_loop_d, List.foldl_cons]
    cases hr : Double.lt (Double.ofRat (1 / 100)) remaining with
    | true =>
      simp only [hr, if_true]
      exact ih _ _
    | false =>
      simp only [hr, Bool.false_eq_true, if_false]
      rw [foldl_payment_d_done rest (remaining, payments) hr]
      simp only [hr, Bool.false_eq_true, if_false]

/-- One pass through the loop body while more than 0.01 of a finite amount is due: the
amount due stays a finite `double` between zero and what it was, the amount recorded is
positive and at most what was due, and the new amount due is the exact difference up to
the fraction `2 ^ -53` of it. -/
theorem payment_step_d_invariant (r : ℚ) (hr : isDouble r) (hrun : double_0_01 < r)
    (payments : List PaymentD) (i : PayEntry) :
    payment_step_d (.fin r) payments i = (.fin r, payments) ∨
    ∃ r1 a method, isDouble r1 ∧ 0 ≤ r1 ∧ r1 ≤ r ∧ 0 < a ∧ a ≤ r ∧ isDouble a ∧
      |r1 - (r - a)| ≤ pow2 (-53) * (r - a) ∧
      (∀ q, i.typed = some q → a = min (round_double q) r) ∧
      accepted_d i = true ∧
      payment_step_d (.fin r) payments i =
        (.fin r1, payments ++ [PaymentD.mk method (.fin a)
          (if method ≠ CASH then i.reference else []) i.now]) := by
  have hr0 : 0 < r := lt_of_le_of_lt (by unfold double_0_01; norm_num) hrun
  cases hacc : accepted_d i with
  | false => exact Or.inl (payment_step_d_rejected _ _ i hacc)
  | true =>
    right
    obtain ⟨method, q, _, hq, hq0, hqd, hstep⟩ :=
      payment_step_d_accepted r hr hr0.le payments i hacc
    have ha0 : 0 < min (round_double q) r := lt_min hq0 hr0
    have har : min (round_double q) r ≤ r := min_le_right _ _
    have had : isDouble (min (round_double q) r) := by
      rcases min_choice (round_double q) r with h | h
      · rw [h]; exact hqd
      · rw [h]; exact hr
    obtain ⟨_, h1, h2, h3⟩ := Double.sub_fin r (min (round_double q) r) hr ha0.le har
    refine ⟨round_double (r - min (round_double q) r), min (round_double q) r, method,
      h1, h2, h3, ha0, har, had, ?_, ?_, rfl, hstep⟩
    · have := round_double_sub_error r (min (round_double q) r) hr.1 had.1
      rwa [abs_of_nonneg (by linarith : 0 ≤ r - min (round_double q) r)] at this
    · intro q1 hq1
      rw [hq] at hq1
      cases hq1
      rfl

/-- The invariant of the payment loop for a finite amount due `d` that is not negative:
after any console entries the amount due is a finite `double` between zero and `d`, every
recorded amount is positive and at most `d`, and the recorded amounts plus the amount due
differ from `d` by at most the fraction `2 ^ -53` of `d` for each payment. -/
theorem foldl_payment_d_invariant (d : ℚ) (inputs : List PayEntry) :
    ∀ st : Double × List PaymentD,
      (∃ r, st.1 = .fin r ∧ isDouble r ∧ 0 ≤ r ∧ r ≤ d ∧
        |d - (paid_d st.2 + r)| ≤ st.2.length * (pow2 (-53) * d)) →
      ∃ r, (inputs.foldl
          (fun st i => if Double.lt (Double.ofRat (1 / 100)) st.1
            then payment_step_d st.1 st.2 i else st) st).1 = .fin r ∧
        isDouble r ∧ 0 ≤ r ∧ r ≤ d ∧
        |d - (paid_d (inputs.foldl
            (fun st i => if Double.lt (Double.ofRat (1 / 100)) st.1
              then payment_step_d st.1 st.2 i else st) st).2 + r)| ≤
          (inputs.foldl
            (fun st i => if Double.lt (Double.ofRat (1 / 100)) st.1
              then payment_step_d st.1 st.2 i else st) st).2.length * (pow2 (-53) * d) := by
  induction inputs with
  | nil => intro st h; exact h
  | cons i rest ih =>
    intro st h
    rw [List.foldl_cons]
    apply ih
    obtain ⟨r, hst, hr, hr0, hrd, herr⟩ := h
    rw [hst, guard_fin]
    by_cases hrun : double_0_01 < r
    · simp only [hrun, decide_True, if_true]
      rcases payment_step_d_invariant r hr hrun st.2 i with hsame | ⟨r1, a, method, h1, h2, h3,
          h4, h5, h6, h7, _, _, hstep⟩
      · rw [hsame]
        exact ⟨r, rfl, hr, hr0, hrd, herr⟩
      · rw [hstep]
        refine ⟨r1, rfl, h1, h2, h3.trans hrd, ?_⟩
        simp only [paid_d_append, Double.val, List.length_append, List.length_singleton]
        push_cast
        have e1 : d - (paid_d st.2 + a + r1) = (d - (paid_d st.2 + r)) + ((r - a) - r1) := by
          ring
        rw [e1]
        have e2 : |(r - a) - r1| ≤ pow2 (-53) * d := by
          rw [abs_sub_comm]
          exact h7.trans (mul_le_mul_of_nonneg_left (by linarith) (pow2_pos _).le)
        calc |d - (paid_d st.2 + r) + (r - a - r1)|
            ≤ |d - (paid_d st.2 + r)| + |r - a - r1| := abs_add _ _
          _ ≤ st.2.length * (pow2 (-53) * d) + pow2 (-53) * d := add_le_add herr e2
          _ = (st.2.length + 1) * (pow2 (-53) * d) := by ring
    · simp only [hrun, decide_False, Bool.false_eq_true, if_false]
      exact ⟨r, hst, hr, hr0, hrd, herr⟩


/-- The state of the payment loop for a finite amount due that is not negative. -/
theorem payment_state_d_invariant (d : ℚ) (hd : isDouble d) (hd0 : 0 ≤ d)
    (inputs : List PayEntry) :
    ∃ r, (payment_state_d (.fin d) inputs).1 = .fin r ∧ isDouble r ∧ 0 ≤ r ∧ r ≤ d ∧
      |d - (paid_d (payment_state_d (.fin d) inputs).2 + r)| ≤
        (payment_state_d (.fin d) inputs).2.length * (pow2 (-53) * d) :=
  foldl_payment_d_invariant d inputs (.fin d, [])
    ⟨d, rfl, hd, hd0, le_refl _, by simp [paid_d]⟩

/-- What `process_payment` returns is the list of the state reached, and no more than 0.01
is due then. -/
theorem process_payment_d_returned (d : ℚ) (hd : isDouble d) (hd0 : 0 ≤ d)
    (inputs : List PayEntry) (ps : List PaymentD)
    (h : process_payment_d (.fin d) inputs = some ps) :
    ps = (payment_state_d (.fin d) inputs).2 ∧
    ∃ r, (payment_state_d (.fin d) inputs).1 = .fin r ∧ 0 ≤ r ∧ r ≤ double_0_01 ∧ r ≤ d ∧
      |d - (paid_d ps + r)| ≤ ps.length * (pow2 (-53) * d) := by
  obtain ⟨r, h1, _, h3, h4, h5⟩ := payment_state_d_invariant d hd hd0 inputs
  have hloop := process_payment_loop_d_eq_foldl inputs (.fin d) []
  have hstate : (inputs.foldl
      (fun st i => if Double.lt (Double.ofRat (1 / 100)) st.1
        then payment_step_d st.1 st.2 i else st) (Double.fin d, [])) =
      payment_state_d (.fin d) inputs := rfl
  rw [hstate, h1, guard_fin] at hloop
  unfold process_payment_d at h
  rw [hloop] at h
  by_cases hrun : double_0_01 < r
  · simp only [hrun, decide_True, if_true] at h
    cases h
  · simp only [hrun, decide_False, Bool.false_eq_true, if_false, Option.some.injEq] at h
    refine ⟨h.symm, r, h1, h3, not_lt.mp hrun, h4, ?_⟩
    rw [← h]
    exact h5

/-- With no more than 0.01 due nothing is collected. -/
theorem process_payment_d_nothing_due (d : ℚ) (h : d ≤ double_0_01) (inputs : List PayEntry) :
    process_payment_d (.fin d) inputs = some [] := by
  unfold process_payment_d
  have hg : Double.lt (Double.ofRat (1 / 100)) (.fin d) = false := by
    rw [guard_fin]
    simp only [decide_eq_false_iff_not, not_lt]
    exact h
  rw [process_payment_loop_d_eq_foldl, foldl_payment_d_done inputs _ hg]
  simp only [hg, Bool.false_eq_true, if_false]

/-- C29, amended. No over-collection, in `double` arithmetic: for every finite amount due
`D ≥ 0` and every console input, after every number of entries the amount still due is
`≥ 0` and at most `D`, and the sum of the recorded amounts plus the amount still due equals
`D` up to the rounding of the subtractions, at most `D * 2 ^ -53` for each recorded payment;
so the sum collected exceeds `D` by at most that, and what `process_payment` returns falls
short of `D` by at most 0.01 (the `double` of the loop guard) plus that; the returned list
is empty exactly when `D` is at most that `double`. -/
theorem no_over_collection_double (d : ℚ) (hd : isDouble d) (hd0 : 0 ≤ d)
    (inputs : List PayEntry) :
    (∃ r, (payment_state_d (.fin d) inputs).1 = .fin r ∧ 0 ≤ r ∧ r ≤ d ∧
      |d - (paid_d (payment_state_d (.fin d) inputs).2 + r)| ≤
        (payment_state_d (.fin d) inputs).2.length * (pow2 (-53) * d) ∧
      paid_d (payment_state_d (.fin d) inputs).2 ≤
        d + (payment_state_d (.fin d) inputs).2.length * (pow2 (-53) * d) ∧
      process_payment_d (.fin d) inputs =
        if double_0_01 < r then none else some (payment_state_d (.fin d) inputs).2) ∧
    (∀ ps, process_payment_d (.fin d) inputs = some ps →
      paid_d ps ≤ d + ps.length * (pow2 (-53) * d) ∧
      d - paid_d ps ≤ double_0_01 + ps.length * (pow2 (-53) * d) ∧
      (ps = [] ↔ d ≤ double_0_01)) := by
  constructor
  · obtain ⟨r, h1, _, h3, h4, h5⟩ := payment_state_d_invariant d hd hd0 inputs
    refine ⟨r, h1, h3, h4, h5, ?_, ?_⟩
    · have := (abs_le.mp h5).1
      linarith
    · have hloop := process_payment_loop_d_eq_foldl inputs (.fin d) []
      have hstate : (inputs.foldl
          (fun st i => if Double.lt (Double.ofRat (1 / 100)) st.1
            then payment_step_d st.1 st.2 i else st) (Double.fin d, [])) =
          payment_state_d (.fin d) inputs := rfl
      rw [hstate, h1, guard_fin] at hloop
      unfold process_payment_d
      rw [hloop]
      by_cases hrun : double_0_01 < r
      · simp only [hrun, decide_True, if_true]
      · simp only [hrun, decide_False, Bool.false_eq_true, if_false]
  · intro ps hps
    obtain ⟨_, r, _, hr0, hr1, _, herr⟩ := process_payment_d_returned d hd hd0 inputs ps hps
    have h1 := (abs_le.mp herr).1
    have h2 := (abs_le.mp herr).2
    refine ⟨by linarith, by linarith, ?_, ?_⟩
    · intro he
      rw [he] at herr
      simp only [paid_d, List.map_nil, List.sum_nil, zero_add, List.length_nil,
        Nat.cast_zero, zero_mul] at herr
      have : d - r = 0 := abs_nonpos_iff.mp herr
      linarith
    · intro hle
      have := process_payment_d_nothing_due d hle inputs
      rw [hps] at this
      exact Option.some.inj this

/-- For 790 due: 500 by card, a rejected entry, then 300 in cash of which 290 are recorded;
the two payments add up to 790. -/
theorem no_over_collection_double_witness :
    process_payment_d (.fin 790)
        [{ method := some 2, typed := some 500, reference := "R1".toList },
         { method := some 7, typed := some 5 }, { method := some 1, typed := some 300 }] =
      some [PaymentD.mk 2 (.fin 500) "R1".toList 0, PaymentD.mk 1 (.fin 290) [] 0] ∧
    paid_d [PaymentD.mk 2 (.fin 500) "R1".toList 0, PaymentD.mk 1 (.fin 290) [] 0] ≤
      790 + ([PaymentD.mk 2 (.fin 500) "R1".toList 0,
              PaymentD.mk 1 (.fin 290) [] 0] : List PaymentD).length * (pow2 (-53) * 790) :=
  have h : process_payment_d (.fin 790)
        [{ method := some 2, typed := some 500, reference := "R1".toList },
         { method := some 7, typed := some 5 }, { method := some 1, typed := some 300 }] =
      some [PaymentD.mk 2 (.fin 500) "R1".toList 0, PaymentD.mk 1 (.fin 290) [] 0] := by
    decide!
  ⟨h, ((no_over_collection_double 790 (by decide!) (by norm_num) _).2 _ h).1⟩

/-- C29 as stated fails in the program's arithmetic: a sale with subtotal 1 has the net
total 1.05 (the `double` nearest to it); 0.1 is paid and then the rest; the difference
`1.05 - 0.1` is rounded up, and the two recorded amounts add up to more than the amount
due, by `2 ^ -55`. -/
theorem collection_exceeds_amount_due :
    net_total_d (.fin 1) = .fin (4728779608739021 / 4503599627370496) ∧
    process_payment_d (.fin (4728779608739021 / 4503599627370496))
        [{ method := some 1, typed := some (1 / 10) },
         { method := some 1, typed := some 5 }] =
      some [PaymentD.mk 1 (.fin (3602879701896397 / 36028797018963968)) [] 0,
            PaymentD.mk 1 (.fin (8556839292003943 / 9007199254740992)) [] 0] ∧
    paid_d [PaymentD.mk 1 (.fin (3602879701896397 / 36028797018963968)) [] 0,
            PaymentD.mk 1 (.fin (8556839292003943 / 9007199254740992)) [] 0] -
      4728779608739021 / 4503599627370496 = 1 / 2 ^ 55 := by
  refine ⟨by decide!, by decide!, by decide!⟩


/-- C3, amended. Payment completeness, in `double` arithmetic: for every finite amount due
`D ≥ 0` and every console input on which `process_payment(D)` returns, the sum of the
amounts of the returned payments equals `D` within 0.01 (the `double` of the loop guard)
plus the rounding of the subtractions, which is at most `D * 2 ^ -53` for each returned
payment. -/
theorem payment_completeness_double (d : ℚ) (hd : isDouble d) (hd0 : 0 ≤ d)
    (inputs : List PayEntry) (ps : List PaymentD)
    (h : process_payment_d (.fin d) inputs = some ps) :
    |d - paid_d ps| ≤ double_0_01 + ps.length * (pow2 (-53) * d) := by
  obtain ⟨_, r, _, hr0, hr1, _, herr⟩ := process_payment_d_returned d hd hd0 inputs ps h
  have h1 := (abs_le.mp herr).1
  have h2 := (abs_le.mp herr).2
  have hn : 0 ≤ (ps.length : ℚ) * (pow2 (-53) * d) :=
    mul_nonneg (Nat.cast_nonneg _) (mul_nonneg (pow2_pos _).le hd0)
  have hc : (0 : ℚ) ≤ double_0_01 := by unfold double_0_01; norm_num
  rw [abs_le]
  constructor <;> linarith

/-- For 790 due, paid as 500 and 290, the sum is 790. -/
theorem payment_completeness_double_witness :
    process_payment_d (.fin 790)
        [{ method := some 2, typed := some 500, reference := "R1".toList },
         { method := some 1, typed := some 300 }] =
      some [PaymentD.mk 2 (.fin 500) "R1".toList 0, PaymentD.mk 1 (.fin 290) [] 0] ∧
    |(790 : ℚ) - paid_d [PaymentD.mk 2 (.fin 500) "R1".toList 0,
        PaymentD.mk 1 (.fin 290) [] 0]| ≤
      double_0_01 + ([PaymentD.mk 2 (.fin 500) "R1".toList 0,
        PaymentD.mk 1 (.fin 290) [] 0] : List PaymentD).length * (pow2 (-53) * 790) :=
  have h : process_payment_d (.fin 790)
        [{ method := some 2, typed := some 500, reference := "R1".toList },
         { method := some 1, typed := some 300 }] =
      some [PaymentD.mk 2 (.fin 500) "R1".toList 0, PaymentD.mk 1 (.fin 290) [] 0] := by
    decide!
  ⟨h, payment_completeness_double 790 (by decide!) (by norm_num) _ _ h⟩

/-- C3 as stated fails in the program's arithmetic: a sale with subtotal `10 ^ 17` has the
net total 104999999999999952 (the neighbouring values of the type are 16 apart); 9 is paid,
the difference is rounded down to 104999999999999936, and that amount is paid next;
`process_payment` returns the two payments, whose sum falls short of the amount due by 7. -/
theorem payment_completeness_fails_by_rounding :
    net_total_d (.fin 100000000000000000) = .fin 104999999999999952 ∧
    process_payment_d (.fin 104999999999999952)
        [{ method := some 1, typed := some 9 },
         { method := some 1, typed := some 1000000000000000000 }] =
      some [PaymentD.mk 1 (.fin 9) [] 0, PaymentD.mk 1 (.fin 104999999999999936) [] 0] ∧
    (104999999999999952 : ℚ) -
      paid_d [PaymentD.mk 1 (.fin 9) [] 0, PaymentD.mk 1 (.fin 104999999999999936) [] 0] =
      7 := by
  refine ⟨by decide!, by decide!, by decide!⟩

/-! ## Termination of the payment loop in `double` arithmetic -/

/-- One pass through the loop body while more than 0.01 is due, with every accepted entry
at least `eps`: a rejected entry changes nothing; an accepted entry records one payment and
brings the amount due to at most 0.01 or at least `eps - D * 2 ^ -53` further down. -/
theorem payment_step_d_potential (d eps : ℚ) (N : Nat) (r : ℚ) (ps : List PaymentD) (m : Nat)
    (i : PayEntry) (hr : isDouble r) (hrd : r ≤ d) (hrun : double_0_01 < r)
    (hpot : r + ((N : ℚ) - m) * (eps - pow2 (-53) * d) ≤ d)
    (hB : d - N * (eps - pow2 (-53) * d) ≤ double_0_01)
    (heps : accepted_d i = true → ∀ q, i.typed = some q → eps ≤ round_double q) :
    (accepted_d i = false ∧ payment_step_d (.fin r) ps i = (.fin r, ps)) ∨
    (accepted_d i = true ∧ 1 ≤ m ∧ ∃ r1 p, payment_step_d (.fin r) ps i = (.fin r1, ps ++ [p]) ∧
      isDouble r1 ∧ 0 ≤ r1 ∧ r1 ≤ d ∧
      (r1 ≤ double_0_01 ∨ r1 + ((N : ℚ) - (m - 1 : Nat)) * (eps - pow2 (-53) * d) ≤ d)) := by
  have hr0 : 0 ≤ r := le_trans (by unfold double_0_01; norm_num) hrun.le
  cases hacc : accepted_d i with
  | false => exact Or.inl ⟨rfl, payment_step_d_rejected _ _ i hacc⟩
  | true =>
    right
    have hm1 : 1 ≤ m := by
      by_contra hc
      have : m = 0 := by omega
      subst this
      simp only [Nat.cast_zero, sub_zero] at hpot
      linarith
    refine ⟨rfl, hm1, ?_⟩
    obtain ⟨method, q, _, hq, hq0, hqd, hstep⟩ := payment_step_d_accepted r hr hr0 ps i hacc
    have hge := heps hacc q hq
    have hmin0 : 0 ≤ min (round_double q) r := le_min hq0.le hr0
    have had : isDouble (min (round_double q) r) := by
      rcases min_choice (round_double q) r with h | h
      · rw [h]; exact hqd
      · rw [h]; exact hr
    obtain ⟨_, h1, h2, h3⟩ :=
      Double.sub_fin r (min (round_double q) r) hr hmin0 (min_le_right _ _)
    refine ⟨_, _, hstep, h1, h2, h3.trans hrd, ?_⟩
    by_cases hlt : r < round_double q
    · left
      rw [min_eq_right hlt.le, sub_self, round_double_zero]
      unfold double_0_01; norm_num
    · right
      rw [min_eq_left (not_lt.mp hlt)]
      have herr := round_double_sub_error r (round_double q) hr.1 hqd.1
      rw [abs_of_nonneg (by linarith [not_lt.mp hlt] : 0 ≤ r - round_double q)] at herr
      have hub := (abs_le.mp herr).2
      have hu : pow2 (-53) * (r - round_double q) ≤ pow2 (-53) * d :=
        mul_le_mul_of_nonneg_left (by linarith) (pow2_pos _).le
      have hcast : ((m - 1 : Nat) : ℚ) = (m : ℚ) - 1 := by
        rw [Nat.cast_sub hm1]; simp
      rw [hcast]
      have : round_double (r - round_double q) ≤ r - eps + pow2 (-53) * d := by linarith
      nlinarith

/-- With `m` accepted entries still to come the loop returns: the amount due is at most
0.01, or lies at most `m` guaranteed decreases above the level at which the loop ends. -/
theorem process_payment_loop_d_returns (d eps : ℚ) (N : Nat)
    (hB : d - N * (eps - pow2 (-53) * d) ≤ double_0_01) (inputs : List PayEntry) :
    ∀ (r : ℚ) (ps : List PaymentD) (m : Nat), isDouble r → r ≤ d →
      (r ≤ double_0_01 ∨ r + ((N : ℚ) - m) * (eps - pow2 (-53) * d) ≤ d) →
      (∀ i ∈ inputs, accepted_d i = true → ∀ q, i.typed = some q → eps ≤ round_double q) →
      m ≤ (inputs.filter accepted_d).length →
      ∃ ps1, process_payment_loop_d inputs (.fin r) ps = some ps1 := by
  induction inputs with
  | nil =>
    intro r ps m hr hrd hpot _ hm
    simp only [List.filter_nil, List.length_nil, Nat.le_zero_eq] at hm
    subst hm
    have hle : r ≤ double_0_01 := by
      rcases hpot with h | h
      · exact h
      · simp only [Nat.cast_zero, sub_zero] at h; linarith
    unfold process_payment_loop_d
    rw [guard_fin, decide_eq_false (not_lt.mpr hle)]
    exact ⟨ps, rfl⟩
  | cons i rest ih =>
    intro r ps m hr hrd hpot hall hm
    unfold process_payment_loop_d
    rw [guard_fin]
    by_cases hrun : double_0_01 < r
    · rw [decide_eq_true hrun]
      simp only [if_true]
      have hpot2 : r + ((N : ℚ) - m) * (eps - pow2 (-53) * d) ≤ d := by
        rcases hpot with h | h
        · exact absurd hrun (not_lt.mpr h)
        · exact h
      have hrest : ∀ j ∈ rest, accepted_d j = true → ∀ q, j.typed = some q →
          eps ≤ round_double q := fun j hj => hall j (List.mem_cons_of_mem _ hj)
      rcases payment_step_d_potential d eps N r ps m i hr hrd hrun hpot2 hB
          (hall i (List.mem_cons_self _ _)) with
        ⟨hrej, hsame⟩ | ⟨hacc, hm1, r1, p, hstep, h1, _, h3, h4⟩
      · rw [hsame]
        apply ih r ps m hr hrd (Or.inr hpot2) hrest
        simpa [List.filter_cons, hrej] using hm
      · rw [hstep]
        have hcount : m - 1 ≤ (rest.filter accepted_d).length := by
          have : ((i :: rest).filter accepted_d).length =
              (rest.filter accepted_d).length + 1 := by
            simp [List.filter_cons, hacc]
          omega
        exact ih r1 _ (m - 1) h1 h3 h4 hrest hcount
    · rw [decide_eq_false hrun]
      exact ⟨ps, rfl⟩

/-- What the loop returns holds at most `m` payments more than it started with. -/
theorem process_payment_loop_d_length (d eps : ℚ) (N : Nat)
    (hB : d - N * (eps - pow2 (-53) * d) ≤ double_0_01) (inputs : List PayEntry) :
    ∀ (r : ℚ) (ps ps1 : List PaymentD) (m : Nat), isDouble r → r ≤ d →
      (r ≤ double_0_01 ∨ r + ((N : ℚ) - m) * (eps - pow2 (-53) * d) ≤ d) →
      (∀ i ∈ inputs, accepted_d i = true → ∀ q, i.typed = some q → eps ≤ round_double q) →
      process_payment_loop_d inputs (.fin r) ps = some ps1 →
      ps1.length ≤ ps.length + m := by
  induction inputs with
  | nil =>
    intro r ps ps1 m hr hrd hpot _ h
    unfold process_payment_loop_d at h
    rw [guard_fin] at h
    by_cases hrun : double_0_01 < r
    · rw [decide_eq_true hrun] at h
      simp at h
    · rw [decide_eq_false hrun] at h
      simp only [Bool.false_eq_true, if_false, Option.some.injEq] at h
      rw [← h]
      omega
  | cons i rest ih =>
    intro r ps ps1 m hr hrd hpot hall h
    unfold process_payment_loop_d at h
    rw [guard_fin] at h
    by_cases hrun : double_0_01 < r
    · rw [decide_eq_true hrun] at h
      simp only [if_true] at h
      have hpot2 : r + ((N : ℚ) - m) * (eps - pow2 (-53) * d) ≤ d := by
        rcases hpot with h | h
        · exact absurd hrun (not_lt.mpr h)
        · exact h
      have hrest : ∀ j ∈ rest, accepted_d j = true → ∀ q, j.typed = some q →
          eps ≤ round_double q := fun j hj => hall j (List.mem_cons_of_mem _ hj)
      rcases payment_step_d_potential d eps N r ps m i hr hrd hrun hpot2 hB
          (hall i (List.mem_cons_self _ _)) with
        ⟨_, hsame⟩ | ⟨_, hm1, r1, p, hstep, h1, _, h3, h4⟩
      · rw [hsame] at h
        exact ih r ps ps1 m hr hrd (Or.inr hpot2) hrest h
      · rw [hstep] at h
        have := ih r1 _ ps1 (m - 1) h1 h3 h4 hrest h
        simp only [List.length_append, List.length_singleton] at this
        omega
    · rw [decide_eq_false hrun] at h
      simp only [Bool.false_eq_true, if_false, Option.some.injEq] at h
      rw [← h]
      omega


/-- C12, amended. Payment collection in `double` arithmetic. While a finite amount `r ≥ 0`
is due, a rejected entry leaves the locals unchanged, and an accepted entry records one
payment of an amount `a` with `0 ≤ a ≤ r` and leaves as remaining amount the `double`
nearest to `r - a`, which lies in `[0, r]` and within `(r - a) * 2 ^ -53` of `r - a` (it
need not be below `r`). For a finite amount due `D ≥ 0` and `eps > 0`, when every accepted
amount is at least `eps` and `ceil(D / eps) * D` is at most `2 ^ 53 / 100`, the loop
returns as soon as the input holds `ceil(D / eps)` accepted entries, and what it returns
holds at most `ceil(D / eps)` payments. -/
theorem payment_collection_terminates_double (d eps : ℚ) (hd : isDouble d)
    (heps : 0 < eps) (hN : (⌈d / eps⌉₊ : ℚ) * d ≤ pow2 53 / 100) (inputs : List PayEntry)
    (hall : ∀ i ∈ inputs, accepted_d i = true → ∀ q, i.typed = some q →
      eps ≤ round_double q) :
    (∀ (r : ℚ) (ps : List PaymentD) (i : PayEntry), isDouble r → 0 ≤ r →
      (accepted_d i = false → payment_step_d (.fin r) ps i = (.fin r, ps)) ∧
      (accepted_d i = true → ∃ a r1 p,
        payment_step_d (.fin r) ps i = (.fin r1, ps ++ [p]) ∧ p.amount = .fin a ∧
        0 ≤ a ∧ a ≤ r ∧ r1 = round_double (r - a) ∧ isDouble r1 ∧ 0 ≤ r1 ∧ r1 ≤ r ∧
        |r1 - (r - a)| ≤ pow2 (-53) * (r - a))) ∧
    (⌈d / eps⌉₊ ≤ (inputs.filter accepted_d).length →
      ∃ ps, process_payment_d (.fin d) inputs = some ps) ∧
    (∀ ps, process_payment_d (.fin d) inputs = some ps → ps.length ≤ ⌈d / eps⌉₊) := by
  have hc : (1 : ℚ) / 100 ≤ double_0_01 := by unfold double_0_01; norm_num
  have hp : pow2 53 * pow2 (-53) = 1 := by
    rw [← pow2_add]; exact pow2_zero
  have hceil : d ≤ (⌈d / eps⌉₊ : ℚ) * eps := by
    have := Nat.le_ceil (d / eps)
    rwa [div_le_iff₀ heps] at this
  have hB : d - (⌈d / eps⌉₊ : ℚ) * (eps - pow2 (-53) * d) ≤ double_0_01 := by
    have h1 : (⌈d / eps⌉₊ : ℚ) * d * pow2 (-53) ≤ pow2 53 / 100 * pow2 (-53) :=
      mul_le_mul_of_nonneg_right hN (pow2_pos _).le
    have h2 : pow2 53 / 100 * pow2 (-53) = 1 / 100 := by
      rw [div_mul_eq_mul_div, hp]
    nlinarith
  refine ⟨?_, ?_, ?_⟩
  · intro r ps i hr hr0
    refine ⟨fun h => payment_step_d_rejected _ _ i h, fun hacc => ?_⟩
    obtain ⟨method, q, _, _, hq0, hqd, hstep⟩ := payment_step_d_accepted r hr hr0 ps i hacc
    have hmin0 : 0 ≤ min (round_double q) r := le_min hq0.le hr0
    obtain ⟨_, h1, h2, h3⟩ :=
      Double.sub_fin r (min (round_double q) r) hr hmin0 (min_le_right _ _)
    have had : isDouble (min (round_double q) r) := by
      rcases min_choice (round_double q) r with h | h
      · rw [h]; exact hqd
      · rw [h]; exact hr
    refine ⟨_, _, _, hstep, rfl, hmin0, min_le_right _ _, rfl, h1, h2, h3, ?_⟩
    have herr := round_double_sub_error r (min (round_double q) r) hr.1 had.1
    rwa [abs_of_nonneg (by linarith [min_le_right (round_double q) r] :
      0 ≤ r - min (round_double q) r)] at herr
  · intro hcount
    exact process_payment_loop_d_returns d eps _ hB inputs d [] _ hd le_rfl
      (Or.inr (by rw [sub_self, zero_mul, add_zero])) hall hcount
  · intro ps hps
    have := process_payment_loop_d_length d eps _ hB inputs d [] ps _ hd le_rfl
      (Or.inr (by rw [sub_self, zero_mul, add_zero])) hall hps
    simpa using this

/-- For 790 due and entries of 500 and 300, each at least 290: `ceil(790 / 290) = 3`, and
the loop returns two payments. -/
theorem payment_collection_terminates_double_witness :
    ⌈(790 : ℚ) / 290⌉₊ = 3 ∧
    process_payment_d (.fin 790)
        [{ method := some 2, typed := some 500 }, { method := some 1, typed := some 300 }] =
      some [PaymentD.mk 2 (.fin 500) [] 0, PaymentD.mk 1 (.fin 290) [] 0] ∧
    ([PaymentD.mk 2 (.fin 500) [] 0, PaymentD.mk 1 (.fin 290) [] 0] : List PaymentD).length ≤
      ⌈(790 : ℚ) / 290⌉₊ :=
  have h : process_payment_d (.fin 790)
        [{ method := some 2, typed := some 500 }, { method := some 1, typed := some 300 }] =
      some [PaymentD.mk 2 (.fin 500) [] 0, PaymentD.mk 1 (.fin 290) [] 0] := by
    decide!
  have hc : ⌈(790 : ℚ) / 290⌉₊ = 3 := by
    rw [Nat.ceil_eq_iff (by norm_num)]
    norm_num
  ⟨hc, h, (payment_collection_terminates_double 790 290 (by decide!)
    (by norm_num)
    (by rw [hc, (by decide! : pow2 53 = 9007199254740992)]; norm_num) _
    (by
      intro i hi _ q hq
      simp only [List.mem_cons, List.mem_singleton, List.not_mem_nil, or_false] at hi
      rcases hi with rfl | rfl
      · have : q = 500 := by simpa using hq.symm
        subst this
        have : round_double 500 = 500 := by decide!
        rw [this]; norm_num
      · have : q = 300 := by simpa using hq.symm
        subst this
        have : round_double 300 = 300 := by decide!
        rw [this]; norm_num)).2.2 _ h⟩

/-- The entry of the counterexample: 0.00000000000000000001 in cash. -/
theorem tiny_entry_step (ps : List PaymentD) :
    payment_step_d (.fin 100) ps { method := some 1, typed := some (1 / 10 ^ 20) } =
      (.fin 100, ps ++ [PaymentD.mk 1 (Double.ofRat (1 / 10 ^ 20)) [] 0]) := by
  have h1 : cin_double (some ((1 : ℚ) / 10 ^ 20)) = some (Double.ofRat (1 / 10 ^ 20)) := by
    decide!
  have h2 : Double.le (Double.ofRat (1 / 10 ^ 20)) (.fin 0) = false := by decide!
  have h3 : Double.lt (.fin 100) (Double.ofRat (1 / 10 ^ 20)) = false := by decide!
  have h4 : Double.sub (.fin 100) (Double.ofRat (1 / 10 ^ 20)) = .fin 100 := by decide!
  unfold payment_step_d
  simp only [h1, h2, h3, Bool.false_eq_true, if_false, h4, ite_self]
  rw [if_neg (by decide)]

/-- With 100 due, entries of 0.00000000000000000001 never end the loop. -/
theorem tiny_entries_loop (n : Nat) : ∀ ps : List PaymentD,
    process_payment_loop_d
      (List.replicate n { method := some 1, typed := some (1 / 10 ^ 20) }) (.fin 100) ps =
      none := by
  have hg : Double.lt (Double.ofRat (1 / 100)) (.fin 100) = true := by decide!
  induction n with
  | zero =>
    intro ps
    rw [List.replicate_zero, process_payment_loop_d, hg]
    rfl
  | succ n ih =>
    intro ps
    rw [List.replicate_succ, process_payment_loop_d, hg, tiny_entry_step]
    exact ih _

/-- C12 as stated fails in the program's arithmetic: with 100 due, an entry of
0.00000000000000000001 is accepted and recorded as a payment of a positive amount, and the
remaining amount is 100 as before, since `100 - 1e-20` rounds to 100; every accepted amount
is then at least `eps = 1e-21`, and the loop has not returned after any number of such
entries, in particular not after `ceil(100 / eps) = 10 ^ 23` of them. -/
theorem payment_loop_makes_no_progress :
    accepted_d { method := some 1, typed := some (1 / 10 ^ 20) } = true ∧
    (1 : ℚ) / 10 ^ 21 ≤ round_double (1 / 10 ^ 20) ∧
    payment_step_d (.fin 100) [] { method := some 1, typed := some (1 / 10 ^ 20) } =
      (.fin 100, [PaymentD.mk 1 (.fin (round_double (1 / 10 ^ 20))) [] 0]) ∧
    ⌈(100 : ℚ) / (1 / 10 ^ 21)⌉₊ = 10 ^ 23 ∧
    ∀ n, process_payment_d (.fin 100)
      (List.replicate n { method := some 1, typed := some (1 / 10 ^ 20) }) = none := by
  refine ⟨by decide!, by decide!, ?_, ?_, fun n => tiny_entries_loop n []⟩
  · rw [tiny_entry_step]
    have : Double.ofRat (1 / 10 ^ 20) = .fin (round_double (1 / 10 ^ 20)) := by decide!
    rw [this]
    rfl
  · rw [Nat.ceil_eq_iff (by norm_num)]
    norm_num


/-! ## The menu loop in `double` arithmetic -/

/-- The add branch either rejects the entry or decrements the stock of the record found,
appends the cart line and adds the rounded product to the subtotal. -/
theorem add_to_bill_d_cases (s : BillStateD) (choice : Int) (i : BillInput) :
    add_to_bill_d s choice i = s ∨
    ∃ q r, i.q = some q ∧ 0 < q ∧
      s.inv[(lookup_index_d s.inv choice i.input).toNat]? = some r ∧ q ≤ r.qty ∧
      add_to_bill_d s choice i =
        { s with
          inv := s.inv.set (lookup_index_d s.inv choice i.input).toNat
            { r with qty := r.qty - q },
          sold_items := s.sold_items ++ [({ r with qty := r.qty - q }, q)],
          total := Double.add s.total (Double.mul r.rate (Double.ofInt q)),
          world := (save_inventory_d
            (s.inv.set (lookup_index_d s.inv choice i.input).toNat
              { r with qty := r.qty - q })
            i.canWrite s.world).2 } := by
  unfold add_to_bill_d
  by_cases h1 : i.input = []
  · left; simp [h1]
  · cases hq : i.q with
    | none => left; simp [h1]
    | some q =>
      by_cases h2 : q ≤ 0
      · left; simp [h1, h2]
      · by_cases h3 : lookup_index_d s.inv choice i.input < 0
        · left; simp [h1, h2, h3]
        · cases hr : s.inv[(lookup_index_d s.inv choice i.input).toNat]? with
          | none => left; simp [h1, h2, h3, hr]
          | some r =>
            by_cases h4 : r.qty < q
            · left; simp [h1, h2, h3, hr, h4]
            · right
              refine ⟨q, r, rfl, not_le.mp h2, rfl, not_lt.mp h4, ?_⟩
              simp [h1, h2, h3, hr, h4]

/-- The loyalty branch changes nothing when the offer is refused. -/
theorem apply_loyalty_d_refused (s : BillStateD) (i : BillInput)
    (h : ¬ (i.apply = 'y' ∨ i.apply = 'Y')) : apply_loyalty_d s i = s := by
  unfold apply_loyalty_d
  cases hk : s.customer_obj with
  | none => rfl
  | some k =>
    simp only
    cases hc : s.customers[k]? with
    | none => rfl
    | some c =>
      simp only
      by_cases hp : Double.lt (.fin 0) c.loyalty_points = true
      · rw [if_pos hp, if_neg h]
      · rw [if_neg hp]

/-- An iteration that leaves the loop running has changed nothing, or added a line, or
handled the loyalty discount. -/
theorem bill_step_d_running_cases (s t : BillStateD) (i : BillInput)
    (h : bill_step_d s i = .running t) :
    t = s ∨ (∃ choice, i.choice = some choice ∧ (choice = 1 ∨ choice = 2) ∧
      t = add_to_bill_d s choice i) ∨ (i.choice = some 4 ∧ t = apply_loyalty_d s i) := by
  unfold bill_step_d at h
  cases hc : i.choice with
  | none =>
    rw [hc] at h
    simp only [OutcomeD.running.injEq] at h
    exact Or.inl h.symm
  | some choice =>
    rw [hc] at h
    simp only at h
    by_cases h12 : choice = 1 ∨ choice = 2
    · rw [if_pos h12] at h
      simp only [OutcomeD.running.injEq] at h
      exact Or.inr (Or.inl ⟨choice, rfl, h12, h.symm⟩)
    · rw [if_neg h12] at h
      by_cases h3 : choice = 3
      · rw [if_pos h3] at h
        simp only [OutcomeD.running.injEq] at h
        exact Or.inl h.symm
      · rw [if_neg h3] at h
        by_cases h4 : choice = 4
        · rw [if_pos h4] at h
          simp only [OutcomeD.running.injEq] at h
          exact Or.inr (Or.inr ⟨by rw [h4], h.symm⟩)
        · rw [if_neg h4] at h
          by_cases h5 : choice = 5
          · rw [if_pos h5] at h
            by_cases he : s.sold_items = []
            · rw [if_pos he] at h
              simp only [OutcomeD.running.injEq] at h
              exact Or.inl h.symm
            · rw [if_neg he] at h
              cases h
          · rw [if_neg h5] at h
            by_cases h6 : choice = 6
            · rw [if_pos h6] at h
              cases h
            · rw [if_neg h6] at h
              simp only [OutcomeD.running.injEq] at h
              exact Or.inl h.symm

/-- An invariant of the iterations that leave the loop running holds after any number of
them. -/
theorem open_after_d_induction (P : BillStateD → Prop)
    (hstep : ∀ s t i, P s → bill_step_d s i = .running t → P t) (entries : List BillInput) :
    ∀ s t : BillStateD, P s → open_after_d entries s = some t → P t := by
  induction entries with
  | nil =>
    intro s t hs h
    simp only [open_after_d, Option.some.injEq] at h
    rw [← h]; exact hs
  | cons i more ih =>
    intro s t hs h
    unfold open_after_d at h
    cases hst : bill_step_d s i with
    | running s1 =>
      rw [hst] at h
      exact ih s1 t (hstep s s1 i hs hst) h
    | close s1 => rw [hst] at h; cases h
    | cancelled s1 => rw [hst] at h; cases h

/-- The checkout starts with an empty cart, a subtotal of zero and the loaded catalog. -/
theorem resolve_customer_d_cart (inv : List ItemRecD) (w : World) (ses : SessionD) :
    (resolve_customer_d inv w ses).sold_items = [] ∧
    (resolve_customer_d inv w ses).total = .fin 0 ∧
    (resolve_customer_d inv w ses).inv = inv := by
  unfold resolve_customer_d
  simp only
  by_cases hp : ses.phone = []
  · rw [if_pos hp]; exact ⟨rfl, rfl, rfl⟩
  · rw [if_neg hp]
    cases find_customer_by_phone_d (load_customers_d w) ses.phone with
    | none =>
      simp only
      by_cases hn : ses.new_name ≠ []
      · rw [if_pos hn]; exact ⟨rfl, rfl, rfl⟩
      · rw [if_neg hn]; exact ⟨rfl, rfl, rfl⟩
    | some k =>
      simp only
      cases (load_customers_d w)[k]? <;> exact ⟨rfl, rfl, rfl⟩

/-! ## Cart accumulation in `double` arithmetic -/

/-- The running subtotal of a cart with one more line. -/
theorem cart_total_d_append (cart : List (ItemRecD × Int)) (it : ItemRecD × Int) :
    cart_total_d (cart ++ [it]) =
      Double.add (cart_total_d cart) (Double.mul it.1.rate (Double.ofInt it.2)) := by
  simp [cart_total_d, List.foldl_append]

/-- The add branch keeps the subtotal equal to the running subtotal of the cart. -/
theorem add_to_bill_d_total (s : BillStateD) (choice : Int) (i : BillInput)
    (h : s.total = cart_total_d s.sold_items) :
    (add_to_bill_d s choice i).total = cart_total_d (add_to_bill_d s choice i).sold_items := by
  rcases add_to_bill_d_cases s choice i with h1 | ⟨q, r, _, _, _, _, h1⟩
  · rw [h1]; exact h
  · rw [h1]
    simp only
    rw [cart_total_d_append, h]

/-- C21, amended. Cart accumulation in `double` arithmetic: an add-to-bill step either
changes nothing or, for the product found with price `r` and the quantity `q` entered,
appends exactly one cart line (that product, `q`) and replaces the running subtotal `T` by
the `double` nearest to `T + p`, where `p` is the `double` nearest to `r * q`; hence, as
long as no loyalty discount is accepted, the running subtotal is the sum of price times
quantity over the cart lines as these rounded operations build it line by line from zero,
from the start of the checkout on. -/
theorem cart_accumulation_double :
    (∀ (s : BillStateD) (choice : Int) (i : BillInput),
      add_to_bill_d s choice i = s ∨
      ∃ q r, i.q = some q ∧ 0 < q ∧
        s.inv[(lookup_index_d s.inv choice i.input).toNat]? = some r ∧
        (add_to_bill_d s choice i).sold_items =
          s.sold_items ++ [({ r with qty := r.qty - q }, q)] ∧
        (add_to_bill_d s choice i).total =
          Double.add s.total (Double.mul r.rate (Double.ofInt q))) ∧
    (∀ (entries : List BillInput) (s t : BillStateD),
      s.total = cart_total_d s.sold_items →
      (∀ i ∈ entries, i.choice = some 4 → ¬ (i.apply = 'y' ∨ i.apply = 'Y')) →
      open_after_d entries s = some t → t.total = cart_total_d t.sold_items) ∧
    (∀ (inv : List ItemRecD) (w : World) (ses : SessionD) (entries : List BillInput)
      (t : BillStateD),
      (∀ i ∈ entries, i.choice = some 4 → ¬ (i.apply = 'y' ∨ i.apply = 'Y')) →
      open_after_d entries (resolve_customer_d inv w ses) = some t →
      t.total = cart_total_d t.sold_items) := by
  have hinv : ∀ (entries : List BillInput) (s t : BillStateD),
      s.total = cart_total_d s.sold_items →
      (∀ i ∈ entries, i.choice = some 4 → ¬ (i.apply = 'y' ∨ i.apply = 'Y')) →
      open_after_d entries s = some t → t.total = cart_total_d t.sold_items := by
    intro entries
    induction entries with
    | nil =>
      intro s t hs _ h
      simp only [open_after_d, Option.some.injEq] at h
      rw [← h]; exact hs
    | cons i more ih =>
      intro s t hs hno h
      unfold open_after_d at h
      cases hst : bill_step_d s i with
      | running s1 =>
        rw [hst] at h
        refine ih s1 t ?_ (fun j hj => hno j (List.mem_cons_of_mem _ hj)) h
        rcases bill_step_d_running_cases s s1 i hst with h1 | ⟨choice, _, _, h1⟩ | ⟨h4, h1⟩
        · rw [h1]; exact hs
        · rw [h1]; exact add_to_bill_d_total s choice i hs
        · rw [h1, apply_loyalty_d_refused s i (hno i (List.mem_cons_self _ _) h4)]
          exact hs
      | close s1 => rw [hst] at h; cases h
      | cancelled s1 => rw [hst] at h; cases h
  refine ⟨?_, hinv, ?_⟩
  · intro s choice i
    rcases add_to_bill_d_cases s choice i with h1 | ⟨q, r, hq, hpos, hr, _, h1⟩
    · exact Or.inl h1
    · refine Or.inr ⟨q, r, hq, hpos, hr, ?_, ?_⟩
      · rw [h1]
      · rw [h1]
  · intro inv w ses entries t hno h
    obtain ⟨h1, h2, _⟩ := resolve_customer_d_cart inv w ses
    refine hinv entries _ t ?_ hno h
    rw [h1, h2]; rfl

/-- Rice at 40 and Tea at 15: after 20 Rice, a view of the bill and 2 Tea the subtotal is
830, the running subtotal of the two cart lines. -/
theorem cart_accumulation_double_witness :
    ((open_after_d
        [{ choice := some 1, input := "Rice".toList, q := some 20 }, { choice := some 3 },
         { choice := some 1, input := "Tea".toList, q := some 2 }]
        (resolve_customer_d (parse_inventory_d "Rice|40|100\nTea|15|30\n".toList)
          { inventory := some "Rice|40|100\nTea|15|30\n".toList } {})).map
      (fun t => (t.total, t.sold_items.map (fun it => (it.1.name, it.1.rate, it.2)))) =
      some (.fin 830, [("Rice".toList, .fin 40, 20), ("Tea".toList, .fin 15, 2)])) ∧
    ∀ t, open_after_d
        [{ choice := some 1, input := "Rice".toList, q := some 20 }, { choice := some 3 },
         { choice := some 1, input := "Tea".toList, q := some 2 }]
        (resolve_customer_d (parse_inventory_d "Rice|40|100\nTea|15|30\n".toList)
          { inventory := some "Rice|40|100\nTea|15|30\n".toList } {}) = some t →
      t.total = cart_total_d t.sold_items :=
  ⟨by decide!, fun t h => cart_accumulation_double.2.2 _ _ _ _ t (by decide) h⟩

/-- C21 as stated fails in the program's arithmetic: with the prices 0.92 and 166.36 in the
catalog file, one unit of the first and three of the second give the running subtotal
500.00000000000006, which is not the sum of price times quantity over the two cart lines
(it exceeds that sum by `143 / 2 ^ 53`); the sum of the decimal prices is 500.00, which is
not above the discount threshold, while the subtotal of the program is, so that the net
total is computed with the discount of 50. -/
theorem cart_total_is_rounded :
    (open_after_d
        [{ choice := some 1, input := "Salt".toList, q := some 1 },
         { choice := some 1, input := "Ghee".toList, q := some 3 }]
        (resolve_customer_d (parse_inventory_d "Salt|0.92|10\nGhee|166.36|10\n".toList)
          { inventory := some "Salt|0.92|10\nGhee|166.36|10\n".toList } {})).map
      (fun t => (t.total, t.sold_items.map (fun it => (it.1.rate, it.2)))) =
      some (.fin (8796093022208001 / 17592186044416),
        [(.fin (8286623314361713 / 9007199254740992), 1),
         (.fin (1463318035174523 / 8796093022208), 3)]) ∧
    (8796093022208001 : ℚ) / 17592186044416 -
      (8286623314361713 / 9007199254740992 * 1 + 1463318035174523 / 8796093022208 * 3) =
      143 / 2 ^ 53 ∧
    (92 : ℚ) / 100 * 1 + 16636 / 100 * 3 = 500 ∧
    net_total_d (.fin (8796093022208001 / 17592186044416)) =
      .fin (4178144185548801 / 8796093022208) ∧
    (4178144185548801 : ℚ) / 8796093022208 < 476 := by
  refine ⟨by decide!, by norm_num, by norm_num, by decide!, by norm_num⟩


/-! ## Multiplication, minimum and subtraction of finite values -/

/-- Rounding changes a number that is not negative by at most the fraction `2 ^ -53` of it
plus `2 ^ -1075`. -/
theorem round_double_error (x : ℚ) (hx : 0 ≤ x) :
    |round_double x - x| ≤ pow2 (-53) * x + pow2 (-1075) := by
  rcases le_or_lt (pow2 (-1022)) x with h | h
  · have := round_double_rel_error x (by rwa [abs_of_nonneg hx])
    rw [abs_of_nonneg hx] at this
    linarith [pow2_pos (-1075)]
  · rcases eq_or_lt_of_le hx with h0 | hpos
    · rw [← h0, round_double_zero, sub_zero, abs_zero, mul_zero, zero_add]
      exact (pow2_pos _).le
    · have h1 := round_double_error_nonneg x hx
      have h2 : max (exponent x) (-1022) = -1022 := by
        apply max_eq_right
        have h3 := (exponent_spec x hpos).1
        have h4 : pow2 (exponent x) < pow2 (-1022) := lt_of_le_of_lt h3 h
        exact (pow2_lt_iff.mp h4).le
      rw [h2] at h1
      have h3 : ((-1022 : Int) - 53) = -1075 := by norm_num
      rw [h3] at h1
      linarith [mul_nonneg (pow2_pos (-53)).le hx]

/-- A power of two from `2 ^ -1074` on is a number of the grid. -/
theorem round_double_pow2 (k : Int) (hk : -1074 ≤ k) : round_double (pow2 k) = pow2 k := by
  have he : exponent (pow2 k) = k :=
    exponent_unique _ k le_rfl (pow2_strict (by omega))
  apply round_double_of_multiple (pow2 k) (pow2_pos k).le 1 k (by simp)
  rw [he]
  omega

/-- A number that is not negative and at most a power of two rounds to at most that. -/
theorem round_double_le_pow2_of_le (x : ℚ) (k : Int) (hk : -1074 ≤ k) (h : x ≤ pow2 k) :
    round_double x ≤ pow2 k :=
  round_double_le_of_le x _ (round_double_pow2 k hk) h

/-- The product of two finite values that are not negative is the rounded exact product,
when that is below `2 ^ 1024`. -/
theorem Double.mul_fin (x y : ℚ) (hx : 0 ≤ x) (hy : 0 ≤ y)
    (h : round_double (x * y) < pow2 1024) :
    Double.mul (.fin x) (.fin y) = .fin (round_double (x * y)) := by
  have hxy : 0 ≤ x * y := mul_nonneg hx hy
  have h0 := round_double_nonneg _ hxy
  by_cases hz : x = 0 ∨ y = 0
  · have : x * y = 0 := by rcases hz with h | h <;> simp [h]
    rw [this, round_double_zero]
    simp only [Double.mul, Double.isZero, Double.isNeg, decide_eq_true_eq]
    rw [if_pos hz]
    simp [not_lt.mpr hx, not_lt.mpr hy]
  · simp only [Double.mul, Double.isZero, Double.isNeg, decide_eq_true_eq, Double.val]
    rw [if_neg hz]
    exact Double.ofRat_fin _ ((abs_of_nonneg h0).le.trans_lt h) (fun hh => by linarith [hh.2])

/-- The function `std::min` on finite values. -/
theorem Double.min_fin (x y : ℚ) : Double.min (.fin x) (.fin y) = .fin (Min.min x y) := by
  unfold Double.min
  rw [Double.lt_fin]
  by_cases h : y < x
  · rw [decide_eq_true h, if_pos rfl, min_eq_right h.le]
  · rw [decide_eq_false h]
    simp only [Bool.false_eq_true, if_false]
    rw [min_eq_left (not_lt.mp h)]

/-- The difference of two finite `double` values is the rounded exact difference, when that
is below `2 ^ 1024` in magnitude. -/
theorem Double.sub_fin_of_lt (a b : ℚ) (ha : round_double a = a) (hb : round_double b = b)
    (h : |round_double (a - b)| < pow2 1024) :
    Double.sub (.fin a) (.fin b) = .fin (round_double (a - b)) := by
  rw [Double.sub_fin_fin]
  by_cases hb0 : b = 0
  · subst hb0
    rw [sub_zero, ha]
    simp only [Double.neg, if_true, Double.add]
  · rw [Double.neg_fin b hb0, Double.add_fin, ← sub_eq_add_neg]
    apply Double.ofRat_fin _ h
    rintro ⟨h1, h2⟩
    have := round_double_sub_error a b ha hb
    rw [h1, zero_sub, abs_neg] at this
    have hpos : 0 < |a - b| := abs_pos.mpr (ne_of_lt h2)
    have hu : pow2 (-53) < 1 := by
      have := pow2_strict (show (-53 : Int) < 0 by norm_num)
      rwa [pow2_zero] at this
    nlinarith


/-! ## Loyalty redemption in `double` arithmetic -/

theorem ofRat_0_1 : Double.ofRat (1 / 10) = .fin double_0_1 := by decide!

/-- The constants of the rounding analysis as plain numbers. -/
theorem pow2_consts :
    pow2 (-53) ≤ 1 / 100 ∧ pow2 (-51) = 4 * pow2 (-53) ∧ pow2 (-52) = 2 * pow2 (-53) ∧
    pow2 (-1068) = 128 * pow2 (-1075) ∧ pow2 1007 = 128 * pow2 1000 ∧
    100 * double_0_01 = 1 + 3 / 16 * pow2 (-53) ∧ 10 * double_0_1 = 1 + 1 / 2 * pow2 (-53) := by
  have h7 : pow2 7 = 128 := by decide!
  have h2 : pow2 2 = 4 := by decide!
  have hu : pow2 (-53) = 1 / 9007199254740992 := by decide!
  refine ⟨?_, ?_, ?_, ?_, ?_, ?_, ?_⟩
  · rw [hu]; norm_num
  · rw [show (-51 : Int) = 2 + -53 by norm_num, pow2_add, h2]
  · rw [show (-52 : Int) = 1 + -53 by norm_num, pow2_add, pow2_one]
  · rw [show (-1068 : Int) = 7 + -1075 by norm_num, pow2_add, h7]
  · rw [show (1007 : Int) = 7 + 1000 by norm_num, pow2_add, h7]
  · rw [hu]; unfold double_0_01; norm_num
  · rw [hu]; unfold double_0_1; norm_num

/-- The points taken exceed the balance by at most three rounding steps. -/
theorem loyalty_points_bound (u η P c ra pd m : ℚ) (hu0 : 0 < u) (hu : u ≤ 1 / 100)
    (hη : 0 < η) (hP : 0 ≤ P) (hc : 100 * c = 1 + 3 / 16 * u)
    (hra : ra ≤ P * c * (1 + u) + η) (hpd : pd ≤ ra)
    (hm : m ≤ pd * 100 * (1 + u) + η) : m - P ≤ 3 * u * P + 102 * η := by
  have h1 : pd * 100 * (1 + u) ≤ (P * c * (1 + u) + η) * 100 * (1 + u) := by
    have : pd ≤ P * c * (1 + u) + η := hpd.trans hra
    have h100 : (0 : ℚ) ≤ 100 * (1 + u) := by linarith
    calc pd * 100 * (1 + u) = pd * (100 * (1 + u)) := by ring
      _ ≤ (P * c * (1 + u) + η) * (100 * (1 + u)) := mul_le_mul_of_nonneg_right this h100
      _ = (P * c * (1 + u) + η) * 100 * (1 + u) := by ring
  have h2 : (P * c * (1 + u) + η) * 100 * (1 + u) =
      P * ((100 * c) * (1 + u) * (1 + u)) + 100 * (1 + u) * η := by ring
  have huu : u * u ≤ u * (1 / 100) := mul_le_mul_of_nonneg_left hu hu0.le
  have huuu : u * u * u ≤ u * u * (1 / 100) :=
    mul_le_mul_of_nonneg_left hu (mul_nonneg hu0.le hu0.le)
  have hpoly : (1 + 3 / 16 * u) * (1 + u) * (1 + u) ≤ 1 + 3 * u := by
    have : (1 + 3 / 16 * u) * (1 + u) * (1 + u) =
        1 + 35 / 16 * u + 11 / 8 * (u * u) + 3 / 16 * (u * u * u) := by ring
    rw [this]
    linarith
  have h3 : P * ((1 + 3 / 16 * u) * (1 + u) * (1 + u)) ≤ P * (1 + 3 * u) :=
    mul_le_mul_of_nonneg_left hpoly hP
  have h4 : 100 * (1 + u) * η ≤ 101 * η := by
    have : u * η ≤ 1 / 100 * η := mul_le_mul_of_nonneg_right hu hη.le
    linarith
  have h5 : P * (1 + 3 * u) = P + 3 * u * P := by ring
  rw [h2, hc] at h1
  linarith

/-- A rounded negative difference is bounded by the difference itself. -/
theorem loyalty_balance_bound (u η P X d P1 : ℚ) (hu0 : 0 < u) (hu : u ≤ 1 / 100)
    (hη : 0 < η) (hP : 0 ≤ P) (hX : -d ≤ 3 * u * P + 102 * η)
    (h : -(u * -d) ≤ P1 - d) (hXdef : X = 4 * u * P + 128 * η) : -X ≤ P1 := by
  have h1 : (-d) * (1 + u) ≤ (3 * u * P + 102 * η) * (1 + u) :=
    mul_le_mul_of_nonneg_right hX (by linarith)
  have h2 : (3 * u * P + 102 * η) * (1 + u) ≤ 4 * u * P + 128 * η := by
    have hup : 0 ≤ u * P := mul_nonneg hu0.le hP
    have h3 : u * (u * P) ≤ 1 / 100 * (u * P) := mul_le_mul_of_nonneg_right hu hup
    have h4 : u * η ≤ 1 / 100 * η := mul_le_mul_of_nonneg_right hu hη.le
    have : (3 * u * P + 102 * η) * (1 + u) =
        3 * (u * P) + 3 * (u * (u * P)) + 102 * η + 102 * (u * η) := by ring
    rw [this]
    linarith
  have h5 : -d * (1 + u) = -d + u * -d := by ring
  rw [hXdef]
  linarith

/-- Nine tenths of the subtotal stay, up to rounding. -/
theorem loyalty_subtotal_bound (u η T c rb pd T1 : ℚ) (hu0 : 0 < u) (hu : u ≤ 1 / 100)
    (hT : 0 ≤ T) (hc : 10 * c = 1 + 1 / 2 * u)
    (hrb : rb ≤ T * c * (1 + u) + η) (hpd : pd ≤ rb) (hpd0 : 0 ≤ pd)
    (h : -(u * (T - pd)) ≤ T1 - (T - pd)) : 9 / 10 * T - (2 * u * T + η) ≤ T1 := by
  have h1 : 10 * (T * c * (1 + u)) = T * ((1 + 1 / 2 * u) * (1 + u)) := by
    rw [← hc]; ring
  have huu : u * u ≤ u * (1 / 100) := mul_le_mul_of_nonneg_left hu hu0.le
  have hpoly : (1 + 1 / 2 * u) * (1 + u) ≤ 1 + 2 * u := by
    have : (1 + 1 / 2 * u) * (1 + u) = 1 + 3 / 2 * u + 1 / 2 * (u * u) := by ring
    rw [this]
    linarith
  have h2 := mul_le_mul_of_nonneg_left hpoly hT
  have h3 : u * (T - pd) ≤ u * T := mul_le_mul_of_nonneg_left (by linarith) hu0.le
  have h4 : 0 ≤ u * T := mul_nonneg hu0.le hT
  have h5 : T * (1 + 2 * u) = T + 2 * (u * T) := by ring
  have h6 : 2 * u * T = 2 * (u * T) := by ring
  linarith

/-- The arithmetic of one accepted loyalty discount on finite values: with the balance `P`
and the subtotal `T`, the discount is the smaller of the rounded `P * 0.01` and the rounded
`T * 0.1`; the new subtotal and the new balance are rounded differences. -/
theorem loyalty_arithmetic (P T : ℚ) (hPd : isDouble P) (hP0 : 0 < P) (hPle : P ≤ pow2 1000)
    (hTd : isDouble T) (hT0 : 0 ≤ T) :
    ∃ P1 T1 : ℚ,
      Double.sub (.fin T)
        (Double.min (Double.mul (.fin P) (Double.ofRat (1 / 100)))
          (Double.mul (.fin T) (Double.ofRat (1 / 10)))) = .fin T1 ∧
      Double.sub (.fin P)
        (Double.mul (Double.min (Double.mul (.fin P) (Double.ofRat (1 / 100)))
          (Double.mul (.fin T) (Double.ofRat (1 / 10)))) (.fin 100)) = .fin P1 ∧
      isDouble P1 ∧ isDouble T1 ∧
      -(pow2 (-51) * P + pow2 (-1068)) ≤ P1 ∧ P1 ≤ P ∧
      9 / 10 * T - (pow2 (-52) * T + pow2 (-1075)) ≤ T1 ∧ 0 ≤ T1 ∧ T1 ≤ T := by
  obtain ⟨hu, h51, h52, h1068, h1007, hc100, hc10⟩ := pow2_consts
  have hupos := pow2_pos (-53)
  have hηpos := pow2_pos (-1075)
  have h01 : (0 : ℚ) ≤ double_0_01 := by unfold double_0_01; norm_num
  have h10 : (0 : ℚ) ≤ double_0_1 := by unfold double_0_1; norm_num
  have h01le : double_0_01 ≤ 1 := by unfold double_0_01; norm_num
  have h10le : double_0_1 ≤ 1 := by unfold double_0_1; norm_num
  have hlt1000 : pow2 1000 < pow2 1024 := pow2_strict (by norm_num)
  have hlt1007 : pow2 1007 < pow2 1024 := pow2_strict (by norm_num)
  have hTlt : T < pow2 1024 := by
    have := hTd.2
    rwa [abs_of_nonneg hT0] at this
  -- the two candidate discounts
  have hPc : 0 ≤ P * double_0_01 := mul_nonneg hP0.le h01
  have hTc : 0 ≤ T * double_0_1 := mul_nonneg hT0 h10
  have hra0 := round_double_nonneg _ hPc
  have hrb0 := round_double_nonneg _ hTc
  have hra_le : round_double (P * double_0_01) ≤ pow2 1000 :=
    round_double_le_pow2_of_le _ 1000 (by norm_num) (by nlinarith)
  have hrb_le : round_double (T * double_0_1) ≤ T :=
    round_double_le_of_le _ _ hTd.1 (by nlinarith)
  have hmul1 : Double.mul (.fin P) (Double.ofRat (1 / 100)) =
      .fin (round_double (P * double_0_01)) := by
    rw [ofRat_0_01]
    exact Double.mul_fin _ _ hP0.le h01 (lt_of_le_of_lt hra_le hlt1000)
  have hmul2 : Double.mul (.fin T) (Double.ofRat (1 / 10)) =
      .fin (round_double (T * double_0_1)) := by
    rw [ofRat_0_1]
    exact Double.mul_fin _ _ hT0 h10 (lt_of_le_of_lt hrb_le hTlt)
  rw [hmul1, hmul2, Double.min_fin]
  generalize hpd : min (round_double (P * double_0_01)) (round_double (T * double_0_1)) = pd
  have hpd0 : 0 ≤ pd := by rw [← hpd]; exact le_min hra0 hrb0
  have hpd_ra : pd ≤ round_double (P * double_0_01) := by rw [← hpd]; exact min_le_left _ _
  have hpd_rb : pd ≤ round_double (T * double_0_1) := by rw [← hpd]; exact min_le_right _ _
  have hpdd : round_double pd = pd := by
    rw [← hpd]
    rcases min_choice (round_double (P * double_0_01)) (round_double (T * double_0_1)) with
      h | h <;> rw [h] <;> exact round_double_idem _
  -- the new subtotal
  obtain ⟨hsubT, hT1d, hT10, hT1le⟩ := Double.sub_fin T pd hTd hpd0 (hpd_rb.trans hrb_le)
  -- the points taken
  have hm0 : 0 ≤ pd * 100 := by linarith
  have hm_le : round_double (pd * 100) ≤ pow2 1007 :=
    round_double_le_pow2_of_le _ 1007 (by norm_num) (by rw [h1007]; linarith)
  have hmul3 : Double.mul (.fin pd) (.fin 100) = .fin (round_double (pd * 100)) :=
    Double.mul_fin _ _ hpd0 (by norm_num) (lt_of_le_of_lt hm_le hlt1007)
  rw [hmul3]
  generalize hm : round_double (pd * 100) = m at hm_le
  have hmm0 : 0 ≤ m := by rw [← hm]; exact round_double_nonneg _ hm0
  have hmd : round_double m = m := by rw [← hm]; exact round_double_idem _
  -- the new balance
  have hP1le : round_double (P - m) ≤ P := round_double_le_of_le _ _ hPd.1 (by linarith)
  have hP1ge : -pow2 1007 ≤ round_double (P - m) := by
    have h1 : round_double (-pow2 1007) = -pow2 1007 := by
      rw [round_double_neg, round_double_pow2 1007 (by norm_num)]
    have := round_double_mono (-pow2 1007) (P - m) (by linarith)
    rwa [h1] at this
  have hP1lt : |round_double (P - m)| < pow2 1024 := by
    rw [abs_lt]
    constructor <;> linarith
  have hsubP := Double.sub_fin_of_lt P m hPd.1 hmd hP1lt
  refine ⟨round_double (P - m), round_double (T - pd), hsubT, hsubP, isDouble_round _ hP1lt,
    hT1d, ?_, hP1le, ?_, hT10, hT1le⟩
  · -- the balance does not fall below zero by more than the rounding allows
    rcases le_or_lt m P with hle | hgt
    · have := round_double_nonneg (P - m) (by linarith)
      have hB : 0 ≤ pow2 (-51) * P + pow2 (-1068) :=
        add_nonneg (mul_nonneg (pow2_pos _).le hP0.le) (pow2_pos _).le
      linarith
    · have e1 := (abs_le.mp (round_double_error _ hPc)).2
      have e3 := (abs_le.mp (round_double_error _ hm0)).2
      rw [hm] at e3
      have e4 := round_double_sub_error P m hPd.1 hmd
      rw [abs_of_neg (by linarith : P - m < 0)] at e4
      have e5 := (abs_le.mp e4).1
      have hmP := loyalty_points_bound (pow2 (-53)) (pow2 (-1075)) P double_0_01
        (round_double (P * double_0_01)) pd m hupos hu hηpos hP0.le hc100 (by linarith)
        hpd_ra (by linarith)
      exact loyalty_balance_bound (pow2 (-53)) (pow2 (-1075)) P _ (P - m) _ hupos hu hηpos
        hP0.le (by linarith) e5 (by rw [h51, h1068])
  · -- at least nine tenths of the subtotal stay, up to rounding
    have e2 := (abs_le.mp (round_double_error _ hTc)).2
    have e4 := round_double_sub_error T pd hTd.1 hpdd
    rw [abs_of_nonneg (by linarith [hpd_rb.trans hrb_le] : 0 ≤ T - pd)] at e4
    have e5 := (abs_le.mp e4).1
    have := loyalty_subtotal_bound (pow2 (-53)) (pow2 (-1075)) T double_0_1
      (round_double (T * double_0_1)) pd _ hupos hu hT0 hc10 (by linarith) hpd_rb hpd0 e5
    rw [h52]
    linarith


/-- One pass through the loyalty branch with a finite balance `P` and a finite subtotal
`T ≥ 0`: the customer stays selected; the balance stays as it is or, having been positive,
falls, to no less than `-(P * 2 ^ -51 + 2 ^ -1068)`; the subtotal stays between nine
tenths of what it was, up to rounding, and what it was. -/
theorem apply_loyalty_d_step (s : BillStateD) (i : BillInput) (k : Nat) (c : CustomerD)
    (P T : ℚ) (hk : s.customer_obj = some k) (hc : s.customers[k]? = some c)
    (hP : c.loyalty_points = .fin P) (hPd : isDouble P) (hPle : P ≤ pow2 1000)
    (hT : s.total = .fin T) (hTd : isDouble T) (hT0 : 0 ≤ T) :
    (apply_loyalty_d s i).customer_obj = some k ∧
    ∃ c1 P1 T1, (apply_loyalty_d s i).customers[k]? = some c1 ∧
      c1.loyalty_points = .fin P1 ∧ (apply_loyalty_d s i).total = .fin T1 ∧
      isDouble P1 ∧ isDouble T1 ∧
      (P1 = P ∨ (0 < P ∧ -(pow2 (-51) * P + pow2 (-1068)) ≤ P1)) ∧ P1 ≤ P ∧
      9 / 10 * T - (pow2 (-52) * T + pow2 (-1075)) ≤ T1 ∧ 0 ≤ T1 ∧ T1 ≤ T := by
  have hslack : 9 / 10 * T - (pow2 (-52) * T + pow2 (-1075)) ≤ T := by
    have := mul_nonneg (pow2_pos (-52)).le hT0
    linarith [pow2_pos (-1075)]
  have hsame : apply_loyalty_d s i = s →
      (apply_loyalty_d s i).customer_obj = some k ∧
      ∃ c1 P1 T1, (apply_loyalty_d s i).customers[k]? = some c1 ∧
        c1.loyalty_points = .fin P1 ∧ (apply_loyalty_d s i).total = .fin T1 ∧
        isDouble P1 ∧ isDouble T1 ∧
        (P1 = P ∨ (0 < P ∧ -(pow2 (-51) * P + pow2 (-1068)) ≤ P1)) ∧ P1 ≤ P ∧
        9 / 10 * T - (pow2 (-52) * T + pow2 (-1075)) ≤ T1 ∧ 0 ≤ T1 ∧ T1 ≤ T := by
    intro h
    rw [h]
    exact ⟨hk, c, P, T, hc, hP, hT, hPd, hTd, Or.inl rfl, le_rfl, hslack, hT0, le_rfl⟩
  by_cases hy : i.apply = 'y' ∨ i.apply = 'Y'
  · by_cases hpos : 0 < P
    · have hlt : k < s.customers.length := (List.getElem?_eq_some_iff.mp hc).1
      obtain ⟨P1, T1, hsubT, hsubP, hP1d, hT1d, hP1ge, hP1le, hT1ge, hT10, hT1le⟩ :=
        loyalty_arithmetic P T hPd hpos hPle hTd hT0
      have hstep : apply_loyalty_d s i =
          { s with total := .fin T1,
                   customers := s.customers.set k { c with loyalty_points := .fin P1 } } := by
        unfold apply_loyalty_d
        simp only [hk, hc, hP, hT, Double.lt_fin, decide_eq_true hpos, if_true, hy, hsubT,
          hsubP]
      rw [hstep]
      refine ⟨hk, { c with loyalty_points := .fin P1 }, P1, T1, ?_, rfl, rfl, hP1d, hT1d,
        Or.inr ⟨hpos, hP1ge⟩, hP1le, hT1ge, hT10, hT1le⟩
      simp [List.getElem?_set, hlt]
    · apply hsame
      unfold apply_loyalty_d
      simp only [hk, hc, hP, Double.lt_fin, decide_eq_false hpos, Bool.false_eq_true,
        if_false]
  · exact hsame (apply_loyalty_d_refused s i hy)

/-- Any number of passes through the loyalty branch, from a balance `P0` and a subtotal
`T0`. -/
theorem foldl_apply_loyalty_d (P0 T0 : ℚ) (hP0 : P0 ≤ pow2 1000) (k : Nat)
    (entries : List BillInput) :
    ∀ (s : BillStateD) (c : CustomerD) (P T : ℚ),
      s.customer_obj = some k → s.customers[k]? = some c →
      c.loyalty_points = .fin P → isDouble P →
      -(pow2 (-51) * P0 + pow2 (-1068)) ≤ P → P ≤ P0 →
      s.total = .fin T → isDouble T → 0 ≤ T → T ≤ T0 →
      ∃ c1 P1 T1, (entries.foldl apply_loyalty_d s).customers[k]? = some c1 ∧
        c1.loyalty_points = .fin P1 ∧ (entries.foldl apply_loyalty_d s).total = .fin T1 ∧
        -(pow2 (-51) * P0 + pow2 (-1068)) ≤ P1 ∧ P1 ≤ P0 ∧ 0 ≤ T1 ∧ T1 ≤ T0 := by
  induction entries with
  | nil =>
    intro s c P T _ hc hP _ hPge hPle hT _ hT0 hTle
    exact ⟨c, P, T, hc, hP, hT, hPge, hPle, hT0, hTle⟩
  | cons i rest ih =>
    intro s c P T hk hc hP hPd hPge hPle hT hTd hT0 hTle
    obtain ⟨hk1, c1, P1, T1, hc1, hP1, hT1, hP1d, hT1d, hcase, hP1le, _, hT10, hT1le⟩ :=
      apply_loyalty_d_step s i k c P T hk hc hP hPd (hPle.trans hP0) hT hTd hT0
    rw [List.foldl_cons]
    refine ih (apply_loyalty_d s i) c1 P1 T1 hk1 hc1 hP1 hP1d ?_ (hP1le.trans hPle) hT1
      hT1d hT10 (hT1le.trans hTle)
    rcases hcase with h | ⟨_, h⟩
    · rw [h]; exact hPge
    · have := mul_le_mul_of_nonneg_left hPle (pow2_pos (-51)).le
      linarith

/-- C28, amended. Loyalty redemption in `double` arithmetic: for every resolved customer
with a finite balance `P` between 0 and `2 ^ 1000` and every finite running subtotal
`T ≥ 0`, after any number of passes through the loyalty branch, accepted or not, the
running subtotal is `≥ 0` and at most `T`, and the loyalty balance is at most `P` and not
below `-(P * 2 ^ -51 + 2 ^ -1068)`: it can fall below zero, by rounding only.  Each pass
leaves at least 90% of the subtotal it was applied to, less at most
`T * 2 ^ -52 + 2 ^ -1075`. -/
theorem loyalty_balances_double :
    (∀ (entries : List BillInput) (s : BillStateD) (k : Nat) (c : CustomerD) (P T : ℚ),
      s.customer_obj = some k → s.customers[k]? = some c →
      c.loyalty_points = .fin P → isDouble P → 0 ≤ P → P ≤ pow2 1000 →
      s.total = .fin T → isDouble T → 0 ≤ T →
      ∃ c1 P1 T1, (entries.foldl apply_loyalty_d s).customers[k]? = some c1 ∧
        c1.loyalty_points = .fin P1 ∧ (entries.foldl apply_loyalty_d s).total = .fin T1 ∧
        -(pow2 (-51) * P + pow2 (-1068)) ≤ P1 ∧ P1 ≤ P ∧ 0 ≤ T1 ∧ T1 ≤ T) ∧
    (∀ (s : BillStateD) (i : BillInput) (k : Nat) (c : CustomerD) (P T : ℚ),
      s.customer_obj = some k → s.customers[k]? = some c →
      c.loyalty_points = .fin P → isDouble P → 0 ≤ P → P ≤ pow2 1000 →
      s.total = .fin T → isDouble T → 0 ≤ T →
      ∃ T1, (apply_loyalty_d s i).total = .fin T1 ∧
        9 / 10 * T - (pow2 (-52) * T + pow2 (-1075)) ≤ T1 ∧ T1 ≤ T) := by
  constructor
  · intro entries s k c P T hk hc hP hPd hP0 hPle hT hTd hT0
    have hB : -(pow2 (-51) * P + pow2 (-1068)) ≤ P := by
      have := mul_nonneg (pow2_pos (-51)).le hP0
      linarith [pow2_pos (-1068)]
    exact foldl_apply_loyalty_d P T hPle k entries s c P T hk hc hP hPd hB le_rfl hT hTd hT0
      le_rfl
  · intro s i k c P T hk hc hP hPd _ hPle hT hTd hT0
    obtain ⟨_, _, _, T1, _, _, hT1, _, _, _, _, hge, _, hle⟩ :=
      apply_loyalty_d_step s i k c P T hk hc hP hPd hPle hT hTd hT0
    exact ⟨T1, hT1, hge, hle⟩

/-- Bob holds 500 points and the bill stands at 30: the first discount is 3 (10% of the
bill), the second 2 (what the 200 points left are worth); balance 0 and subtotal 25. -/
theorem loyalty_balances_double_witness :
    (([{ choice := some 4, apply := 'y' }, { choice := some 4, apply := 'Y' }] :
        List BillInput).foldl apply_loyalty_d
      { inv := [], customers := [{ id := "C1".toList, name := "Bob".toList,
                                   phone := "017".toList, loyalty_points := .fin 500 }],
        customer_obj := some 0, customer_name := "Bob".toList, total := .fin 30,
        world := {} }) =
      { inv := [], customers := [{ id := "C1".toList, name := "Bob".toList,
                                   phone := "017".toList, loyalty_points := .fin 0 }],
        customer_obj := some 0, customer_name := "Bob".toList, total := .fin 25,
        world := {} } ∧
    ∃ c1 P1 T1, (([{ choice := some 4, apply := 'y' }, { choice := some 4, apply := 'Y' }] :
        List BillInput).foldl apply_loyalty_d
      { inv := [], customers := [{ id := "C1".toList, name := "Bob".toList,
                                   phone := "017".toList, loyalty_points := .fin 500 }],
        customer_obj := some 0, customer_name := "Bob".toList, total := .fin 30,
        world := {} }).customers[0]? = some c1 ∧ c1.loyalty_points = .fin P1 ∧
      (([{ choice := some 4, apply := 'y' }, { choice := some 4, apply := 'Y' }] :
        List BillInput).foldl apply_loyalty_d
      { inv := [], customers := [{ id := "C1".toList, name := "Bob".toList,
                                   phone := "017".toList, loyalty_points := .fin 500 }],
        customer_obj := some 0, customer_name := "Bob".toList, total := .fin 30,
        world := {} }).total = .fin T1 ∧
      -(pow2 (-51) * 500 + pow2 (-1068)) ≤ P1 ∧ P1 ≤ 500 ∧ 0 ≤ T1 ∧ T1 ≤ 30 :=
  ⟨by decide!,
   loyalty_balances_double.1
    [{ choice := some 4, apply := 'y' }, { choice := some 4, apply := 'Y' }]
    { inv := [], customers := [{ id := "C1".toList, name := "Bob".toList,
                                 phone := "017".toList, loyalty_points := .fin 500 }],
      customer_obj := some 0, customer_name := "Bob".toList, total := .fin 30, world := {} }
    0 { id := "C1".toList, name := "Bob".toList, phone := "017".toList,
        loyalty_points := .fin 500 } 500 30
    rfl rfl rfl (by decide!) (by norm_num)
    (by
      have h := pow2_mono (show (10 : Int) ≤ 1000 by norm_num)
      have h10 : pow2 10 = 1024 := by decide!
      rw [h10] at h
      linarith) rfl (by decide!) (by norm_num)⟩

/-- C28 as stated fails in the program's arithmetic.  A customer with 7 points accepts the
discount on a bill of 10: the discount is the `double` nearest to `7 * 0.01`, a hundred
times that is rounded to a value above 7, and the balance left is `-(2 ^ -50)`, below
zero.  A customer with 1000 points accepts the discount on a bill of 7: the discount is the
`double` nearest to `7 * 0.1`, and the subtotal left is the `double` below 6.3, less than
90% of 7. -/
theorem loyalty_balance_goes_negative :
    apply_loyalty_d
      { inv := [], customers := [{ id := "C1".toList, name := "Bob".toList,
                                   phone := "017".toList, loyalty_points := .fin 7 }],
        customer_obj := some 0, customer_name := "Bob".toList, total := .fin 10,
        world := {} } { choice := some 4, apply := 'y' } =
      { inv := [], customers := [{ id := "C1".toList, name := "Bob".toList,
                                   phone := "017".toList,
                                   loyalty_points := .fin (-1 / 2 ^ 50) }],
        customer_obj := some 0, customer_name := "Bob".toList,
        total := .fin (1397523259368407 / 140737488355328), world := {} } ∧
    (apply_loyalty_d
      { inv := [], customers := [{ id := "C2".toList, name := "Ann".toList,
                                   phone := "018".toList, loyalty_points := .fin 1000 }],
        customer_obj := some 0, customer_name := "Ann".toList, total := .fin 7,
        world := {} } { choice := some 4, apply := 'y' }).total =
      .fin (7093169413108531 / 1125899906842624) ∧
    (7093169413108531 : ℚ) / 1125899906842624 < 9 / 10 * 7 := by
  refine ⟨by decide!, by decide!, by norm_num⟩


/-! ## Frame and customer lemmas of the menu loop in `double` arithmetic -/

/-- The lines of a text written line by line, the last one with or without its line
break. -/
theorem splitOn_lines_last (ls : List Str) (last : Str) (h : ∀ l ∈ ls, '\n' ∉ l)
    (hl : '\n' ∉ last) :
    splitOn '\n' ((ls.map (fun l => l ++ ['\n'])).flatten ++ last) =
      ls ++ (if last = [] then [] else [last]) := by
  induction ls with
  | nil =>
    simp only [List.map_nil, List.flatten_nil, List.nil_append]
    by_cases he : last = []
    · rw [if_pos he, he]; rfl
    · rw [if_neg he, splitOn_single _ _ hl he]
  | cons l rest ih =>
    have h1 : '\n' ∉ l := h l (List.mem_cons_self _ _)
    have h2 := ih (fun x hx => h x (List.mem_cons_of_mem _ hx))
    simp only [List.map_cons, List.flatten_cons, List.append_assoc, List.singleton_append,
      List.cons_append]
    rw [splitOn_append _ _ _ h1, List.nil_append, h2]

/-- The function `strtol` converts exactly the texts that begin with a digit. -/
theorem strtol_eq_none_iff (s : Str) : strtol s = none ↔ startsInteger s = false := by
  unfold startsInteger strtol
  rcases hps : parseSign (s.dropWhile isspace) with ⟨neg, r⟩
  cases r with
  | nil => simp
  | cons c t =>
    simp only
    by_cases hc : c.isDigit = true
    · simp [List.takeWhile, hc]
    · simp [List.takeWhile, hc]

/-- The function `stoi` fails exactly when the text does not begin with a digit or the
integer is outside the range of `int`. -/
theorem stoi_eq_none_iff (s : Str) :
    stoi s = none ↔
      startsInteger s = false ∨ integerOutOfRange (-2147483648) 2147483647 s = true := by
  unfold stoi integerOutOfRange
  rw [← strtol_eq_none_iff]
  cases strtol s with
  | none => simp
  | some v =>
    by_cases hr : -2147483648 ≤ v ∧ v ≤ 2147483647
    · simp [hr]
    · simp [hr]

/-- The function `stoll` fails exactly when the text does not begin with a digit or the
integer is outside the range of `long long`. -/
theorem stoll_eq_none_iff (s : Str) :
    stoll s = none ↔
      startsInteger s = false ∨
        integerOutOfRange (-9223372036854775808) 9223372036854775807 s = true := by
  unfold stoll integerOutOfRange
  rw [← strtol_eq_none_iff]
  cases strtol s with
  | none => simp
  | some v =>
    by_cases hr : -9223372036854775808 ≤ v ∧ v ≤ 9223372036854775807
    · simp [hr]
    · simp [hr]

/-- A decimal literal is read exactly from the texts that begin with a digit, or with a
point followed by a digit. -/
theorem strtod_decimal_eq_none_iff (r : Str) :
    strtod_decimal r = none ↔ decimalStart r = false := by
  unfold strtod_decimal decimalStart
  cases r with
  | nil => simp
  | cons c t =>
    by_cases hc : c.isDigit = true
    · simp [List.takeWhile, hc]
    · have hip : (c :: t).takeWhile Char.isDigit = [] := by simp [List.takeWhile, hc]
      have hr1 : (c :: t).dropWhile Char.isDigit = c :: t := by simp [List.dropWhile, hc]
      simp only [hip, hr1, true_and]
      by_cases hd : c = '.'
      · subst hd
        cases t with
        | nil => simp
        | cons d u =>
          by_cases hdd : d.isDigit = true
          · simp [List.takeWhile, hdd]
          · simp [List.takeWhile, hdd]
      · have hfp : (match c :: t with
            | '.' :: r2 => List.takeWhile Char.isDigit r2
            | _ => []) = [] := by
          split
          · rename_i heq; simp at heq; exact absurd heq.1 hd
          · rfl
        rw [hfp]
        simp [hc, hd]

/-- A number, decimal or hexadecimal, is read exactly from the texts that begin with a
digit, or with a point followed by a digit. -/
theorem strtod_magnitude_eq_none_iff (r : Str) :
    strtod_magnitude r = none ↔ decimalStart r = false := by
  unfold strtod_magnitude
  split
  · rename_i x r2
    by_cases hx : x = 'x' ∨ x = 'X'
    · rw [if_pos hx]
      cases strtod_hex r2 with
      | none => exact strtod_decimal_eq_none_iff _
      | some v => simp [decimalStart]
    · rw [if_neg hx]
      exact strtod_decimal_eq_none_iff _
  · exact strtod_decimal_eq_none_iff _

/-- The function `std::stod` fails exactly when the text does not begin with `inf`, `nan`
or a number, or when the number is outside the range of `double`. -/
theorem stod_d_eq_none_iff (s : Str) :
    stod_d s = none ↔ numberStart s = false ∨ numberOutOfRange s = true := by
  unfold stod_d numberStart numberOutOfRange
  rcases hps : parseSign (s.dropWhile isspace) with ⟨neg, r⟩
  simp only
  generalize startsWithCI "inf".toList r = fi
  generalize startsWithCI "nan".toList r = fn
  cases fi with
  | true => simp
  | false =>
    cases fn with
    | true => simp
    | false =>
      simp only [Bool.false_eq_true, if_false, Bool.false_or, Bool.not_false, Bool.true_and,
        Bool.and_self]
      cases hm : strtod_magnitude r with
      | none =>
        have := (strtod_magnitude_eq_none_iff r).mp hm
        simp [this]
      | some v =>
        have hds : decimalStart r ≠ false := fun h =>
          by rw [(strtod_magnitude_eq_none_iff r).mpr h] at hm; cases hm
        by_cases hre : strtod_range_error v = true
        · simp [hre]
        · simp [hre, hds]


/-! ## Catalog store: what `load_inventory` accepts -/

/-- A field beyond the end of a line is read as empty. -/
theorem getD_of_length_le (parts : List Str) (n : Nat) :
    (if parts.length > n then parts.getD n [] else []) = parts.getD n [] := by
  by_cases h : parts.length > n
  · rw [if_pos h]
  · rw [if_neg h, List.getD_eq_default _ _ (not_lt.mp h)]

/-- The lines that `parse_line` accepts and the record it builds from each. -/
theorem parse_line_d_eq_some_iff (line : Str) (r : ItemRecD) :
    parse_line_d line {} = some r ↔
      line ≠ [] ∧ line.head? ≠ some '#' ∧ 3 ≤ (splitOn '|' line).length ∧
      ∃ rate qty threshold,
        stod_d ((splitOn '|' line).getD 1 []) = some rate ∧
        stoi ((splitOn '|' line).getD 2 []) = some qty ∧
        (if 6 < (splitOn '|' line).length then stoi ((splitOn '|' line).getD 6 [])
          else some 5) = some threshold ∧
        trim ((splitOn '|' line).getD 0 []) ≠ [] ∧ Double.le (.fin 0) rate = true ∧
        0 ≤ qty ∧
        r = { name := trim ((splitOn '|' line).getD 0 []), rate := rate, qty := qty,
              barcode := (splitOn '|' line).getD 3 [],
              category := (splitOn '|' line).getD 4 [],
              supplier := (splitOn '|' line).getD 5 [],
              low_stock_threshold := threshold, last_updated := 0 } := by
  unfold parse_line_d
  by_cases h1 : line = [] ∨ line.head? = some '#'
  · rw [if_pos h1]
    constructor
    · intro h; cases h
    · rintro ⟨ha, hb, _⟩
      rcases h1 with h | h
      · exact absurd h ha
      · exact absurd h hb
  · rw [if_neg h1]
    have ha : line ≠ [] := fun h => h1 (Or.inl h)
    have hb : line.head? ≠ some '#' := fun h => h1 (Or.inr h)
    simp only
    by_cases h2 : (splitOn '|' line).length < 3
    · rw [if_pos h2]
      constructor
      · intro h; cases h
      · rintro ⟨_, _, hc, _⟩
        omega
    · rw [if_neg h2]
      have hc : 3 ≤ (splitOn '|' line).length := not_lt.mp h2
      rw [getD_of_length_le _ 3, getD_of_length_le _ 4, getD_of_length_le _ 5]
      cases hrate : stod_d ((splitOn '|' line).getD 1 []) with
      | none =>
        constructor
        · intro h; cases h
        · rintro ⟨_, _, _, rate, _, _, h, _⟩
          cases h
      | some rate =>
        cases hqty : stoi ((splitOn '|' line).getD 2 []) with
        | none =>
          constructor
          · intro h; cases h
          · rintro ⟨_, _, _, _, qty, _, _, h, _⟩
            cases h
        | some qty =>
          simp only
          simp only [gt_iff_lt]
          cases hth : (if 6 < (splitOn '|' line).length
              then stoi ((splitOn '|' line).getD 6 []) else some 5) with
          | none =>
            constructor
            · intro h; cases h
            · rintro ⟨_, _, _, _, _, threshold, _, _, h, _⟩
              cases h
          | some threshold =>
            simp only
            by_cases hok : trim ((splitOn '|' line).getD 0 []) ≠ [] ∧
                Double.le (.fin 0) rate = true ∧ 0 ≤ qty
            · rw [if_pos hok]
              constructor
              · intro h
                refine ⟨ha, hb, hc, rate, qty, threshold, rfl, rfl, rfl, hok.1, hok.2.1,
                  hok.2.2, ?_⟩
                exact (Option.some.inj h).symm
              · rintro ⟨_, _, _, rate1, qty1, th1, e1, e2, e3, _, _, _, hr⟩
                cases e1; cases e2; cases e3
                rw [hr]
            · rw [if_neg hok]
              constructor
              · intro h; cases h
              · rintro ⟨_, _, _, rate1, qty1, th1, e1, e2, e3, g1, g2, g3, _⟩
                cases e1; cases e2
                exact absurd ⟨g1, g2, g3⟩ hok


/-- C6, amended. Malformed-record tolerance, with the conversions as the library performs
them.  For every catalog file `load_inventory` returns, in file order, exactly one product
for each line that `parse_line` accepts and nothing for the other lines.  A line is
accepted exactly when it is not empty, does not start with `#`, has at least three
`|`-separated fields, a name that is not blank, a price field that `stod` converts to a
value that is not below zero (a NaN is not), a quantity field that `stoi` converts to a
value that is not below zero and, when there are more than six fields, a seventh field that
`stoi` converts; the product holds these values and the fields four to six.  `stod` fails
exactly when the field does not begin, after white space and an optional sign, with `inf`,
`nan` or a decimal or hexadecimal number, or when that number is outside the range of
`double`; `stoi` fails exactly when the field does not begin in this way with a digit or the
integer is outside the range of `int`.  What follows the number in a field is ignored.  A
file with one well-formed record and one record whose price is `abc` loads exactly one
product. -/
theorem load_inventory_accepts :
    (∀ (w : World) (ls : List Str) (last : Str),
      (∀ l ∈ ls, '\n' ∉ l) → '\n' ∉ last →
      w.inventory = some ((ls.map (fun l => l ++ ['\n'])).flatten ++ last) →
      (load_inventory_d w).1 =
        (ls ++ (if last = [] then [] else [last])).filterMap
          (fun line => parse_line_d line {})) ∧
    (∀ (line : Str) (r : ItemRecD),
      parse_line_d line {} = some r ↔
        line ≠ [] ∧ line.head? ≠ some '#' ∧ 3 ≤ (splitOn '|' line).length ∧
        ∃ rate qty threshold,
          stod_d ((splitOn '|' line).getD 1 []) = some rate ∧
          stoi ((splitOn '|' line).getD 2 []) = some qty ∧
          (if 6 < (splitOn '|' line).length then stoi ((splitOn '|' line).getD 6 [])
            else some 5) = some threshold ∧
          trim ((splitOn '|' line).getD 0 []) ≠ [] ∧ Double.le (.fin 0) rate = true ∧
          0 ≤ qty ∧
          r = { name := trim ((splitOn '|' line).getD 0 []), rate := rate, qty := qty,
                barcode := (splitOn '|' line).getD 3 [],
                category := (splitOn '|' line).getD 4 [],
                supplier := (splitOn '|' line).getD 5 [],
                low_stock_threshold := threshold, last_updated := 0 }) ∧
    (∀ s : Str, stod_d s = none ↔ numberStart s = false ∨ numberOutOfRange s = true) ∧
    (∀ s : Str, stoi s = none ↔
      startsInteger s = false ∨ integerOutOfRange (-2147483648) 2147483647 s = true) ∧
    parse_inventory_d "Rice|40.00|100\nSalt|abc|7\n".toList =
      [{ name := "Rice".toList, rate := .fin 40, qty := 100 }] := by
  refine ⟨?_, parse_line_d_eq_some_iff, stod_d_eq_none_iff, stoi_eq_none_iff, by decide!⟩
  intro w ls last h hl hw
  unfold load_inventory_d
  rw [hw]
  simp only [parse_inventory_d]
  rw [splitOn_lines_last ls last h hl]

/-- A file of three lines, the last one without a line break: the record with the price
`abc` is skipped, the two others are loaded in file order. -/
theorem load_inventory_accepts_witness :
    (load_inventory_d { inventory := some "Rice|40.00|100\nSalt|abc|7\nTea|15|30".toList }).1 =
      (["Rice|40.00|100".toList, "Salt|abc|7".toList] ++
        (if "Tea|15|30".toList = [] then [] else ["Tea|15|30".toList])).filterMap
          (fun line => parse_line_d line {}) ∧
    (["Rice|40.00|100".toList, "Salt|abc|7".toList] ++
        (if "Tea|15|30".toList = [] then [] else ["Tea|15|30".toList])).filterMap
          (fun line => parse_line_d line {}) =
      [{ name := "Rice".toList, rate := .fin 40, qty := 100 },
       { name := "Tea".toList, rate := .fin 15, qty := 30 }] :=
  ⟨load_inventory_accepts.1 { inventory := some "Rice|40.00|100\nSalt|abc|7\nTea|15|30".toList }
    ["Rice|40.00|100".toList, "Salt|abc|7".toList] "Tea|15|30".toList
    (by decide) (by decide) (by decide), by decide!⟩

/-- C6 as stated fails: the price fields `12abc` and `inf` are not numbers, yet the two
records are loaded, with the price 12 and an infinite price; the price `0x10` is read as
16; the prices `1e400` and `1e-400` are numbers, yet the records are skipped, because
`stod` throws `out_of_range`; the price `nan` is skipped by the comparison `rate >= 0`. -/
theorem load_reads_what_stod_reads :
    parse_inventory_d ("Rice|12abc|5\nSalt|inf|3\nTea|0x10|2\nOil|1e400|4\n" ++
        "Soap|1e-400|6\nGhee|nan|1\n").toList =
      [{ name := "Rice".toList, rate := .fin 12, qty := 5 },
       { name := "Salt".toList, rate := .inf false, qty := 3 },
       { name := "Tea".toList, rate := .fin 16, qty := 2 }] ∧
    stod_d "1e400".toList = none ∧ stod_d "1e-400".toList = none ∧
    stod_d "nan".toList = some (.nan false) := by
  refine ⟨by decide!, by decide!, by decide!, by decide!⟩


/-! ## Customer ledger: what `load_customers` accepts -/

/-- The record that `load_customers` builds from a line with all eight fields. -/
theorem parse_customer_d_full (f1 f2 f3 f4 f5 f6 f7 rest : Str)
    (h1 : '|' ∉ f1) (h2 : '|' ∉ f2) (h3 : '|' ∉ f3) (h4 : '|' ∉ f4) (h5 : '|' ∉ f5)
    (h6 : '|' ∉ f6) (h7 : '|' ∉ f7) (hr : '\n' ∉ rest) (hc : f1.head? ≠ some '#') :
    parse_customer_d (f1 ++ '|' :: (f2 ++ '|' :: (f3 ++ '|' :: (f4 ++ '|' :: (f5 ++ '|' ::
        (f6 ++ '|' :: (f7 ++ '|' :: rest))))))) =
      (stod_d f5).bind (fun p => (stod_d f6).bind (fun sp => (stoi f7).bind (fun v =>
        (stoll rest).map (fun l => CustomerD.mk f1 f2 f3 f4 p sp v l)))) := by
  have hguard : ¬ ((f1 ++ '|' :: (f2 ++ '|' :: (f3 ++ '|' :: (f4 ++ '|' :: (f5 ++ '|' ::
        (f6 ++ '|' :: (f7 ++ '|' :: rest))))))) = [] ∨
      (f1 ++ '|' :: (f2 ++ '|' :: (f3 ++ '|' :: (f4 ++ '|' :: (f5 ++ '|' ::
        (f6 ++ '|' :: (f7 ++ '|' :: rest))))))).head? = some '#') := by
    cases f1 with
    | nil => simp
    | cons c t =>
      simp only [List.cons_append, List.head?_cons, Option.some.injEq, reduceCtorEq, false_or]
      intro he
      exact hc (by rw [List.head?_cons, he])
  unfold parse_customer_d
  rw [if_neg hguard]
  simp only [sgetline_field _ _ _ _ h1, sgetline_field _ _ _ _ h2, sgetline_field _ _ _ _ h3,
    sgetline_field _ _ _ _ h4, sgetline_field _ _ _ _ h5, sgetline_field _ _ _ _ h6,
    sgetline_field _ _ _ _ h7, sgetline_rest _ _ hr]
  cases stod_d f5 with
  | none => rfl
  | some p =>
    cases stod_d f6 with
    | none => rfl
    | some sp =>
      cases stoi f7 with
      | none => rfl
      | some v =>
        cases stoll rest with
        | none => rfl
        | some l => rfl

/-- C19, amended. Customer tolerant load, with the conversions as the library performs
them.  For every customer file `load_customers` handles the lines one by one, in file
order; empty and comment lines are skipped; a line with all eight fields gives exactly one
record when `stod` converts its loyalty and spend fields, `stoi` its visit-count field and
`stoll` its last-visit field, and is dropped otherwise, without preventing the other lines
from loading.  `stod` fails exactly when the field does not begin, after white space and an
optional sign, with `inf`, `nan` or a decimal or hexadecimal number, or when that number is
outside the range of `double`; `stoi` and `stoll` fail exactly when the field does not
begin in this way with a digit or the integer is outside the range of the type.  What
follows the number in a field is ignored. -/
theorem load_customers_accepts :
    (∀ (w : World) (ls : List Str) (last : Str),
      (∀ l ∈ ls, '\n' ∉ l) → '\n' ∉ last →
      w.customers = some ((ls.map (fun l => l ++ ['\n'])).flatten ++ last) →
      load_customers_d w =
        (ls ++ (if last = [] then [] else [last])).filterMap parse_customer_d) ∧
    (∀ line : Str, line = [] ∨ line.head? = some '#' → parse_customer_d line = none) ∧
    (∀ f1 f2 f3 f4 f5 f6 f7 rest : Str,
      '|' ∉ f1 → '|' ∉ f2 → '|' ∉ f3 → '|' ∉ f4 → '|' ∉ f5 → '|' ∉ f6 → '|' ∉ f7 →
      '\n' ∉ rest → f1.head? ≠ some '#' →
      parse_customer_d (f1 ++ '|' :: (f2 ++ '|' :: (f3 ++ '|' :: (f4 ++ '|' :: (f5 ++ '|' ::
          (f6 ++ '|' :: (f7 ++ '|' :: rest))))))) =
        (stod_d f5).bind (fun p => (stod_d f6).bind (fun sp => (stoi f7).bind (fun v =>
          (stoll rest).map (fun l => CustomerD.mk f1 f2 f3 f4 p sp v l))))) ∧
    (∀ s : Str, stod_d s = none ↔ numberStart s = false ∨ numberOutOfRange s = true) ∧
    (∀ s : Str, stoi s = none ↔
      startsInteger s = false ∨ integerOutOfRange (-2147483648) 2147483647 s = true) ∧
    (∀ s : Str, stoll s = none ↔
      startsInteger s = false ∨
        integerOutOfRange (-9223372036854775808) 9223372036854775807 s = true) ∧
    load_customers_d
        { customers := some
            ("# header\nC1|Bob|017|b@x|500|7.5|2|1700000000\nC2|Eve|018|e@x|abc|1|1|1\n" ++
             "\nC3|Dan|019|d@x|0|12.25|4|1700000500\n").toList } =
      [CustomerD.mk "C1".toList "Bob".toList "017".toList "b@x".toList (.fin 500)
         (.fin (15 / 2)) 2 1700000000,
       CustomerD.mk "C3".toList "Dan".toList "019".toList "d@x".toList (.fin 0)
         (.fin (49 / 4)) 4 1700000500] := by
  refine ⟨?_, ?_, parse_customer_d_full, stod_d_eq_none_iff, stoi_eq_none_iff,
    stoll_eq_none_iff, by decide!⟩
  · intro w ls last h hl hw
    unfold load_customers_d
    rw [hw]
    simp only
    rw [splitOn_lines_last ls last h hl]
  · intro line h
    unfold parse_customer_d
    rw [if_pos h]

/-- A line whose loyalty field is `abc` is dropped: `stod` does not convert it. -/
theorem load_customers_accepts_witness :
    parse_customer_d ("C2".toList ++ '|' :: ("Eve".toList ++ '|' :: ("018".toList ++ '|' ::
      ("e@x".toList ++ '|' :: ("abc".toList ++ '|' :: ("1".toList ++ '|' ::
        ("1".toList ++ '|' :: "1".toList))))))) =
      (stod_d "abc".toList).bind (fun p => (stod_d "1".toList).bind (fun sp =>
        (stoi "1".toList).bind (fun v => (stoll "1".toList).map (fun l =>
          CustomerD.mk "C2".toList "Eve".toList "018".toList "e@x".toList p sp v l)))) ∧
    stod_d "abc".toList = none :=
  ⟨load_customers_accepts.2.2.1 "C2".toList "Eve".toList "018".toList "e@x".toList
    "abc".toList "1".toList "1".toList "1".toList
    (by decide) (by decide) (by decide) (by decide) (by decide) (by decide) (by decide)
    (by decide) (by decide), by decide!⟩

/-- C19 as stated fails: the loyalty fields `5abc` and `nan` and the spend field `inf` are
not numbers, yet the lines are loaded, with the loyalty balance 5, a NaN, and an infinite
spend; the loyalty field `1e400` is a number, yet the line is dropped, because `stod`
throws `out_of_range`. -/
theorem load_customers_reads_what_stod_reads :
    load_customers_d
        { customers := some
            ("C1|Bob|017|b@x|5abc|7.5|2|1700000000\nC2|Eve|018|e@x|nan|inf|1|1700000001\n" ++
             "C3|Dan|019|d@x|1e400|1|1|1700000002\nC4|Ann|020|a@x|0x10|1|1|1700000003\n").toList } =
      [CustomerD.mk "C1".toList "Bob".toList "017".toList "b@x".toList (.fin 5)
         (.fin (15 / 2)) 2 1700000000,
       CustomerD.mk "C2".toList "Eve".toList "018".toList "e@x".toList (.nan false)
         (.inf false) 1 1700000001,
       CustomerD.mk "C4".toList "Ann".toList "020".toList "a@x".toList (.fin 16)
         (.fin 1) 1 1700000003] := by
  decide!

/-- A line whose last field ends the text is read with that field for every number that
is missing after it, because the result of `getline` is not checked. -/
theorem parse_customer_d_short_line :
    parse_customer_d "C1|Bob|017|b@x|5".toList =
      some (CustomerD.mk "C1".toList "Bob".toList "017".toList "b@x".toList (.fin 5) (.fin 5)
        5 5) := by
  decide!


/-! ## Stock conservation at cancel: the defect -/

/-- C1: the defect.  The catalog holds Rice (100 units).  "Add New Item" is given the name
Rice with a blank in front, the barcode 12345678 and 10 units: `find_item` does not find
the name, the record is appended, and the catalog read back holds two products called
Rice, since `parse_line` trims the name.  In the checkout 2 units are added by the barcode
12345678, which takes them from the second product (8 left), and the sale is cancelled:
the cancel branch looks the cart line up by its name, finds the first product and adds the
2 units there.  The catalog that cancel saves holds 102 and 8 units instead of 100 and 10,
with amounts as exact numbers and in `double` arithmetic alike. -/
theorem cancel_restores_wrong_product :
    (load_inventory (add_new_item { inventory := some "Rice|40|100\n".toList }
        { name := " Rice".toList, barcode := "12345678".toList, rate := some 45,
          qty := some 10 })).1 =
      [{ name := "Rice".toList, rate := 40, qty := 100 },
       { name := "Rice".toList, rate := 45, qty := 10, barcode := "12345678".toList }] ∧
    print_bill_flow
        (add_new_item { inventory := some "Rice|40|100\n".toList }
          { name := " Rice".toList, barcode := "12345678".toList, rate := some 45,
            qty := some 10 })
        { entries := [{ choice := some 2, input := "12345678".toList, q := some 2 },
                      { choice := some 6 }] } =
      some { inventory := some (inventory_text
        [{ name := "Rice".toList, rate := 40, qty := 102 },
         { name := "Rice".toList, rate := 45, qty := 8, barcode := "12345678".toList }]) } ∧
    print_bill_flow_d
        (add_new_item { inventory := some "Rice|40|100\n".toList }
          { name := " Rice".toList, barcode := "12345678".toList, rate := some 45,
            qty := some 10 })
        { entries := [{ choice := some 2, input := "12345678".toList, q := some 2 },
                      { choice := some 6 }] } =
      some { inventory := some (INVENTORY_HEADER ++
        ("\nRice|40.000000|102||||5\n" ++ "Rice|45.000000|8|12345678|||5\n").toList) } := by
  refine ⟨by decide!, by decide!, by decide!⟩


end BillMaster
